import Mathlib

/-!
fabric-oidc-proxy: claim extraction, credential store and request handlers.

A shallow embedding of the Go sources of `edgeflare/fabric-oidc-proxy`
(`internal/util/jq.go`, `internal/fabric/ca_client.go`,
`internal/fabric/gw_client.go`, `internal/proxy/enroll_user.go`,
`internal/proxy/submit_tx.go`) together with the properties proved about them.

Conventions of the embedding:

* a Go `string` is a list of characters (`GoString`), which agrees with Go's
  bytes on every operation used here as long as the strings are valid UTF-8;
* a Go call that can abort with a run-time panic returns a `GoResult`;
* the `(value, error)` pair of `Jq` is a Lean pair whose second component is an
  `Option` of the error; the other functions return an `Except`, their value
  being the zero value whenever the error is not `nil`;
* functions with effects take the world they run in and return the world they
  leave, which records the calls made in order;
* an error of the file system carries no text: where the code wraps it with
  `%w`, the message modelled is the text the repository puts before it;
* Go's `int` is 64 bits wide.
-/

set_option autoImplicit false
set_option maxRecDepth 100000

/-- A Go string, as the sequence of its characters. -/
abbrev GoString := List Char

/-- Outcome of running a Go function body: it returns, or the goroutine panics. -/
inductive GoResult (α : Type) where
  | returned (a : α)
  | panicked
  deriving Repr

/-! ## The parts of package `strings` and `strconv` used by `Jq` -/

namespace strings

/-- Go `strings.TrimPrefix(s, pre)`: `s` without the leading `pre`, once, when present. -/
def TrimPrefix (s pre : GoString) : GoString :=
  if pre.isPrefixOf s then s.drop pre.length else s

/-- Go `strings.Split(s, sep)` for a one-character separator: the pieces of `s`
between the occurrences of `sep`; always at least one piece. -/
def Split : GoString → Char → List GoString
  | [], _ => [[]]
  | c :: cs, sep =>
    if c = sep then [] :: Split cs sep
    else
      match Split cs sep with
      | [] => [[c]]
      | piece :: pieces => (c :: piece) :: pieces

/-- Go `strings.Index(s, substr)` for a one-character `substr`: the position of
its first occurrence, or `-1`. -/
def Index : GoString → Char → Int
  | [], _ => -1
  | x :: xs, c =>
    if x = c then 0
    else
      let r := Index xs c
      if r < 0 then -1 else r + 1

/-- Go `strings.Contains(s, substr)`, which is `Index(s, substr) >= 0`. -/
def Contains (s : GoString) (c : Char) : Bool :=
  decide (Index s c ≥ 0)

end strings

/-- Go slice expression `s[lo:hi]` on a string: panics unless `0 ≤ lo ≤ hi ≤ len(s)`. -/
def GoString.slice (s : GoString) (lo hi : Int) : GoResult GoString :=
  if 0 ≤ lo ∧ lo ≤ hi ∧ hi ≤ (s.length : Int) then
    .returned ((s.drop lo.toNat).take (hi.toNat - lo.toNat))
  else .panicked

namespace strconv

/-- Largest value of Go `int` on a 64-bit platform. -/
def maxInt : Int := 2 ^ 63 - 1

/-- Smallest value of Go `int` on a 64-bit platform. -/
def minInt : Int := -(2 ^ 63)

/-- Decimal value of a run of ASCII digits, accumulated left to right
(`n = n*10 + int(ch - '0')`); `none` at the first byte outside `'0'..'9'`. -/
def parseDigits : GoString → Nat → Option Nat
  | [], acc => some acc
  | ch :: rest, acc =>
    if '0' ≤ ch ∧ ch ≤ '9' then parseDigits rest (acc * 10 + (ch.toNat - '0'.toNat))
    else none

/-- Go `strconv.Atoi(s)`: an optional sign followed by one or more decimal
digits, the value within the range of `int`; `none` stands for a non-nil error. -/
def Atoi (s : GoString) : Option Int :=
  let signed : Bool × GoString :=
    match s with
    | '-' :: rest => (true, rest)
    | '+' :: rest => (false, rest)
    | _ => (false, s)
  match signed.2 with
  | [] => none
  | body =>
    match parseDigits body 0 with
    | none => none
    | some n =>
      let v : Int := if signed.1 then -(n : Int) else (n : Int)
      if minInt ≤ v ∧ v ≤ maxInt then some v else none

end strconv

/-! ## JSON-like values (`interface{}` as decoded from a token's claims) -/

/-- The dynamic values a decoded claim set can hold. A Go `map[string]interface{}`
is an association list read by first match; the payload of a number is never
inspected by the code modelled here. -/
inductive Value where
  | null
  | bool (b : Bool)
  | number (n : Int)
  | string (s : GoString)
  | array (xs : List Value)
  | object (kvs : List (GoString × Value))
  deriving Repr

/-- Go map read `m[k]` on a `map[string]interface{}`: the value stored at `k`,
or the zero value `nil` when the key is absent. -/
def mapIndex : List (GoString × Value) → GoString → Value
  | [], _ => .null
  | (k', v) :: rest, k => if k' = k then v else mapIndex rest k

namespace util

/-- The four errors `Jq` builds with `fmt.Errorf`; each carries the path segment. -/
inductive JqError where
  | invalidArrayIndex (key : GoString)
  | indexOutOfRange (key : GoString)
  | expectedArray (key : GoString)
  | expectedMap (key : GoString)
  deriving Repr, DecidableEq

/-- The text of the error, as formatted in `jq.go`. -/
def JqError.Error : JqError → String
  | .invalidArrayIndex key => "invalid array index in path: " ++ String.mk key
  | .indexOutOfRange key => "index out of range in path: " ++ String.mk key
  | .expectedArray key => "expected array at path: " ++ String.mk key
  | .expectedMap key => "expected map at path: " ++ String.mk key

/-- The body of the `for _, key := range keys` loop of `Jq`, started at `current`. -/
def JqLoop (current : Value) : List GoString → GoResult (Value × Option JqError)
  | [] => .returned (current, none)
  | key :: keys =>
    match current with
    | .object currentMap =>
      if strings.Contains key '[' && strings.Contains key ']' then
        match GoString.slice key 0 (strings.Index key '[') with
        | .panicked => .panicked
        | .returned arrayKey =>
          match GoString.slice key (strings.Index key '[' + 1) (strings.Index key ']') with
          | .panicked => .panicked
          | .returned indexStr =>
            match strconv.Atoi indexStr with
            | none => .returned (.null, some (.invalidArrayIndex key))
            | some index =>
              match mapIndex currentMap arrayKey with
              | .array array =>
                if index < 0 ∨ index ≥ (array.length : Int) then
                  .returned (.null, some (.indexOutOfRange key))
                else
                  match array[index.toNat]? with
                  | some v => JqLoop v keys
                  | none => .panicked
              | _ => .returned (.null, some (.expectedArray key))
      else JqLoop (mapIndex currentMap key) keys
    | _ => .returned (.null, some (.expectedMap key))

/-- Go `util.Jq(input, path)`. -/
def Jq (input : List (GoString × Value)) (path : GoString) : GoResult (Value × Option JqError) :=
  let path := strings.TrimPrefix path ['.']
  let keys := strings.Split path '.'
  JqLoop (.object input) keys

end util

/-! ## A file system, and the parts of `os` and `path/filepath` used by the credential store -/

/-- What a path names: a regular file with its content, or a directory. -/
inductive Node where
  | file (content : GoString)
  | dir
  deriving Repr, DecidableEq

/-- A file system: the nodes that exist, keyed by the (cleaned) path that names
them; the first entry for a path is the one in force. -/
abbrev FS := List (GoString × Node)

/-- The node a path names, if any. -/
def FS.lookup : FS → GoString → Option Node
  | [], _ => none
  | (p, n) :: rest, path => if p = path then some n else FS.lookup rest path

namespace strings

/-- Go `strings.Join(elems, sep)` for a one-character separator. -/
def Join : List GoString → Char → GoString
  | [], _ => []
  | [e], _ => e
  | e :: es, sep => e ++ sep :: Join es sep

/-- Go `strings.LastIndex(s, substr)` for a one-character `substr`, or `-1`. -/
def LastIndex : GoString → Char → Int
  | [], _ => -1
  | x :: xs, c =>
    let r := LastIndex xs c
    if r ≥ 0 then r + 1 else if x = c then 0 else -1

end strings

namespace filepath

/-- Error values of package `path/filepath`. -/
inductive PatternError where
  | ErrBadPattern
  deriving Repr, DecidableEq

/-- One step of `Clean` over the elements of a path, `out` being the elements
kept so far, last first: empty and `.` elements are dropped, `..` removes the
element before it, is dropped at the root, and is kept at the start of a
relative path. -/
def cleanStep (rooted : Bool) (out : List GoString) (elem : GoString) : List GoString :=
  if elem = [] ∨ elem = ['.'] then out
  else if elem = ['.', '.'] then
    match out with
    | [] => if rooted then [] else [elem]
    | top :: below => if top = ['.', '.'] then elem :: out else below
  else elem :: out

/-- Go `filepath.Clean(path)` on Unix: the shortest path equivalent to `path`
by purely lexical processing. -/
def Clean (path : GoString) : GoString :=
  if path = [] then ['.']
  else
    let rooted : Bool := path.head? = some '/'
    let out := (strings.Split path '/').foldl (cleanStep rooted) []
    let body := strings.Join out.reverse '/'
    if rooted then '/' :: body else if body = [] then ['.'] else body

/-- Go `filepath.Join(elem...)`: leading empty elements are ignored, the rest is
joined with the separator and cleaned; no element at all gives the empty string. -/
def Join : List GoString → GoString
  | [] => []
  | e :: es => if e = [] then Join es else Clean (strings.Join (e :: es) '/')

/-- Go `filepath.Split(path)`: the part up to and including the last separator,
and the part after it. -/
def Split (path : GoString) : GoString × GoString :=
  let i := (strings.LastIndex path '/' + 1).toNat
  (path.take i, path.drop i)

/-- Go `hasMeta(path)` on Unix: some character of `path` is one of `*?[\`. -/
def hasMeta (path : GoString) : Bool :=
  path.any (fun c => c = '*' || c = '?' || c = '[' || c = '\\')

/-- Go `cleanGlobPath(path)` on Unix: the directory part of a pattern without
its trailing separator. -/
def cleanGlobPath (path : GoString) : GoString :=
  if path = [] then ['.']
  else if path = ['/'] then path
  else path.take (path.length - 1)

/-- The index at which the `Scan` loop of `scanChunk` stops: the first `*` that
is neither escaped nor inside a character class. -/
def scanLen : GoString → Bool → Nat
  | [], _ => 0
  | ['\\'], _ => 1
  | '\\' :: _ :: rest, inrange => 2 + scanLen rest inrange
  | '[' :: rest, _ => 1 + scanLen rest true
  | ']' :: rest, _ => 1 + scanLen rest false
  | '*' :: rest, inrange => if inrange then 1 + scanLen rest inrange else 0
  | _ :: rest, inrange => 1 + scanLen rest inrange

/-- Go `scanChunk(pattern)`: whether leading stars were skipped, the star-free
chunk that follows, and the rest of the pattern. -/
def scanChunk (pattern : GoString) : Bool × GoString × GoString :=
  let star : Bool := pattern.head? = some '*'
  let pattern := pattern.dropWhile (fun c => c = '*')
  let i := scanLen pattern false
  (star, pattern.take i, pattern.drop i)

/-- Go `getEsc(chunk)`: a possibly escaped character of a character class and
the rest of the chunk, which must not be empty. -/
def getEsc : GoString → Except PatternError (Char × GoString)
  | [] => .error .ErrBadPattern
  | '-' :: _ => .error .ErrBadPattern
  | ']' :: _ => .error .ErrBadPattern
  | ['\\'] => .error .ErrBadPattern
  | '\\' :: r :: nchunk => if nchunk = [] then .error .ErrBadPattern else .ok (r, nchunk)
  | r :: nchunk => if nchunk = [] then .error .ErrBadPattern else .ok (r, nchunk)

/-- The `for` loop of `matchChunk` that parses the ranges of a character class
against the character `r`: whether some range holds `r`, and the chunk after
the closing bracket. Each round consumes part of the chunk, so a budget of
more than its length is never used up. -/
def parseRanges : Nat → GoString → Char → Nat → Bool → Except PatternError (Bool × GoString)
  | 0, _, _, _, _ => .error .ErrBadPattern
  | budget + 1, chunk, r, nrange, matched =>
    if chunk.head? = some ']' ∧ nrange > 0 then .ok (matched, chunk.tail)
    else
      match getEsc chunk with
      | .error e => .error e
      | .ok (lo, chunk) =>
        if chunk.head? = some '-' then
          match getEsc chunk.tail with
          | .error e => .error e
          | .ok (hi, chunk) =>
            parseRanges budget chunk r (nrange + 1) (matched || (decide (lo ≤ r) && decide (r ≤ hi)))
        else
          parseRanges budget chunk r (nrange + 1) (matched || (decide (lo ≤ r) && decide (r ≤ lo)))

/-- The loop of Go `matchChunk`, with the flag `failed` as loop state. The
result is `some rest` when the chunk matches a beginning of `s`, `none` when
it does not, and an error when the chunk is malformed. -/
def matchChunkLoop : Nat → GoString → GoString → Bool → Except PatternError (Option GoString)
  | 0, _, _, _ => .error .ErrBadPattern
  | budget + 1, chunk, s, failed =>
    match chunk with
    | [] => if failed then .ok none else .ok (some s)
    | c :: chunkTail =>
      let failed := failed || s.isEmpty
      if c = '[' then
        let r : Char := if failed then Char.ofNat 0 else s.headD (Char.ofNat 0)
        let s := if failed then s else s.tail
        let negated : Bool := chunkTail.head? = some '^'
        let chunk := if negated then chunkTail.tail else chunkTail
        match parseRanges (chunk.length + 1) chunk r 0 false with
        | .error e => .error e
        | .ok (matched, chunk) => matchChunkLoop budget chunk s (failed || (matched == negated))
      else if c = '?' then
        let failed' := failed || (s.head? = some '/')
        let s := if failed then s else s.tail
        matchChunkLoop budget chunkTail s failed'
      else
        let literal : Option (Char × GoString) :=
          if c = '\\' then
            match chunkTail with
            | [] => none
            | l :: rest => some (l, rest)
          else some (c, chunkTail)
        match literal with
        | none => .error .ErrBadPattern
        | some (l, rest) =>
          let failed' := failed || (s.head? ≠ some l)
          let s := if failed then s else s.tail
          matchChunkLoop budget rest s failed'

/-- Go `matchChunk(chunk, s)`. -/
def matchChunk (chunk s : GoString) : Except PatternError (Option GoString) :=
  matchChunkLoop (chunk.length + 1) chunk s false

/-- The loop of `Match` run for a chunk that follows a star: the chunk is tried
after skipping `i + 1` characters of `name`, never past a separator. -/
def matchAfterStar (chunk : GoString) (lastChunk : Bool) :
    GoString → Except PatternError (Option GoString)
  | [] => .ok none
  | c :: rest =>
    if c = '/' then .ok none
    else
      match matchChunk chunk rest with
      | .error e => .error e
      | .ok (some t) => if lastChunk ∧ t ≠ [] then matchAfterStar chunk lastChunk rest else .ok (some t)
      | .ok none => matchAfterStar chunk lastChunk rest

/-- The `Pattern` loop of Go `filepath.Match`. Once a chunk has failed to match,
the result is `false` without an error: the rest of the pattern is not looked at. -/
def MatchLoop : Nat → GoString → GoString → Except PatternError Bool
  | 0, _, _ => .error .ErrBadPattern
  | budget + 1, pattern, name =>
    if pattern = [] then .ok (name.isEmpty)
    else
      let star := (scanChunk pattern).1
      let chunk := (scanChunk pattern).2.1
      let pattern := (scanChunk pattern).2.2
      if star ∧ chunk = [] then .ok (!strings.Contains name '/')
      else
        match matchChunk chunk name with
        | .error e => .error e
        | .ok first =>
          match first with
          | some t =>
            if t = [] ∨ pattern ≠ [] then MatchLoop budget pattern t
            else if star then
              match matchAfterStar chunk (decide (pattern = [])) name with
              | .error e => .error e
              | .ok (some t) => MatchLoop budget pattern t
              | .ok none => .ok false
            else .ok false
          | none =>
            if star then
              match matchAfterStar chunk (decide (pattern = [])) name with
              | .error e => .error e
              | .ok (some t) => MatchLoop budget pattern t
              | .ok none => .ok false
            else .ok false

/-- Go `filepath.Match(pattern, name)` on Unix. Each round of the loop consumes
part of the pattern, so the budget of its length plus one is never used up. -/
def Match (pattern name : GoString) : Except PatternError Bool :=
  MatchLoop (pattern.length + 1) pattern name

end filepath

namespace slices

/-- Byte-wise (lexicographic) order of Go strings: `a <= b`. -/
def stringLE : GoString → GoString → Bool
  | [], _ => true
  | _ :: _, [] => false
  | a :: as, b :: bs => if a < b then true else if b < a then false else stringLE as bs

/-- Insertion of one string into a sorted list. -/
def insertSorted (x : GoString) : List GoString → List GoString
  | [] => [x]
  | y :: ys => if stringLE x y then x :: y :: ys else y :: insertSorted x ys

/-- Go `slices.Sort(names)` on strings. -/
def SortStrings (names : List GoString) : List GoString :=
  names.foldr insertSorted []

end slices

namespace os

/-- Go `os.Stat(name)` (and `os.Lstat`, there being no symbolic links here):
the node at `name`; `none` stands for a non-nil error. The root and the
working directory always exist. -/
def Stat (fs : FS) (name : GoString) : Option Node :=
  if name = ['/'] ∨ name = ['.'] then some .dir else fs.lookup name

/-- Go `os.ReadFile(name)`: the content of the regular file at `name`. -/
def ReadFile (fs : FS) (name : GoString) : Option GoString :=
  match fs.lookup name with
  | some (.file content) => some content
  | _ => none

/-- The name under which the node at path `key` is an entry of directory `dir`,
if it is one. -/
def childName (dir key : GoString) : Option GoString :=
  let stem : GoString := if dir = ['.'] then [] else if dir = ['/'] then dir else dir ++ ['/']
  if stem.isPrefixOf key then
    let name := key.drop stem.length
    if name = [] ∨ name = ['.'] ∨ name = ['.', '.'] ∨ name.contains '/' then none else some name
  else none

/-- Go `(*File).Readdirnames(-1)` on the directory `dir`: the names of its
entries, each once. -/
def Readdirnames (fs : FS) (dir : GoString) : List GoString :=
  (fs.filterMap (fun entry => childName dir entry.1)).eraseDups

/-- The directory that has to exist for `name` to be created in it. -/
def parentDir (name : GoString) : GoString :=
  let i := strings.LastIndex name '/'
  if i < 0 then ['.'] else if i = 0 then ['/'] else name.take i.toNat

/-- Go `os.Create(name)`: the file is created or truncated; it fails when the
parent is no directory or `name` is a directory. -/
def Create (fs : FS) (name : GoString) : Option FS :=
  match Stat fs (parentDir name), Stat fs name with
  | some .dir, some .dir => none
  | some .dir, _ => if name = [] then none else some ((name, .file []) :: fs)
  | _, _ => none

/-- Go `(*File).WriteString(s)` on the file just created at `name`. -/
def WriteString (fs : FS) (name s : GoString) : FS :=
  (name, .file s) :: fs

/-- Go `os.Mkdir(name, perm)`. -/
def Mkdir (fs : FS) (name : GoString) : Option FS :=
  match Stat fs (parentDir name), Stat fs name with
  | some .dir, none => if name = [] then none else some ((name, .dir) :: fs)
  | _, _ => none

/-- Go `os.MkdirAll(path, perm)` on a cleaned path: nothing to do when the
directory exists, an error when a file is in the way, and otherwise the parent
is made first. The budget bounds the number of parents. -/
def MkdirAllLoop : Nat → FS → GoString → Option FS
  | 0, _, _ => none
  | budget + 1, fs, path =>
    match Stat fs path with
    | some .dir => some fs
    | some (.file _) => none
    | none =>
      if strings.LastIndex path '/' > 0 then
        match MkdirAllLoop budget fs (parentDir path) with
        | none => none
        | some fs => Mkdir fs path
      else Mkdir fs path

/-- Go `os.MkdirAll(path, perm)`. -/
def MkdirAll (fs : FS) (path : GoString) : Option FS :=
  MkdirAllLoop (path.length + 1) fs path

end os

namespace filepath

/-- The loop of Go `glob(dir, pattern, found)` over the sorted names. -/
def globNames (dir pattern : GoString) :
    List GoString → List GoString → Except PatternError (List GoString)
  | [], found => .ok found
  | n :: names, found =>
    match Match pattern n with
    | .error e => .error e
    | .ok matched => globNames dir pattern names (if matched then found ++ [Join [dir, n]] else found)

/-- Go `glob(dir, pattern, found)`: the entries of `dir` that match `pattern`,
in sorted order, appended to `found`; a `dir` that is no directory adds nothing. -/
def glob (fs : FS) (dir pattern : GoString) (found : List GoString) :
    Except PatternError (List GoString) :=
  match os.Stat fs dir with
  | some .dir => globNames dir pattern (slices.SortStrings (os.Readdirnames fs dir)) found
  | _ => .ok found

/-- The loop `for _, d := range m` of `globWithLimit`. -/
def globDirs (fs : FS) (file : GoString) :
    List GoString → List GoString → Except PatternError (List GoString)
  | [], found => .ok found
  | d :: ds, found =>
    match glob fs d file found with
    | .error e => .error e
    | .ok found => globDirs fs file ds found

/-- Go `globWithLimit(pattern, depth)`, with `limit` the number of nested calls
still allowed (`pathSeparatorsLimit - depth`). The matches found before an
error are not kept. -/
def globWithLimit (fs : FS) : Nat → GoString → Except PatternError (List GoString)
  | 0, _ => .error .ErrBadPattern
  | limit + 1, pattern =>
    match Match pattern [] with
    | .error e => .error e
    | .ok _ =>
      if !hasMeta pattern then
        match os.Stat fs pattern with
        | none => .ok []
        | some _ => .ok [pattern]
      else
        let dir := cleanGlobPath (Split pattern).1
        let file := (Split pattern).2
        if !hasMeta dir then glob fs dir file []
        else if dir = pattern then .error .ErrBadPattern
        else
          match globWithLimit fs limit dir with
          | .error e => .error e
          | .ok m => globDirs fs file m []

/-- Go `pathSeparatorsLimit`. -/
def pathSeparatorsLimit : Nat := 10000

/-- Go `filepath.Glob(pattern)`. -/
def Glob (fs : FS) (pattern : GoString) : Except PatternError (List GoString) :=
  globWithLimit fs pathSeparatorsLimit pattern

end filepath

/-! ## Configuration, requests and the collaborators outside the repository -/

namespace config

/-- Go `config.FabricCAConfig`. -/
structure FabricCAConfig where
  URL : GoString
  ClientHome : GoString
  ClientMSPDir : GoString
  TLSCert : GoString
  TLSKey : GoString
  TLSTrustedCerts : GoString
  Admin : GoString
  AdminSecret : GoString
  OIDCClaimKey : GoString
  deriving Repr

/-- Go `config.FabricGWConfig`. -/
structure FabricGWConfig where
  MSPID : GoString
  TLSCert : GoString
  TLSKey : GoString
  TLSTrustedCerts : GoString
  PeerEndpoint : GoString
  PeerServerNameOverride : GoString
  MSPCert : GoString
  MSPKey : GoString
  deriving Repr

/-- Go `config.FabricConfig`. -/
structure FabricConfig where
  CA : FabricCAConfig
  GW : FabricGWConfig
  deriving Repr

/-- Go `config.Config`, without the fields no modelled function reads
(`OIDC`, `LogLevel`, `HTTP`). -/
structure Config where
  Fabric : FabricConfig
  deriving Repr

end config

namespace api

/-- Go `api.Attribute` of fabric-ca. -/
structure Attribute where
  Name : GoString
  Value : GoString
  ECert : Bool
  deriving Repr, DecidableEq

/-- Go `api.RegistrationRequest` of fabric-ca (`Typ` is its field `Type`). -/
structure RegistrationRequest where
  Name : GoString
  Typ : GoString
  Secret : GoString
  MaxEnrollments : Int
  Affiliation : GoString
  Attributes : List Attribute
  CAName : GoString
  deriving Repr, DecidableEq

/-- Go `api.EnrollmentRequest` of fabric-ca, with the fields the repository sets
(`Typ` is its field `Type`). -/
structure EnrollmentRequest where
  Name : GoString
  Secret : GoString
  Profile : GoString
  Typ : GoString
  deriving Repr, DecidableEq

end api

namespace oidc

/-- Go `oidc.IntrospectionResponse`: the authenticated user the middleware puts
in the request context. -/
structure IntrospectionResponse where
  Active : Bool
  Subject : GoString
  Claims : List (GoString × Value)
  deriving Repr

end oidc

namespace lib

/-- What `identity.GetX509Credential().Val()` yields: an error, a value that is
no `*x509.Signer`, or a signer with its certificate in PEM form. Every identity
has a credential, as those the CA library returns have; an identity without
one, on which the call panics, is not modelled. -/
inductive CredentialVal where
  | valError (err : String)
  | notSigner
  | signer (cert : GoString)
  deriving Repr, DecidableEq

/-- Go `lib.Identity` of fabric-ca, as far as the repository reads it. -/
structure Identity where
  Name : GoString
  /-- The value of `identity.GetClient().Config.MSPDir`. -/
  MSPDir : GoString
  X509Credential : CredentialVal
  deriving Repr, DecidableEq

/-- Go `lib.Client` of fabric-ca as `NewCAClient` fills it in. -/
structure Client where
  HomeDir : GoString
  URL : GoString
  MSPDir : GoString
  TLSCertFiles : List GoString
  TLSKeyFile : GoString
  TLSCertFile : GoString
  deriving Repr, DecidableEq

end lib

/-- The signed client identity handed to the gateway: the results of
`identity.NewX509Identity` and `identity.NewPrivateKeySign`, and the connection. -/
structure Gateway where
  id : GoString
  sign : GoString
  conn : Nat
  deriving Repr, DecidableEq

/-- Everything the repository calls but does not define: the encoders of the
standard library, the fabric-ca client library, the X.509 and PEM parsers, gRPC
and the fabric-gateway client. Their results are left arbitrary; what they do
to the file system and to the remote systems (whose state has type `σ`) is
part of their result. `none` in a position that is an `error` in Go means `nil`. -/
structure External (σ : Type) where
  /-- Go `json.Marshal` on a claim value. -/
  jsonMarshal : Value → Except String GoString
  /-- Go `json.Unmarshal` into an `api.RegistrationRequest`. -/
  jsonUnmarshalRegistrationRequest : GoString → Except String api.RegistrationRequest
  /-- Go `json.Unmarshal` into a `json.RawMessage`: whether the bytes are JSON. -/
  jsonValid : GoString → Bool
  /-- Go `base64.StdEncoding.EncodeToString`. -/
  base64Encode : GoString → GoString
  /-- Go `pgo.BindOrRespondError` on a request body: the decoded fields `name`
  and `args`, or the status and text of the error response it has written. -/
  bind : GoString → Except (Nat × String) (GoString × List GoString)
  /-- Go `(*lib.Client).Init`. -/
  caInit : lib.Client → FS → FS × Option String
  /-- Go `(*lib.Client).LoadMyIdentity`. -/
  caLoadMyIdentity : lib.Client → FS → Except String lib.Identity
  /-- Go `(*lib.Client).Enroll`; the identity of the response may be `nil`. -/
  caEnroll : lib.Client → api.EnrollmentRequest → FS → σ →
    FS × σ × Except String (Option lib.Identity)
  /-- Go `(*lib.Identity).Register`, giving the enrollment secret. -/
  caRegister : lib.Identity → api.RegistrationRequest → σ → σ × Except String GoString
  /-- Go `identity.CertificateFromPEM`. -/
  CertificateFromPEM : GoString → Except String GoString
  /-- Go `identity.NewX509Identity(mspID, certificate)`. -/
  NewX509Identity : GoString → GoString → Except String GoString
  /-- Go `pem.Decode`: the bytes of the first PEM block, if there is one. -/
  pemDecode : GoString → Option GoString
  /-- Go `x509.ParsePKCS8PrivateKey`. -/
  ParsePKCS8PrivateKey : GoString → Except String GoString
  /-- Go `x509.ParseECPrivateKey`. -/
  ParseECPrivateKey : GoString → Except String GoString
  /-- Go `x509.ParsePKCS1PrivateKey`. -/
  ParsePKCS1PrivateKey : GoString → Except String GoString
  /-- Go `identity.NewPrivateKeySign`. -/
  NewPrivateKeySign : GoString → Except String GoString
  /-- Go `grpc.NewClient(endpoint, credentials from the pool and the override)`. -/
  grpcNewClient : GoString → GoString → GoString → Option String
  /-- Go `client.Connect(id, sign, connection, timeouts)`. -/
  gatewayConnect : GoString → GoString → Option String
  /-- Go `contract.SubmitTransaction(fn, args...)` on channel and chaincode. -/
  contractSubmit : Gateway → GoString → GoString → GoString → List GoString → σ →
    σ × Except String GoString

/-- A call made while a request is served, in the order of the calls: the
functions of the repository that matter to its contract, and every call that
reaches the file system, the certificate authority or the peer. -/
inductive Event where
  | Jq (path : GoString)
  | GetMSPKeyfile (homeDir : GoString)
  | LoadMSPKeyCert (homeDir : GoString)
  | RegisterAndEnrollUser (regReq : api.RegistrationRequest)
  | NewGatewayClient (mspCert mspKey : GoString)
  | SubmitTransaction (channelID chaincodeID fn : GoString) (args : List GoString)
  | osGlob (pattern : GoString)
  | osReadFile (name : GoString)
  | osCreate (name : GoString)
  | osMkdirAll (path : GoString)
  | caInit (homeDir : GoString)
  | caLoadMyIdentity (homeDir : GoString)
  | caEnroll (request : api.EnrollmentRequest)
  | caRegister (regReq : api.RegistrationRequest)
  | grpcNewClient (endpoint : GoString)
  | gatewayConnect
  | contractSubmit (channelID chaincodeID fn : GoString) (args : List GoString)
  deriving Repr, DecidableEq

/-- The state a request handler runs in and may change. -/
structure World (σ : Type) where
  /-- The local file system. -/
  fs : FS
  /-- The state of the certificate authority and of the ledger. -/
  remote : σ
  /-- The gRPC client connections opened and not closed, by number. -/
  conns : List Nat
  /-- The number of gRPC client connections created so far. -/
  nextConn : Nat
  /-- The calls made so far, oldest first. -/
  trace : List Event

/-- The world after one more call has been recorded. -/
def World.log {σ : Type} (w : World σ) (e : Event) : World σ :=
  { w with trace := w.trace ++ [e] }

/-- The world with another file system. -/
def World.setFS {σ : Type} (w : World σ) (fs : FS) : World σ :=
  { w with fs := fs }

/-! ## Package `fabric`: the credential store, the CA client and the gateway client -/

namespace fabric

/-- Go `fabric.MSPKeyCert`. -/
structure MSPKeyCert where
  Cert : GoString
  Key : GoString
  deriving Repr, DecidableEq

/-- Go `GetMSPKeyfile(homeDir)`: the first match of `<homeDir>/msp/keystore/*`. -/
def GetMSPKeyfile {σ : Type} (w : World σ) (homeDir : GoString) :
    Except String GoString × World σ :=
  let w := w.log (.GetMSPKeyfile homeDir)
  let keystoreDir := filepath.Join [homeDir, "msp".toList, "keystore".toList]
  let w := w.log (.osGlob (filepath.Join [keystoreDir, "*".toList]))
  match filepath.Glob w.fs (filepath.Join [keystoreDir, "*".toList]) with
  | .error _ => (.error "syntax error in pattern", w)
  | .ok [] => (.error "no key file found in keystore", w)
  | .ok (keyFile :: _) => (.ok keyFile, w)

/-- Go `LoadMSPKeyCert(homeDir)`. -/
def LoadMSPKeyCert {σ : Type} (w : World σ) (homeDir : GoString) :
    Except String MSPKeyCert × World σ :=
  let w := w.log (.LoadMSPKeyCert homeDir)
  let certFilePath := filepath.Join [homeDir, "msp".toList, "signcerts".toList, "cert.pem".toList]
  match GetMSPKeyfile w (filepath.Join [homeDir]) with
  | (.error err, w) => (.error ("failed to get MSP keyfile: " ++ err), w)
  | (.ok keyFilePath, w) =>
    let w := w.log (.osReadFile certFilePath)
    match os.ReadFile w.fs certFilePath with
    | none => (.error "failed to read certificate file", w)
    | some certBytes =>
      let w := w.log (.osReadFile keyFilePath)
      match os.ReadFile w.fs keyFilePath with
      | none => (.error "failed to read key file", w)
      | some keyBytes => (.ok { Cert := certBytes, Key := keyBytes }, w)

/-- Go `createUserDir(userDir)`; `none` is a `nil` error. -/
def createUserDir {σ : Type} (w : World σ) (userDir : GoString) : Option String × World σ :=
  let w := w.log (.osMkdirAll (filepath.Join [userDir, "msp".toList]))
  match os.MkdirAll w.fs (filepath.Join [userDir, "msp".toList]) with
  | none => (some "failed to create user directory", w)
  | some fs => (none, w.setFS fs)

/-- Go `certFromIdentity(identity)`. -/
def certFromIdentity (identity : lib.Identity) : Except String GoString :=
  match identity.X509Credential with
  | .valError err => .error ("failed to get x509 credential: " ++ err)
  | .notSigner => .error "failed to cast credential to x509.Signer"
  | .signer cert => .ok cert

/-- Go `writeCert(identity, filePath)`; `none` is a `nil` error. The deferred
`Close` cannot change the value returned. -/
def writeCert {σ : Type} (w : World σ) (identity : lib.Identity) (filePath : GoString) :
    Option String × World σ :=
  match certFromIdentity identity with
  | .error err => (some ("failed to get certificate from identity: " ++ err), w)
  | .ok certString =>
    let w := w.log (.osCreate filePath)
    match os.Create w.fs filePath with
    | none => (some "failed to create file", w)
    | some fs => (none, w.setFS (os.WriteString fs filePath certString))

/-- Go `CAClient`, the wrapper of `lib.Client`. -/
structure CAClient where
  caClient : lib.Client
  deriving Repr, DecidableEq

/-- Go `NewCAClient(cfg, userHomeDir...)`, the optional argument being the first
of the variadic ones. -/
def NewCAClient {σ : Type} (ext : External σ) (cfg : config.Config) (w : World σ)
    (userHomeDir : Option GoString) : Except String CAClient × World σ :=
  let homeDir :=
    match userHomeDir with
    | some dir => dir
    | none => cfg.Fabric.CA.ClientHome
  let caClient : lib.Client :=
    { HomeDir := homeDir
      URL := cfg.Fabric.CA.URL
      MSPDir := cfg.Fabric.CA.ClientMSPDir
      TLSCertFiles := [cfg.Fabric.CA.TLSTrustedCerts]
      TLSKeyFile := cfg.Fabric.CA.TLSKey
      TLSCertFile := cfg.Fabric.CA.TLSCert }
  let w := w.log (.caInit homeDir)
  match ext.caInit caClient w.fs with
  | (fs, some err) => (.error ("failed to initialize CA client: " ++ err), w.setFS fs)
  | (fs, none) => (.ok { caClient := caClient }, w.setFS fs)

/-- Go `(*CAClient).Enroll(request)`. -/
def CAClient.Enroll {σ : Type} (ext : External σ) (w : World σ) (c : CAClient)
    (request : api.EnrollmentRequest) : Except String lib.Identity × World σ :=
  let w := w.log (.caEnroll request)
  match ext.caEnroll c.caClient request w.fs w.remote with
  | (fs, remote, .error err) =>
    (.error ("failed to enroll: " ++ err), { w with fs := fs, remote := remote })
  | (fs, remote, .ok none) =>
    (.error "received empty identity after enrollment", { w with fs := fs, remote := remote })
  | (fs, remote, .ok (some identity)) =>
    let w := { w with fs := fs, remote := remote }
    let certFilePath := filepath.Join [identity.MSPDir, "signcerts".toList, "cert.pem".toList]
    match writeCert w identity certFilePath with
    | (some err, w) => (.error ("failed to save cert to file: " ++ err), w)
    | (none, w) => (.ok identity, w)

/-- Go `(*CAClient).EnrollAdmin()`. -/
def CAClient.EnrollAdmin {σ : Type} (ext : External σ) (cfg : config.Config) (w : World σ)
    (c : CAClient) : Except String lib.Identity × World σ :=
  let w := w.log (.caLoadMyIdentity c.caClient.HomeDir)
  match ext.caLoadMyIdentity c.caClient w.fs with
  | .ok identity => (.ok identity, w)
  | .error _ =>
    CAClient.Enroll ext w c
      { Name := cfg.Fabric.CA.Admin
        Secret := cfg.Fabric.CA.AdminSecret
        Profile := "tls".toList
        Typ := "x509".toList }

/-- Go `RegisterAndEnrollUser(regReq)`. -/
def RegisterAndEnrollUser {σ : Type} (ext : External σ) (cfg : config.Config) (w : World σ)
    (regReq : api.RegistrationRequest) : Except String lib.Identity × World σ :=
  let w := w.log (.RegisterAndEnrollUser regReq)
  let userDir := filepath.Join [cfg.Fabric.CA.ClientHome, "users".toList, regReq.Name]
  match createUserDir w userDir with
  | (some err, w) => (.error ("failed to create user directory: " ++ err), w)
  | (none, w) =>
    match NewCAClient ext cfg w (some userDir) with
    | (.error err, w) => (.error ("failed to initialize user CA client: " ++ err), w)
    | (.ok userCAClient, w) =>
      match NewCAClient ext cfg w none with
      | (.error err, w) => (.error ("failed to initialize admin CA client: " ++ err), w)
      | (.ok adminCAClient, w) =>
        match CAClient.EnrollAdmin ext cfg w adminCAClient with
        | (.error err, w) => (.error ("failed to enroll admin: " ++ err), w)
        | (.ok adminIdentity, w) =>
          let w := w.log (.caRegister regReq)
          match ext.caRegister adminIdentity regReq w.remote with
          | (remote, .error err) =>
            (.error ("failed to register user: " ++ err), { w with remote := remote })
          | (remote, .ok secret) =>
            CAClient.Enroll ext { w with remote := remote } userCAClient
              { Name := regReq.Name
                Secret := secret
                Profile := "tls".toList
                Typ := "x509".toList }

/-- Go `GWClient`, the wrapper of `client.Gateway`. -/
structure GWClient where
  Gateway : Gateway
  deriving Repr, DecidableEq

/-- Go `newGrpcConnection(ctx)`: the number of the connection opened. -/
def newGrpcConnection {σ : Type} (ext : External σ) (cfg : config.Config) (w : World σ) :
    Except String Nat × World σ :=
  let w := w.log (.osReadFile cfg.Fabric.GW.TLSTrustedCerts)
  match os.ReadFile w.fs cfg.Fabric.GW.TLSTrustedCerts with
  | none => (.error "failed to read TLS certificate file", w)
  | some certificatePEM =>
    match ext.CertificateFromPEM certificatePEM with
    | .error err => (.error ("failed to parse TLS certificate: " ++ err), w)
    | .ok certificate =>
      let w := w.log (.grpcNewClient cfg.Fabric.GW.PeerEndpoint)
      match ext.grpcNewClient cfg.Fabric.GW.PeerEndpoint certificate
          cfg.Fabric.GW.PeerServerNameOverride with
      | some err => (.error ("failed to create gRPC connection: " ++ err), w)
      | none =>
        (.ok w.nextConn, { w with conns := w.conns ++ [w.nextConn], nextConn := w.nextConn + 1 })

/-- Go `newIdentity(certPath, mspID)`. -/
def newIdentity {σ : Type} (ext : External σ) (w : World σ) (certPath mspID : GoString) :
    Except String GoString × World σ :=
  let w := w.log (.osReadFile certPath)
  match os.ReadFile w.fs certPath with
  | none => (.error "failed to read certificate file", w)
  | some certificatePEM =>
    match ext.CertificateFromPEM certificatePEM with
    | .error err => (.error ("failed to parse certificate: " ++ err), w)
    | .ok certificate =>
      match ext.NewX509Identity mspID certificate with
      | .error err => (.error ("failed to create X509 identity: " ++ err), w)
      | .ok id => (.ok id, w)

/-- Go `parsePrivateKey(pemBytes)`. -/
def parsePrivateKey {σ : Type} (ext : External σ) (pemBytes : GoString) : Except String GoString :=
  match ext.pemDecode pemBytes with
  | none => .error "failed to decode PEM block containing the private key"
  | some blockBytes =>
    match ext.ParsePKCS8PrivateKey blockBytes with
    | .ok privateKey => .ok privateKey
    | .error _ =>
      match ext.ParseECPrivateKey blockBytes with
      | .ok privateKey => .ok privateKey
      | .error _ =>
        match ext.ParsePKCS1PrivateKey blockBytes with
        | .ok privateKey => .ok privateKey
        | .error _ => .error "failed to parse private key"

/-- Go `newSign(keyPath)`. -/
def newSign {σ : Type} (ext : External σ) (w : World σ) (keyPath : GoString) :
    Except String GoString × World σ :=
  let w := w.log (.osReadFile keyPath)
  match os.ReadFile w.fs keyPath with
  | none => (.error "failed to read private key file", w)
  | some privateKeyPEM =>
    match parsePrivateKey ext privateKeyPEM with
    | .error err => (.error ("failed to parse private key: " ++ err), w)
    | .ok privateKey =>
      match ext.NewPrivateKeySign privateKey with
      | .error err => (.error ("failed to create sign function: " ++ err), w)
      | .ok sign => (.ok sign, w)

/-- Go `NewGatewayClient(ctx, conf...)`, the optional argument being the first
of the variadic ones. -/
def NewGatewayClient {σ : Type} (ext : External σ) (cfg : config.Config) (w : World σ)
    (conf : Option config.Config) : Except String GWClient × World σ :=
  let localCfg : config.Config :=
    match conf with
    | some c =>
      { cfg with Fabric := { cfg.Fabric with GW := { cfg.Fabric.GW with
          MSPCert := c.Fabric.GW.MSPCert, MSPKey := c.Fabric.GW.MSPKey } } }
    | none => cfg
  let w := w.log (.NewGatewayClient localCfg.Fabric.GW.MSPCert localCfg.Fabric.GW.MSPKey)
  match newGrpcConnection ext cfg w with
  | (.error err, w) => (.error ("failed to create gRPC connection: " ++ err), w)
  | (.ok clientConn, w) =>
    match newIdentity ext w localCfg.Fabric.GW.MSPCert localCfg.Fabric.GW.MSPID with
    | (.error err, w) => (.error ("failed to create identity: " ++ err), w)
    | (.ok id, w) =>
      match newSign ext w localCfg.Fabric.GW.MSPKey with
      | (.error err, w) => (.error ("failed to create signer: " ++ err), w)
      | (.ok sign, w) =>
        let w := w.log .gatewayConnect
        match ext.gatewayConnect id sign with
        | some err => (.error ("failed to connect to gateway: " ++ err), w)
        | none => (.ok { Gateway := { id := id, sign := sign, conn := clientConn } }, w)

/-- The zero value of `config.Config`. -/
def zeroConfig : config.Config :=
  { Fabric :=
      { CA := { URL := [], ClientHome := [], ClientMSPDir := [], TLSCert := [], TLSKey := [],
                TLSTrustedCerts := [], Admin := [], AdminSecret := [], OIDCClaimKey := [] }
        GW := { MSPID := [], TLSCert := [], TLSKey := [], TLSTrustedCerts := [],
                PeerEndpoint := [], PeerServerNameOverride := [], MSPCert := [], MSPKey := [] } } }

/-- Go `SubmitTransaction(ctx, channelID, chaincodeID, fn, args...)`; `user` is
the value of the context at `pgo.OIDCUserCtxKey`. -/
def SubmitTransaction {σ : Type} (ext : External σ) (cfg : config.Config) (w : World σ)
    (user : Option oidc.IntrospectionResponse) (channelID chaincodeID fn : GoString)
    (args : List GoString) : Except String GoString × World σ :=
  let w := w.log (.SubmitTransaction channelID chaincodeID fn args)
  match user with
  | none => (.error "no user found", w)
  | some user =>
    let userDir := filepath.Join [cfg.Fabric.CA.ClientHome, "users".toList, user.Subject]
    match GetMSPKeyfile w userDir with
    | (.error err, w) => (.error ("failed to get MSP keyfile: " ++ err), w)
    | (.ok keyPath, w) =>
      let certPath := filepath.Join [cfg.Fabric.CA.ClientHome, "users".toList, user.Subject,
        "msp".toList, "signcerts".toList, "cert.pem".toList]
      let conf : config.Config :=
        { zeroConfig with Fabric := { zeroConfig.Fabric with GW := { zeroConfig.Fabric.GW with
            MSPCert := certPath, MSPKey := keyPath } } }
      match NewGatewayClient ext cfg w (some conf) with
      | (.error err, w) => (.error ("failed to create gateway client: " ++ err), w)
      | (.ok gw, w) =>
        let w := w.log (.contractSubmit channelID chaincodeID fn args)
        match ext.contractSubmit gw.Gateway channelID chaincodeID fn args w.remote with
        | (remote, .error err) =>
          (.error ("failed to submit transaction: " ++ err), { w with remote := remote })
        | (remote, .ok resultBytes) => (.ok resultBytes, { w with remote := remote })

end fabric

/-! ## Package `proxy`: the two request handlers -/

namespace proxy

/-- What a handler needs of an `*http.Request` behind the OIDC middleware. -/
structure Request where
  /-- The result of `pgo.OIDCUser(r)`; `none` when `ok` is false. -/
  user : Option oidc.IntrospectionResponse
  /-- The request body. -/
  body : GoString
  /-- The value of `r.PathValue("channel")`. -/
  channel : GoString
  /-- The value of `r.PathValue("chaincode")`. -/
  chaincode : GoString

/-- The body of a response. -/
inductive Body where
  | text (s : String)
  | keyCert (keyCert : fabric.MSPKeyCert)
  | json (raw : GoString)
  deriving Repr, DecidableEq

/-- The response a handler writes: status code and body. -/
structure Response where
  status : Nat
  body : Body
  deriving Repr, DecidableEq

/-- Go `http.StatusOK`. -/
def StatusOK : Nat := 200

/-- Go `http.StatusBadRequest`. -/
def StatusBadRequest : Nat := 400

/-- Go `http.StatusUnauthorized`. -/
def StatusUnauthorized : Nat := 401

/-- Go `http.StatusInternalServerError`. -/
def StatusInternalServerError : Nat := 500

/-- Go `enrollUserHandler(w, r)`; it panics when `Jq` does. -/
def enrollUserHandler {σ : Type} (ext : External σ) (cfg : config.Config) (w : World σ)
    (r : Request) : GoResult Response × World σ :=
  match r.user with
  | none => (.returned ⟨StatusUnauthorized, .text "no user found"⟩, w)
  | some user =>
    if user.Active = false then (.returned ⟨StatusUnauthorized, .text "no user found"⟩, w)
    else
      let w := w.log (.Jq cfg.Fabric.CA.OIDCClaimKey)
      match util.Jq user.Claims cfg.Fabric.CA.OIDCClaimKey with
      | .panicked => (.panicked, w)
      | .returned (_, some err) => (.returned ⟨StatusInternalServerError, .text err.Error⟩, w)
      | .returned (fabricClaim, none) =>
        match ext.jsonMarshal fabricClaim with
        | .error err => (.returned ⟨StatusInternalServerError, .text err⟩, w)
        | .ok fabricClaimBytes =>
          match ext.jsonUnmarshalRegistrationRequest fabricClaimBytes with
          | .error err => (.returned ⟨StatusBadRequest, .text err⟩, w)
          | .ok decoded =>
            let regReq : api.RegistrationRequest := { decoded with Name := user.Subject }
            let userDir := filepath.Join [cfg.Fabric.CA.ClientHome, "users".toList, regReq.Name]
            let enrolled : Option String × World σ :=
              match fabric.GetMSPKeyfile w userDir with
              | (.ok _, w) => (none, w)
              | (.error _, w) =>
                match fabric.RegisterAndEnrollUser ext cfg w regReq with
                | (.error err, w) => (some err, w)
                | (.ok _, w) => (none, w)
            match enrolled with
            | (some err, w) => (.returned ⟨StatusInternalServerError, .text err⟩, w)
            | (none, w) =>
              match fabric.LoadMSPKeyCert w userDir with
              | (.error err, w) => (.returned ⟨StatusInternalServerError, .text err⟩, w)
              | (.ok keyCert, w) =>
                (.returned ⟨StatusOK, .keyCert
                  { Cert := ext.base64Encode keyCert.Cert, Key := ext.base64Encode keyCert.Key }⟩, w)

/-- Go `submitTxHandler(w, r)`. -/
def submitTxHandler {σ : Type} (ext : External σ) (cfg : config.Config) (w : World σ)
    (r : Request) : GoResult Response × World σ :=
  match r.user with
  | none => (.returned ⟨StatusUnauthorized, .text "no user found"⟩, w)
  | some user =>
    if user.Active = false then (.returned ⟨StatusUnauthorized, .text "no user found"⟩, w)
    else
      match ext.bind r.body with
      | .error (status, text) => (.returned ⟨status, .text text⟩, w)
      | .ok (name, args) =>
        if r.channel = [] ∨ r.chaincode = [] then
          (.returned ⟨StatusBadRequest, .text "channel and chaincode name are required"⟩, w)
        else
          match fabric.SubmitTransaction ext cfg w (some user) r.channel r.chaincode name args with
          | (.error err, w) =>
            (.returned ⟨StatusInternalServerError, .text ("failed to submit transaction: " ++ err)⟩, w)
          | (.ok resultBytes, w) =>
            if ext.jsonValid resultBytes then (.returned ⟨StatusOK, .json resultBytes⟩, w)
            else (.returned ⟨StatusOK, .text (String.mk resultBytes)⟩, w)

end proxy

/-! ## The path language of the specification -/

namespace Spec

/-- A path segment as the specification describes it: a plain key, or a key
with a bracketed non-negative integer index. -/
inductive Segment where
  | plain (k : GoString)
  | indexed (k : GoString) (i : Nat)
  deriving Repr, DecidableEq

/-- The text of a segment: `k`, or `k[i]` with `i` in decimal. -/
def Segment.text : Segment → GoString
  | .plain k => k
  | .indexed k i => k ++ '[' :: (Nat.toDigits 10 i ++ [']'])

/-- A segment that reads back as itself: its key holds no separator and no
bracket (a plain key may hold brackets of one kind), and its index is a Go `int`. -/
def Segment.WellFormed : Segment → Prop
  | .plain k => '.' ∉ k ∧ ('[' ∉ k ∨ ']' ∉ k)
  | .indexed k i => '.' ∉ k ∧ '[' ∉ k ∧ ']' ∉ k ∧ (i : Int) ≤ strconv.maxInt

instance Segment.decidableWellFormed (s : Segment) : Decidable s.WellFormed := by
  cases s <;> unfold Segment.WellFormed <;> infer_instance

/-- The path made of the segments: their texts, separated by dots. -/
def pathOf (segs : List Segment) : GoString :=
  strings.Join (segs.map Segment.text) '.'

/-- The segments applied left to right: a plain key is a map lookup, `k[i]` is a
map lookup followed by element `i`. There is no result when a segment meets a
value that is no mapping, or an indexed segment a value at `k` that is no
sequence of length greater than `i`. -/
def applySegments : Value → List Segment → Option Value
  | v, [] => some v
  | .object m, .plain k :: rest => applySegments (mapIndex m k) rest
  | .object m, .indexed k i :: rest =>
    match mapIndex m k with
    | .array xs =>
      match xs[i]? with
      | some x => applySegments x rest
      | none => none
    | _ => none
  | _, _ :: _ => none

end Spec

/-! ## Notions used in the proofs about `Clean` -/

namespace filepath

/-- An element that `Clean` keeps as it is: not empty, not `.`, not `..`, and
without a separator. -/
def Normal (e : GoString) : Prop :=
  e ≠ [] ∧ e ≠ ['.'] ∧ e ≠ ['.', '.'] ∧ '/' ∉ e

/-- The shape of the elements `Clean` has kept, last first: kept elements on
top of leading `..` elements, of which a rooted path has none. -/
def CleanStack (rooted : Bool) (out : List GoString) : Prop :=
  ∃ (kept : List GoString) (n : Nat), out = kept ++ List.replicate n ['.', '.'] ∧
    (∀ e ∈ kept, Normal e) ∧ (rooted = true → n = 0)

/-- The path `Clean` returns for the elements it has kept (last first). -/
def render (rooted : Bool) (out : List GoString) : GoString :=
  if rooted = true then '/' :: strings.Join out.reverse '/'
  else if strings.Join out.reverse '/' = [] then ['.'] else strings.Join out.reverse '/'

end filepath

/-! ## Notions used in the proofs about the handlers -/

/-- The calls that only read: the claim extraction, the two lookups of the
credential store, and the file-system calls they make. -/
def Event.readOnly : Event → Bool
  | .Jq _ => true
  | .GetMSPKeyfile _ => true
  | .LoadMSPKeyCert _ => true
  | .osGlob _ => true
  | .osReadFile _ => true
  | _ => false

/-- The world `w'` comes from `w` by calls that only read: nothing but the
record of calls has changed, and the calls added are read-only. -/
def World.ReadsFrom {σ : Type} (w w' : World σ) : Prop :=
  w'.fs = w.fs ∧ w'.remote = w.remote ∧ w'.conns = w.conns ∧ w'.nextConn = w.nextConn ∧
    ∃ evs, w'.trace = w.trace ++ evs ∧ ∀ e ∈ evs, e.readOnly = true

namespace fabric

/-- What `GetMSPKeyfile` returns, as a function of the file system. -/
def keyfileIn (fs : FS) (homeDir : GoString) : Except String GoString :=
  match filepath.Glob fs (filepath.Join
      [filepath.Join [homeDir, "msp".toList, "keystore".toList], "*".toList]) with
  | .error _ => .error "syntax error in pattern"
  | .ok [] => .error "no key file found in keystore"
  | .ok (keyFile :: _) => .ok keyFile

/-- What `LoadMSPKeyCert` returns, as a function of the file system. -/
def keyCertIn (fs : FS) (homeDir : GoString) : Except String MSPKeyCert :=
  match keyfileIn fs (filepath.Join [homeDir]) with
  | .error err => .error ("failed to get MSP keyfile: " ++ err)
  | .ok keyFilePath =>
    match os.ReadFile fs
        (filepath.Join [homeDir, "msp".toList, "signcerts".toList, "cert.pem".toList]) with
    | none => .error "failed to read certificate file"
    | some certBytes =>
      match os.ReadFile fs keyFilePath with
      | none => .error "failed to read key file"
      | some keyBytes => .ok { Cert := certBytes, Key := keyBytes }

end fabric

/-! ## Concrete data for the examples -/

/-- The claim set `{"a": {"b": ["x", {"c": 7}]}}`. -/
def nestedClaims : List (GoString × Value) :=
  [("a".toList, .object [("b".toList, .array [.string "x".toList, .object [("c".toList, .number 7)]])])]

/-- The segments of the path `a.b[1].c`. -/
def nestedSegments : List Spec.Segment :=
  [.plain "a".toList, .indexed "b".toList 1, .plain "c".toList]

/-- The claim set `{"a": []}`. -/
def emptyArrayClaims : List (GoString × Value) := [("a".toList, .array [])]

/-- The claim set `{"a": 1}`. -/
def numberClaims : List (GoString × Value) := [("a".toList, .number 1)]

/-- Collaborators for the examples, the remote state being the names the
certificate authority has registered. Encoders are the identity; `Init` makes
the keystore and certificate directories of the client's MSP directory;
`Enroll` stores a key in the keystore and returns an identity with a
certificate; `Register` refuses a name registered before; a submitted
transaction returns its function name. -/
def demoExternal : External (List GoString) where
  jsonMarshal := fun _ => .ok []
  jsonUnmarshalRegistrationRequest := fun _ =>
    .ok { Name := [], Typ := [], Secret := [], MaxEnrollments := 0, Affiliation := [],
          Attributes := [], CAName := [] }
  jsonValid := fun _ => true
  base64Encode := fun s => s
  bind := fun body => .ok (body, [])
  caInit := fun c fs =>
    match os.MkdirAll fs (filepath.Join [c.HomeDir, c.MSPDir, "keystore".toList]) with
    | none => (fs, some "mkdir keystore")
    | some fs1 =>
      match os.MkdirAll fs1 (filepath.Join [c.HomeDir, c.MSPDir, "signcerts".toList]) with
      | none => (fs1, some "mkdir signcerts")
      | some fs2 => (fs2, none)
  caLoadMyIdentity := fun _ _ => .error "no identity"
  caEnroll := fun c request fs remote =>
    (os.WriteString fs (filepath.Join [c.HomeDir, c.MSPDir, "keystore".toList, "key_sk".toList])
        ("KEY ".toList ++ request.Name),
      remote,
      .ok (some { Name := request.Name
                  MSPDir := filepath.Join [c.HomeDir, c.MSPDir]
                  X509Credential := .signer ("CERT ".toList ++ request.Name) }))
  caRegister := fun _ regReq remote =>
    if regReq.Name ∈ remote then (remote, .error "identity is already registered")
    else (regReq.Name :: remote, .ok "secret".toList)
  CertificateFromPEM := fun pem => .ok pem
  NewX509Identity := fun _ cert => .ok cert
  pemDecode := fun pem => some pem
  ParsePKCS8PrivateKey := fun der => .ok der
  ParseECPrivateKey := fun der => .ok der
  ParsePKCS1PrivateKey := fun der => .ok der
  NewPrivateKeySign := fun key => .ok key
  grpcNewClient := fun _ _ _ => none
  gatewayConnect := fun _ _ => none
  contractSubmit := fun _ _ _ fn _ remote => (remote, .ok fn)

/-- The configuration of the examples: the defaults of `LoadConfig` for the
client home and the claim path, and a trust anchor under `fabric/tls`. -/
def demoConfig : config.Config :=
  { Fabric :=
      { CA := { fabric.zeroConfig.Fabric.CA with
                ClientHome := "fabric".toList, ClientMSPDir := "msp".toList,
                OIDCClaimKey := "fabric".toList }
        GW := { fabric.zeroConfig.Fabric.GW with
                MSPID := "Org1MSP".toList, TLSTrustedCerts := "fabric/tls/ca.crt".toList } } }

/-- A world with the given file system in which nothing has been called yet
and no name is registered. -/
def freshWorld (fs : FS) : World (List GoString) :=
  { fs := fs, remote := [], conns := [], nextConn := 0, trace := [] }

/-- A request without an authenticated user. -/
def anonymousRequest : proxy.Request :=
  { user := none, body := [], channel := "mychannel".toList, chaincode := "assetcc".toList }

/-- The active user `alice` with the claim `{"fabric": {"affiliation": "org1.dept1"}}`. -/
def alice : oidc.IntrospectionResponse :=
  { Active := true, Subject := "alice".toList,
    Claims := [("fabric".toList, .object [("affiliation".toList, .string "org1.dept1".toList)])] }

/-- A request of `alice` with an empty `chaincode` path parameter. -/
def noChaincodeRequest : proxy.Request :=
  { user := some alice, body := "CreateAsset".toList, channel := "mychannel".toList, chaincode := [] }

/-- The request of `alice` to the enroll endpoint. -/
def aliceRequest : proxy.Request :=
  { user := some alice, body := [], channel := [], chaincode := [] }

/-- The world after `alice` has enrolled for the first time, starting with an
empty file system. -/
def aliceEnrolled : World (List GoString) :=
  (proxy.enrollUserHandler demoExternal demoConfig (freshWorld []) aliceRequest).2

/-- A file system on which `bob` is enrolled, together with the trust anchor of
the peer; no user named `*` has ever been enrolled. -/
def bobFS : FS :=
  [ ("fabric".toList, .dir), ("fabric/tls".toList, .dir),
    ("fabric/tls/ca.crt".toList, .file "CA".toList),
    ("fabric/users".toList, .dir),
    ("fabric/users/bob".toList, .dir), ("fabric/users/bob/msp".toList, .dir),
    ("fabric/users/bob/msp/keystore".toList, .dir),
    ("fabric/users/bob/msp/keystore/key_sk".toList, .file "KEY bob".toList),
    ("fabric/users/bob/msp/signcerts".toList, .dir),
    ("fabric/users/bob/msp/signcerts/cert.pem".toList, .file "CERT bob".toList) ]

/-- The file system `bobFS` with, in addition, a certificate but no keystore
under the directory named `*`. -/
def bobStarFS : FS :=
  [ ("fabric/users/*".toList, .dir), ("fabric/users/*/msp".toList, .dir),
    ("fabric/users/*/msp/signcerts".toList, .dir),
    ("fabric/users/*/msp/signcerts/cert.pem".toList, .file "CERT *".toList) ] ++ bobFS

/-- An active user whose subject is `*`. -/
def starUser : oidc.IntrospectionResponse :=
  { Active := true, Subject := "*".toList, Claims := [] }

/-- Collaborators like `demoExternal` whose PKCS8 parser rejects every input
and whose EC parser marks what it has parsed. -/
def ecKeyExternal : External (List GoString) :=
  { demoExternal with
    ParsePKCS8PrivateKey := fun _ => .error "not PKCS8"
    ParseECPrivateKey := fun der => .ok ("EC ".toList ++ der) }

/-- The path `dir` lies strictly below the directory `ancestor`: it is
`ancestor`, a separator, and something more. -/
def filepath.IsBelow (dir ancestor : GoString) : Prop :=
  (ancestor ++ ['/']) <+: dir ∧ ancestor.length + 1 < dir.length

instance filepath.decidableIsBelow (dir ancestor : GoString) :
    Decidable (filepath.IsBelow dir ancestor) := by
  unfold filepath.IsBelow
  infer_instance

/-- A file system on which the administrator and `bob` are enrolled. -/
def adminFS : FS :=
  [ ("fabric/msp".toList, .dir), ("fabric/msp/keystore".toList, .dir),
    ("fabric/msp/keystore/key_sk".toList, .file "KEY admin".toList),
    ("fabric/msp/signcerts".toList, .dir),
    ("fabric/msp/signcerts/cert.pem".toList, .file "CERT admin".toList) ] ++ bobFS

/-- An active user whose subject is `..`. -/
def dotDotUser : oidc.IntrospectionResponse :=
  { Active := true, Subject := "..".toList, Claims := [] }

namespace fabric

/-- Whether `newGrpcConnection` opens a connection, as a function of the file
system: the trust anchor can be read and parsed and `grpc.NewClient` returns
no error. -/
def grpcOpens {σ : Type} (ext : External σ) (cfg : config.Config) (fs : FS) : Bool :=
  match os.ReadFile fs cfg.Fabric.GW.TLSTrustedCerts with
  | none => false
  | some certificatePEM =>
    match ext.CertificateFromPEM certificatePEM with
    | .error _ => false
    | .ok certificate =>
      match ext.grpcNewClient cfg.Fabric.GW.PeerEndpoint certificate
          cfg.Fabric.GW.PeerServerNameOverride with
      | some _ => false
      | none => true

/-- Whether `SubmitTransaction` gets as far as opening a connection: there is a
user in the context, the keystore lookup finds a key file, and
`newGrpcConnection` opens a connection. -/
def opensConnection {σ : Type} (ext : External σ) (cfg : config.Config) (fs : FS)
    (user : Option oidc.IntrospectionResponse) : Bool :=
  match user with
  | none => false
  | some user =>
    match keyfileIn fs (filepath.Join [cfg.Fabric.CA.ClientHome, "users".toList, user.Subject]) with
    | .error _ => false
    | .ok _ => grpcOpens ext cfg fs

end fabric

/-- The active user `bob`, without claims. -/
def bob : oidc.IntrospectionResponse :=
  { Active := true, Subject := "bob".toList, Claims := [] }

/-- An identity as an enrollment of `bob` returns it, with a certificate other
than the one stored on `bobFS`. -/
def bobRenewed : lib.Identity :=
  { Name := "bob".toList, MSPDir := "fabric/users/bob/msp".toList,
    X509Credential := .signer "CERT bob renewed".toList }

/-- The calls that leave the repository: to the file system, the certificate
authority, gRPC and the gateway. -/
def Event.external : Event → Bool
  | .osGlob _ => true
  | .osReadFile _ => true
  | .osCreate _ => true
  | .osMkdirAll _ => true
  | .caInit _ => true
  | .caLoadMyIdentity _ => true
  | .caEnroll _ => true
  | .caRegister _ => true
  | .grpcNewClient _ => true
  | .gatewayConnect => true
  | .contractSubmit _ _ _ _ => true
  | _ => false

/-- The calls `RegisterAndEnrollUser` may make for the name `name`: the
directory it creates and the home directories of its two CA clients are those
of `name` and of the administrator, and it registers and enrolls under `name`. -/
def Event.ofRegistration (cfg : config.Config) (name : GoString) : Event → Prop
  | .osMkdirAll path =>
    path = filepath.Join
      [filepath.Join [cfg.Fabric.CA.ClientHome, "users".toList, name], "msp".toList]
  | .caInit homeDir =>
    homeDir = filepath.Join [cfg.Fabric.CA.ClientHome, "users".toList, name] ∨
      homeDir = cfg.Fabric.CA.ClientHome
  | .caRegister regReq => regReq.Name = name
  | .caEnroll request => request.Name = name ∨ request.Name = cfg.Fabric.CA.Admin
  | .caLoadMyIdentity _ => True
  | .osCreate _ => True
  | _ => False

/-- The calls recorded in `w'` after those recorded in `w`. -/
def World.callsSince {σ : Type} (w w' : World σ) : List Event :=
  w'.trace.drop w.trace.length

/-- The world `w'` comes from `w` by calls that all satisfy `P`. -/
def World.CallsOf {σ : Type} (P : Event → Prop) (w w' : World σ) : Prop :=
  ∃ evs, w'.trace = w.trace ++ evs ∧ ∀ e ∈ evs, P e

/-- A file system on which the keystore of `alice` holds a key file while her
certificate file is missing. -/
def aliceKeyOnlyFS : FS :=
  [ ("fabric".toList, .dir), ("fabric/users".toList, .dir),
    ("fabric/users/alice".toList, .dir), ("fabric/users/alice/msp".toList, .dir),
    ("fabric/users/alice/msp/keystore".toList, .dir),
    ("fabric/users/alice/msp/keystore/key_sk".toList, .file "KEY alice".toList),
    ("fabric/users/alice/msp/signcerts".toList, .dir) ]

/-- Collaborators like `demoExternal` whose JSON encoder keeps the string at
the key `id` of a claim and whose decoder takes the encoded bytes as the name
of the registration request. -/
def idClaimExternal : External (List GoString) :=
  { demoExternal with
    jsonMarshal := fun v =>
      match v with
      | .object kvs =>
        match mapIndex kvs "id".toList with
        | .string s => .ok s
        | _ => .ok []
      | _ => .ok []
    jsonUnmarshalRegistrationRequest := fun bytes =>
      .ok { Name := bytes, Typ := [], Secret := [], MaxEnrollments := 0, Affiliation := [],
            Attributes := [], CAName := [] } }

/-- The active user `alice` with the claim `{"fabric": {"id": "mallory"}}`. -/
def aliceNamedMallory : oidc.IntrospectionResponse :=
  { Active := true, Subject := "alice".toList,
    Claims := [("fabric".toList, .object [("id".toList, .string "mallory".toList)])] }

/-- The request of `aliceNamedMallory` to the enroll endpoint. -/
def aliceNamedMalloryRequest : proxy.Request :=
  { user := some aliceNamedMallory, body := [], channel := [], chaincode := [] }

/-- The configuration `demoConfig` with the claim path `fabric.role`. -/
def roleConfig : config.Config :=
  { Fabric := { demoConfig.Fabric with
      CA := { demoConfig.Fabric.CA with OIDCClaimKey := "fabric.role".toList } } }

/-- The request to the enroll endpoint of the active user `alice` with the
claim `{"fabric": {"role": {}}}`. -/
def aliceRoleRequest : proxy.Request :=
  { user := some { Active := true, Subject := "alice".toList,
                   Claims := [("fabric".toList, .object [("role".toList, .object [])])] },
    body := [], channel := [], chaincode := [] }

/-- The request to the enroll endpoint of the active user `alice` with the
claim `{"fabric": "member"}`, which has nothing at the path `fabric.role`. -/
def aliceNoRoleRequest : proxy.Request :=
  { user := some { Active := true, Subject := "alice".toList,
                   Claims := [("fabric".toList, .string "member".toList)] },
    body := [], channel := [], chaincode := [] }

/-- The file system `bobFS` with, in addition, a directory `a_backup` in the
keystore of `bob`, beside his key file. -/
def bobBackupFS : FS :=
  ("fabric/users/bob/msp/keystore/a_backup".toList, .dir) :: bobFS

/-! ## Facts about the string functions -/

theorem strings.Split_ne_nil (s : GoString) (c : Char) : strings.Split s c ≠ [] := by
  induction s with
  | nil => simp [strings.Split]
  | cons x xs ih =>
    simp only [strings.Split]
    split
    · simp
    · split <;> simp

theorem strings.Split_of_not_mem (s : GoString) (c : Char) (h : c ∉ s) :
    strings.Split s c = [s] := by
  induction s with
  | nil => simp [strings.Split]
  | cons x xs ih =>
    simp only [List.mem_cons, not_or] at h
    have hx : x ≠ c := fun e => h.1 e.symm
    simp [strings.Split, hx, ih h.2]

theorem strings.Split_append_sep (s t : GoString) (c : Char) (h : c ∉ s) :
    strings.Split (s ++ c :: t) c = s :: strings.Split t c := by
  induction s with
  | nil => simp [strings.Split]
  | cons x xs ih =>
    simp only [List.mem_cons, not_or] at h
    have hx : x ≠ c := fun e => h.1 e.symm
    simp [strings.Split, hx, ih h.2]

theorem strings.Split_Join (es : List GoString) (c : Char) (hne : es ≠ [])
    (h : ∀ e ∈ es, c ∉ e) : strings.Split (strings.Join es c) c = es := by
  induction es with
  | nil => exact absurd rfl hne
  | cons e rest ih =>
    cases rest with
    | nil => simpa [strings.Join] using strings.Split_of_not_mem e c (h e (by simp))
    | cons e2 rest2 =>
      have h1 : c ∉ e := h e (by simp)
      have h2 : ∀ x ∈ e2 :: rest2, c ∉ x := fun x hx => h x (List.mem_cons_of_mem _ hx)
      simp only [strings.Join]
      rw [strings.Split_append_sep _ _ _ h1]
      have := ih (by simp) h2
      simp only [strings.Join] at this
      rw [this]

theorem strings.Index_nonneg_iff (s : GoString) (c : Char) : 0 ≤ strings.Index s c ↔ c ∈ s := by
  induction s with
  | nil => simp [strings.Index]
  | cons x xs ih =>
    by_cases hx : x = c
    · simp [strings.Index, hx]
    · have hx' : ¬ c = x := fun e => hx e.symm
      simp only [strings.Index, hx, if_false, List.mem_cons, hx', false_or]
      rw [← ih]
      split <;> omega

theorem strings.Contains_iff (s : GoString) (c : Char) : strings.Contains s c = true ↔ c ∈ s := by
  simp [strings.Contains, strings.Index_nonneg_iff]

theorem strings.Index_append_sep (k t : GoString) (c : Char) (h : c ∉ k) :
    strings.Index (k ++ c :: t) c = (k.length : Int) := by
  induction k with
  | nil => simp [strings.Index]
  | cons x xs ih =>
    simp only [List.mem_cons, not_or] at h
    have hx : x ≠ c := fun e => h.1 e.symm
    have ih2 := ih h.2
    simp only [List.cons_append, strings.Index, hx, if_false, List.length_cons]
    simp only [List.append_eq] at ih2 ⊢
    rw [ih2]
    split
    · omega
    · push_cast; rfl

theorem GoString.slice_prefix (k t : GoString) :
    GoString.slice (k ++ t) 0 (k.length : Int) = .returned k := by
  simp [GoString.slice]

theorem GoString.slice_middle (k t u : GoString) (a : Char) :
    GoString.slice (k ++ a :: (t ++ u)) ((k.length : Int) + 1) ((k.length : Int) + 1 + t.length)
      = .returned t := by
  have h1 : ((k.length : Int) + 1).toNat = k.length + 1 := by omega
  have h2 : ((k.length : Int) + 1 + t.length).toNat = k.length + 1 + t.length := by omega
  have h3 : (k.length : Int) + 1 + t.length ≤ ((k ++ a :: (t ++ u)).length : Int) := by
    simp only [List.length_append, List.length_cons]; push_cast; omega
  have h4 : (0 : Int) ≤ (k.length : Int) + 1 := by omega
  have h5 : (k.length : Int) + 1 ≤ (k.length : Int) + 1 + t.length := by omega
  have hdrop : List.drop (k.length + 1) (k ++ a :: (t ++ u)) = t ++ u := by
    rw [show k ++ a :: (t ++ u) = (k ++ [a]) ++ (t ++ u) by simp]
    rw [List.drop_append_of_le_length (by simp)]
    simp
  simp only [GoString.slice, h1, h2, h3, h4, h5, and_self, if_true, hdrop]
  simp

theorem strconv.parseDigits_append (xs ys : GoString) (acc : Nat) :
    strconv.parseDigits (xs ++ ys) acc
      = (strconv.parseDigits xs acc).bind (fun n => strconv.parseDigits ys n) := by
  induction xs generalizing acc with
  | nil => simp [strconv.parseDigits]
  | cons x xs ih =>
    simp only [List.cons_append, strconv.parseDigits]
    split
    · exact ih _
    · rfl

theorem strconv.digitChar_spec (d : Nat) (h : d < 10) :
    '0' ≤ Nat.digitChar d ∧ Nat.digitChar d ≤ '9' ∧ (Nat.digitChar d).toNat - '0'.toNat = d := by
  interval_cases d <;> decide

/-- The decimal rendering of a number splits into a run of digits in front of
what was there, and the run reads back as the number. -/
theorem strconv.toDigitsCore_spec (fuel n : Nat) (ds : GoString) (h : n < fuel) :
    ∃ run : GoString, Nat.toDigitsCore 10 fuel n ds = run ++ ds ∧ run ≠ [] ∧
      (∀ c ∈ run, '0' ≤ c ∧ c ≤ '9') ∧
      ∀ acc, strconv.parseDigits run acc = some (acc * 10 ^ run.length + n) := by
  induction fuel generalizing n ds with
  | zero => omega
  | succ fuel ih =>
    have hd := strconv.digitChar_spec (n % 10) (Nat.mod_lt _ (by decide))
    simp only [Nat.toDigitsCore]
    by_cases h0 : n / 10 = 0
    · refine ⟨[Nat.digitChar (n % 10)], by simp [h0], by simp, ?_, ?_⟩
      · intro c hc
        simp only [List.mem_singleton] at hc
        subst hc
        exact ⟨hd.1, hd.2.1⟩
      · intro acc
        have hn : n % 10 = n := Nat.mod_eq_of_lt (by omega)
        simp only [strconv.parseDigits, hd.1, hd.2.1, and_self, if_true, hd.2.2]
        simp [hn]
    · have hlt : n / 10 < fuel := by omega
      obtain ⟨run, hrun, hne, hdig, hval⟩ := ih (n / 10) (Nat.digitChar (n % 10) :: ds) hlt
      refine ⟨run ++ [Nat.digitChar (n % 10)], by simp [h0, hrun], by simp, ?_, ?_⟩
      · intro c hc
        simp only [List.mem_append, List.mem_singleton] at hc
        rcases hc with hc | hc
        · exact hdig c hc
        · subst hc
          exact ⟨hd.1, hd.2.1⟩
      · intro acc
        rw [strconv.parseDigits_append, hval]
        simp only [Option.some_bind, strconv.parseDigits, hd.1, hd.2.1, and_self, if_true, hd.2.2,
          List.length_append, List.length_singleton]
        congr 1
        have := Nat.div_add_mod n 10
        rw [pow_succ]
        nlinarith [Nat.div_add_mod n 10]

theorem strconv.toDigits_spec (n : Nat) :
    Nat.toDigits 10 n ≠ [] ∧ (∀ c ∈ Nat.toDigits 10 n, '0' ≤ c ∧ c ≤ '9') ∧
      strconv.parseDigits (Nat.toDigits 10 n) 0 = some n := by
  obtain ⟨run, hrun, hne, hdig, hval⟩ := strconv.toDigitsCore_spec (n + 1) n [] (by omega)
  have : Nat.toDigits 10 n = run := by simpa [Nat.toDigits] using hrun
  rw [this]
  exact ⟨hne, hdig, by simpa using hval 0⟩

theorem strconv.Atoi_toDigits (i : Nat) (h : (i : Int) ≤ strconv.maxInt) :
    strconv.Atoi (Nat.toDigits 10 i) = some (i : Int) := by
  obtain ⟨hne, hdig, hval⟩ := strconv.toDigits_spec i
  cases hs : Nat.toDigits 10 i with
  | nil => exact absurd hs hne
  | cons c cs =>
    have hc : '0' ≤ c ∧ c ≤ '9' := hdig c (by rw [hs]; simp)
    have hminus : c ≠ '-' := by
      rintro rfl
      exact absurd hc.1 (by decide)
    have hplus : c ≠ '+' := by
      rintro rfl
      exact absurd hc.1 (by decide)
    rw [hs] at hval
    have hmin : strconv.minInt ≤ (i : Int) := by
      have : strconv.minInt ≤ 0 := by decide
      omega
    unfold strconv.Atoi
    split
    · rename_i heq
      simp only [List.cons.injEq] at heq
      exact absurd heq.1 hminus
    · rename_i heq
      simp only [List.cons.injEq] at heq
      exact absurd heq.1 hplus
    · simp [hval, hmin, h]

theorem strings.TrimPrefix_dot_cons (p : GoString) : strings.TrimPrefix ('.' :: p) ['.'] = p := by
  simp [strings.TrimPrefix, List.isPrefixOf]

theorem strings.TrimPrefix_dot_of_head (p : GoString) (h : p.head? ≠ some '.') :
    strings.TrimPrefix p ['.'] = p := by
  cases p with
  | nil => simp [strings.TrimPrefix, List.isPrefixOf]
  | cons c cs =>
    have hc : ¬ ('.' = c) := fun e => h (by simp [← e])
    simp [strings.TrimPrefix, List.isPrefixOf, hc]

/-! ## Facts about the loop of `Jq` -/

/-- A segment without a bracket of one of the two kinds is a map lookup. -/
theorem util.JqLoop_plain (mm : List (GoString × Value)) (key : GoString) (rest : List GoString)
    (h : '[' ∉ key ∨ ']' ∉ key) :
    util.JqLoop (.object mm) (key :: rest) = util.JqLoop (mapIndex mm key) rest := by
  have hc : (strings.Contains key '[' && strings.Contains key ']') = false := by
    rcases h with h | h
    · have : strings.Contains key '[' = false := by
        rw [Bool.eq_false_iff]; exact fun e => h ((strings.Contains_iff _ _).1 e)
      simp [this]
    · have : strings.Contains key ']' = false := by
        rw [Bool.eq_false_iff]; exact fun e => h ((strings.Contains_iff _ _).1 e)
      simp [this]
  simp [util.JqLoop, hc]

/-- A segment applied to a value that is no mapping fails with the map error. -/
theorem util.JqLoop_not_object (v : Value) (key : GoString) (rest : List GoString)
    (h : ∀ kvs, v ≠ .object kvs) :
    util.JqLoop v (key :: rest) = .returned (.null, some (.expectedMap key)) := by
  cases v with
  | object kvs => exact absurd rfl (h kvs)
  | _ => simp [util.JqLoop]

/-- What the loop does at a segment `k[t]` reached at a mapping. -/
theorem util.JqLoop_indexed (mm : List (GoString × Value)) (k t : GoString)
    (rest : List GoString) (hk1 : '[' ∉ k) (hk2 : ']' ∉ k) (ht : ']' ∉ t) :
    util.JqLoop (.object mm) ((k ++ '[' :: (t ++ [']'])) :: rest) =
      match strconv.Atoi t with
      | none => .returned (.null, some (.invalidArrayIndex (k ++ '[' :: (t ++ [']']))))
      | some index =>
        match mapIndex mm k with
        | .array array =>
          if index < 0 ∨ index ≥ (array.length : Int) then
            .returned (.null, some (.indexOutOfRange (k ++ '[' :: (t ++ [']']))))
          else
            match array[index.toNat]? with
            | some v => util.JqLoop v rest
            | none => .panicked
        | _ => .returned (.null, some (.expectedArray (k ++ '[' :: (t ++ [']'])))) := by
  have hopen : strings.Index (k ++ '[' :: (t ++ [']'])) '[' = (k.length : Int) :=
    strings.Index_append_sep k _ '[' hk1
  have hclose : strings.Index (k ++ '[' :: (t ++ [']'])) ']' = (k.length : Int) + 1 + t.length := by
    have hmem : ']' ∉ k ++ '[' :: t := by
      simp only [List.mem_append, List.mem_cons, not_or]
      exact ⟨hk2, by decide, ht⟩
    have := strings.Index_append_sep (k ++ '[' :: t) [] ']' hmem
    simp only [List.append_assoc, List.cons_append, List.length_append, List.length_cons] at this
    rw [this]
    push_cast
    ring
  have hc1 : strings.Contains (k ++ '[' :: (t ++ [']'])) '[' = true := by
    rw [strings.Contains_iff]; simp
  have hc2 : strings.Contains (k ++ '[' :: (t ++ [']'])) ']' = true := by
    rw [strings.Contains_iff]; simp
  have hs1 : GoString.slice (k ++ '[' :: (t ++ [']'])) 0 (k.length : Int) = .returned k :=
    GoString.slice_prefix k _
  have hs2 : GoString.slice (k ++ '[' :: (t ++ [']'])) ((k.length : Int) + 1)
      ((k.length : Int) + 1 + t.length) = .returned t := GoString.slice_middle k t [']'] '['
  simp only [util.JqLoop, hc1, hc2, Bool.and_self, if_true, hopen, hclose, hs1, hs2]

theorem Spec.Segment.text_no_dot (s : Spec.Segment) (h : s.WellFormed) : '.' ∉ s.text := by
  cases s with
  | plain k => exact h.1
  | indexed k i =>
    obtain ⟨_, hdig, _⟩ := strconv.toDigits_spec i
    simp only [Spec.Segment.text, List.mem_append, List.mem_cons, List.mem_singleton, not_or]
    refine ⟨h.1, by decide, ?_, by decide, by simp⟩
    intro hmem
    exact absurd (hdig _ hmem).1 (by decide)

/-- The loop of `Jq` on the texts of well-formed segments, followed by more
keys, goes on from what the segments denote. -/
theorem util.JqLoop_segments_append (segs : List Spec.Segment) (cur v : Value)
    (more : List GoString) (hwf : ∀ s ∈ segs, s.WellFormed)
    (happly : Spec.applySegments cur segs = some v) :
    util.JqLoop cur (segs.map Spec.Segment.text ++ more) = util.JqLoop v more := by
  induction segs generalizing cur with
  | nil =>
    simp only [Spec.applySegments, Option.some.injEq] at happly
    simp [happly]
  | cons s rest ih =>
    have hrest : ∀ x ∈ rest, x.WellFormed := fun x hx => hwf x (List.mem_cons_of_mem _ hx)
    have hs : s.WellFormed := hwf s (by simp)
    cases cur with
    | object mm =>
      cases s with
      | plain k =>
        simp only [Spec.applySegments] at happly
        simp only [List.map_cons, Spec.Segment.text, List.cons_append]
        rw [util.JqLoop_plain mm k _ hs.2]
        exact ih _ hrest happly
      | indexed k i =>
        obtain ⟨_, hdig, _⟩ := strconv.toDigits_spec i
        have hclose : ']' ∉ Nat.toDigits 10 i := fun hmem => absurd (hdig _ hmem).2 (by decide)
        simp only [List.map_cons, Spec.Segment.text, List.cons_append]
        rw [util.JqLoop_indexed mm k _ _ hs.2.1 hs.2.2.1 hclose, strconv.Atoi_toDigits i hs.2.2.2]
        simp only [Spec.applySegments] at happly
        cases hm : mapIndex mm k with
        | array xs =>
          simp only [hm] at happly ⊢
          cases hx : xs[i]? with
          | none => simp [hx] at happly
          | some x =>
            simp only [hx] at happly
            have hlt : i < xs.length := by
              by_contra hge
              rw [List.getElem?_eq_none (by omega)] at hx
              cases hx
            have hcond : ¬ ((i : Int) < 0 ∨ (i : Int) ≥ (xs.length : Int)) := by omega
            simp only [hcond, if_false, Int.toNat_ofNat, hx]
            exact ih _ hrest happly
        | null => simp [hm] at happly
        | bool b => simp [hm] at happly
        | number n => simp [hm] at happly
        | string str => simp [hm] at happly
        | object o => simp [hm] at happly
    | null => simp [Spec.applySegments] at happly
    | bool b => simp [Spec.applySegments] at happly
    | number n => simp [Spec.applySegments] at happly
    | string str => simp [Spec.applySegments] at happly
    | array xs => simp [Spec.applySegments] at happly

/-- The loop of `Jq` on the texts of well-formed segments computes what the
segments denote. -/
theorem util.JqLoop_segments (segs : List Spec.Segment) (cur v : Value)
    (hwf : ∀ s ∈ segs, s.WellFormed) (happly : Spec.applySegments cur segs = some v) :
    util.JqLoop cur (segs.map Spec.Segment.text) = .returned (v, none) := by
  have := util.JqLoop_segments_append segs cur v [] hwf happly
  simpa [util.JqLoop] using this

theorem mapIndex_of_absent (mm : List (GoString × Value)) (k : GoString)
    (h : k ∉ mm.map Prod.fst) : mapIndex mm k = .null := by
  induction mm with
  | nil => rfl
  | cons kv rest ih =>
    obtain ⟨k', v'⟩ := kv
    simp only [List.map_cons, List.mem_cons, not_or] at h
    have hk : k' ≠ k := fun e => h.1 e.symm
    simp only [mapIndex, hk, if_false]
    exact ih h.2

/-- On plain keys the loop of `Jq` either returns a value with no error or
fails, with a `nil` value, because a key was applied to a value that is no mapping. -/
theorem util.JqLoop_plain_keys (keys : List GoString) (cur : Value)
    (hwf : ∀ k ∈ keys, '[' ∉ k ∨ ']' ∉ k) :
    (∃ v, util.JqLoop cur keys = .returned (v, none)) ∨
    (∃ key ∈ keys, util.JqLoop cur keys = .returned (.null, some (.expectedMap key))) := by
  induction keys generalizing cur with
  | nil => exact Or.inl ⟨cur, rfl⟩
  | cons k rest ih =>
    have hrest : ∀ x ∈ rest, '[' ∉ x ∨ ']' ∉ x := fun x hx => hwf x (List.mem_cons_of_mem _ hx)
    by_cases hobj : ∃ mm, cur = .object mm
    · obtain ⟨mm, rfl⟩ := hobj
      rw [util.JqLoop_plain mm k rest (hwf k (by simp))]
      rcases ih (mapIndex mm k) hrest with h | ⟨key, hkey, h⟩
      · exact Or.inl h
      · exact Or.inr ⟨key, List.mem_cons_of_mem _ hkey, h⟩
    · refine Or.inr ⟨k, by simp, util.JqLoop_not_object cur k rest ?_⟩
      intro kvs e
      exact hobj ⟨kvs, e⟩

/-- The keys `Jq` walks for the path of well-formed segments are their texts. -/
theorem util.Jq_pathOf (m : List (GoString × Value)) (segs : List Spec.Segment)
    (hne : segs ≠ []) (hwf : ∀ s ∈ segs, s.WellFormed) :
    util.Jq m ('.' :: Spec.pathOf segs) = util.JqLoop (.object m) (segs.map Spec.Segment.text) ∧
    ((Spec.pathOf segs).head? ≠ some '.' →
      util.Jq m (Spec.pathOf segs) = util.JqLoop (.object m) (segs.map Spec.Segment.text)) := by
  have hsplit : strings.Split (Spec.pathOf segs) '.' = segs.map Spec.Segment.text := by
    apply strings.Split_Join
    · simpa using hne
    · intro e he
      obtain ⟨s, hs, rfl⟩ := List.mem_map.1 he
      exact Spec.Segment.text_no_dot s (hwf s hs)
  constructor
  · simp only [util.Jq, strings.TrimPrefix_dot_cons, hsplit]
  · intro hlead
    simp only [util.Jq, strings.TrimPrefix_dot_of_head _ hlead, hsplit]

/-! ## The claim extractor -/

/-- C1. For every claim mapping `m` and every path made of plain keys `k` and
indexed keys `k[i]`, if the segments applied left to right (map lookup, and for
`k[i]` map lookup then element `i`) are all defined and give `v`, then `Jq`
returns `v` with no error, both for the path written with one leading dot and
for the path itself when it does not begin with a dot. -/
theorem Jq_applies_segments (m : List (GoString × Value)) (segs : List Spec.Segment) (v : Value)
    (hne : segs ≠ []) (hwf : ∀ s ∈ segs, s.WellFormed)
    (happly : Spec.applySegments (.object m) segs = some v) :
    util.Jq m ('.' :: Spec.pathOf segs) = .returned (v, none) ∧
    ((Spec.pathOf segs).head? ≠ some '.' →
      util.Jq m (Spec.pathOf segs) = .returned (v, none)) := by
  obtain ⟨h1, h2⟩ := util.Jq_pathOf m segs hne hwf
  have hloop := util.JqLoop_segments segs (.object m) v hwf happly
  exact ⟨h1.trans hloop, fun hlead => (h2 hlead).trans hloop⟩

/-- C1, witness: on `{"a": {"b": ["x", {"c": 7}]}}` the path `a.b[1].c` gives `7`. -/
theorem Jq_applies_segments_witness :
    util.Jq nestedClaims "a.b[1].c".toList = .returned (.number 7, none) :=
  (Jq_applies_segments nestedClaims nestedSegments (.number 7) (by decide) (by decide) rfl).2
    (by decide)

/-- C4, counterexample: in the empty mapping the key `a` of the path `a.b` is
simply missing, and `Jq` fails with the map error at `b` instead of returning
`nil` with no error. -/
theorem Jq_missing_key_counterexample :
    mapIndex [] "a".toList = .null ∧
    util.Jq [] "a.b".toList = .returned (.null, some (.expectedMap "b".toList)) ∧
    util.Jq [] "a.b".toList ≠ .returned (.null, none) :=
  ⟨rfl, rfl, by
    intro h
    have e : util.Jq [] "a.b".toList = .returned (.null, some (.expectedMap "b".toList)) := rfl
    rw [e] at h
    cases h⟩

/-- C4, amended. For every claim mapping and every path of plain keys, when a
key is missing from the mapping reached at that point: if it is the last key,
`Jq` returns `nil` with no error; if another key follows, the absent value is
no mapping and `Jq` fails at that next key with the map error and a `nil`
value. On such a path every failure of `Jq` is a map error at one of its keys. -/
theorem Jq_missing_key (m : List (GoString × Value)) (before : List GoString) (k : GoString)
    (after : List GoString) (mm : List (GoString × Value))
    (hwf : ∀ s ∈ (before ++ k :: after).map Spec.Segment.plain, s.WellFormed)
    (hlead : (Spec.pathOf ((before ++ k :: after).map Spec.Segment.plain)).head? ≠ some '.')
    (hreach : Spec.applySegments (.object m) (before.map Spec.Segment.plain) = some (.object mm))
    (hmissing : k ∉ mm.map Prod.fst) :
    (after = [] → util.Jq m (Spec.pathOf ((before ++ k :: after).map Spec.Segment.plain))
      = .returned (.null, none)) ∧
    (∀ next rest, after = next :: rest →
      util.Jq m (Spec.pathOf ((before ++ k :: after).map Spec.Segment.plain))
        = .returned (.null, some (.expectedMap next))) ∧
    (∀ v e, util.Jq m (Spec.pathOf ((before ++ k :: after).map Spec.Segment.plain))
        = .returned (v, some e) →
      v = .null ∧ ∃ key ∈ before ++ k :: after, e = .expectedMap key) := by
  have hne : (before ++ k :: after).map Spec.Segment.plain ≠ [] := by simp
  have hJq := (util.Jq_pathOf m _ hne hwf).2 hlead
  have htexts : ((before ++ k :: after).map Spec.Segment.plain).map Spec.Segment.text
      = before ++ k :: after := by
    simp [List.map_map, Function.comp_def, Spec.Segment.text]
  have hplain : ∀ x ∈ before ++ k :: after, '[' ∉ x ∨ ']' ∉ x := by
    intro x hx
    exact (hwf (.plain x) (List.mem_map.2 ⟨x, hx, rfl⟩)).2
  have hbefore : ∀ s ∈ before.map Spec.Segment.plain, s.WellFormed := by
    intro s hs
    obtain ⟨x, hx, rfl⟩ := List.mem_map.1 hs
    exact hwf _ (List.mem_map.2 ⟨x, by simp [hx], rfl⟩)
  have hwalk : util.JqLoop (.object m) (before ++ k :: after) = util.JqLoop .null after := by
    have h1 := util.JqLoop_segments_append (before.map Spec.Segment.plain) (.object m)
      (.object mm) (k :: after) hbefore hreach
    have h2 : (before.map Spec.Segment.plain).map Spec.Segment.text = before := by
      simp [List.map_map, Function.comp_def, Spec.Segment.text]
    rw [h2] at h1
    rw [h1, util.JqLoop_plain mm k after (hplain k (by simp)), mapIndex_of_absent mm k hmissing]
  rw [hJq, htexts]
  refine ⟨?_, ?_, ?_⟩
  · intro hafter
    rw [hwalk, hafter]
    rfl
  · intro next rest hafter
    rw [hwalk, hafter]
    exact util.JqLoop_not_object .null next rest (by intro kvs; simp)
  · intro v e hres
    rcases util.JqLoop_plain_keys (before ++ k :: after) (.object m) hplain with
      ⟨v', h⟩ | ⟨key, hkey, h⟩
    · rw [h] at hres
      simp at hres
    · rw [h] at hres
      simp only [GoResult.returned.injEq, Prod.mk.injEq, Option.some.injEq] at hres
      exact ⟨hres.1.symm, key, hkey, hres.2.symm⟩

/-- C4, witness: for `{"a": 1}` the missing last key of `b` gives `nil` with no
error, and the path `b.c` fails with the map error at `c`. -/
theorem Jq_missing_key_witness :
    util.Jq numberClaims "b".toList = .returned (.null, none) ∧
    util.Jq numberClaims "b.c".toList = .returned (.null, some (.expectedMap "c".toList)) :=
  ⟨(Jq_missing_key numberClaims [] "b".toList [] numberClaims (by decide) (by decide) rfl
      (by decide)).1 rfl,
   (Jq_missing_key numberClaims [] "b".toList ["c".toList] numberClaims (by decide) (by decide) rfl
      (by decide)).2.1 _ _ rfl⟩

/-- C5, counterexample: at the segment `a[-1]` the bracketed text `-1` is no
non-negative integer, yet on `{"a": []}` the failure of `Jq` is the
out-of-range error and not the invalid-index error. -/
theorem Jq_invalid_index_counterexample :
    util.Jq emptyArrayClaims "a[-1]".toList
      = .returned (.null, some (.indexOutOfRange "a[-1]".toList)) ∧
    util.Jq emptyArrayClaims "a[-1]".toList
      ≠ .returned (.null, some (.invalidArrayIndex "a[-1]".toList)) :=
  ⟨rfl, by
    intro h
    have e : util.Jq emptyArrayClaims "a[-1]".toList
        = .returned (.null, some (.indexOutOfRange "a[-1]".toList)) := rfl
    rw [e] at h
    cases h⟩

/-- C5, amended. For every segment `k[t]` that `Jq` reaches while at a mapping:
if `strconv.Atoi` rejects the bracketed text `t`, `Jq` fails with the
invalid-index error and a `nil` value; if `t` is accepted as a negative
integer and the value at `k` is a sequence, `Jq` fails with the out-of-range
error. -/
theorem Jq_invalid_index (mm : List (GoString × Value)) (k t : GoString) (rest : List GoString)
    (hk1 : '[' ∉ k) (hk2 : ']' ∉ k) (ht : ']' ∉ t) :
    (strconv.Atoi t = none →
      util.JqLoop (.object mm) ((k ++ '[' :: (t ++ [']'])) :: rest)
        = .returned (.null, some (.invalidArrayIndex (k ++ '[' :: (t ++ [']']))))) ∧
    (∀ (i : Int) (xs : List Value), strconv.Atoi t = some i → i < 0 →
      mapIndex mm k = .array xs →
      util.JqLoop (.object mm) ((k ++ '[' :: (t ++ [']'])) :: rest)
        = .returned (.null, some (.indexOutOfRange (k ++ '[' :: (t ++ [']']))))) := by
  constructor
  · intro hparse
    rw [util.JqLoop_indexed mm k t rest hk1 hk2 ht, hparse]
  · intro i xs hparse hneg hxs
    rw [util.JqLoop_indexed mm k t rest hk1 hk2 ht, hparse]
    simp only [hxs]
    rw [if_pos (Or.inl hneg)]

/-- C5, witness: the segments `a[x]` and `a[]` fail with the invalid-index error. -/
theorem Jq_invalid_index_witness :
    util.JqLoop (.object emptyArrayClaims) ["a[x]".toList]
      = .returned (.null, some (.invalidArrayIndex "a[x]".toList)) ∧
    util.JqLoop (.object emptyArrayClaims) ["a[]".toList]
      = .returned (.null, some (.invalidArrayIndex "a[]".toList)) :=
  ⟨(Jq_invalid_index emptyArrayClaims "a".toList "x".toList [] (by decide) (by decide)
      (by decide)).1 (by decide),
   (Jq_invalid_index emptyArrayClaims "a".toList [] [] (by decide) (by decide)
      (by decide)).1 (by decide)⟩

/-- C6. For every segment `k[i]` that `Jq` reaches while at a mapping whose
value at `k` is a sequence of length `n`, `i` being the integer `strconv.Atoi`
reads in the brackets: if `i >= n`, `Jq` fails with the out-of-range error and
a `nil` value; if `0 <= i < n`, the segment does not fail and the walk goes on
from element `i`. -/
theorem Jq_index_range (mm : List (GoString × Value)) (k t : GoString) (i : Int)
    (xs : List Value) (rest : List GoString)
    (hk1 : '[' ∉ k) (hk2 : ']' ∉ k) (ht : ']' ∉ t) (hparse : strconv.Atoi t = some i)
    (hxs : mapIndex mm k = .array xs) :
    (i ≥ (xs.length : Int) →
      util.JqLoop (.object mm) ((k ++ '[' :: (t ++ [']'])) :: rest)
        = .returned (.null, some (.indexOutOfRange (k ++ '[' :: (t ++ [']']))))) ∧
    (0 ≤ i → i < (xs.length : Int) → ∃ x, xs[i.toNat]? = some x ∧
      util.JqLoop (.object mm) ((k ++ '[' :: (t ++ [']'])) :: rest) = util.JqLoop x rest) := by
  have hstep := util.JqLoop_indexed mm k t rest hk1 hk2 ht
  rw [hparse] at hstep
  simp only [hxs] at hstep
  constructor
  · intro hge
    rw [if_pos (Or.inr hge)] at hstep
    exact hstep
  · intro h0 hlt
    have hcond : ¬ (i < 0 ∨ i ≥ (xs.length : Int)) := by omega
    have hnat : i.toNat < xs.length := by omega
    rw [if_neg hcond] at hstep
    refine ⟨xs[i.toNat], List.getElem?_eq_getElem hnat, ?_⟩
    simp only [List.getElem?_eq_getElem hnat] at hstep
    exact hstep

/-- C6, witness: on `{"a": {"b": ["x", {"c": 7}]}}`, reached at the mapping under
`a`, the segment `b[2]` is out of range and the segment `b[1]` is not. -/
theorem Jq_index_range_witness :
    util.JqLoop (.object [("b".toList, .array [.string "x".toList, .object [("c".toList, .number 7)]])])
        ["b[2]".toList] = .returned (.null, some (.indexOutOfRange "b[2]".toList)) ∧
    ∃ x, [Value.string "x".toList, .object [("c".toList, .number 7)]][1]? = some x ∧
      util.JqLoop (.object [("b".toList, .array [.string "x".toList, .object [("c".toList, .number 7)]])])
        ["b[1]".toList, "c".toList] = util.JqLoop x ["c".toList] :=
  ⟨(Jq_index_range [("b".toList, .array [.string "x".toList, .object [("c".toList, .number 7)]])]
      "b".toList "2".toList 2 _ [] (by decide) (by decide) (by decide) (by decide) rfl).1
      (by decide),
   (Jq_index_range [("b".toList, .array [.string "x".toList, .object [("c".toList, .number 7)]])]
      "b".toList "1".toList 1 _ ["c".toList] (by decide) (by decide) (by decide) (by decide) rfl).2
      (by decide) (by decide)⟩

/-- C7. For every claim mapping and every path of segments, if the segments up
to some non-terminal one resolve to a value that is not a mapping, `Jq` fails
at the next segment with the map error and returns a `nil` value. -/
theorem Jq_non_mapping (m : List (GoString × Value)) (before : List Spec.Segment)
    (next : Spec.Segment) (after : List Spec.Segment) (v : Value)
    (hwf : ∀ s ∈ before ++ next :: after, s.WellFormed)
    (hlead : (Spec.pathOf (before ++ next :: after)).head? ≠ some '.')
    (hreach : Spec.applySegments (.object m) before = some v)
    (hv : ∀ kvs, v ≠ .object kvs) :
    util.Jq m (Spec.pathOf (before ++ next :: after))
      = .returned (.null, some (.expectedMap next.text)) := by
  have hne : before ++ next :: after ≠ [] := by simp
  rw [(util.Jq_pathOf m _ hne hwf).2 hlead]
  have hbefore : ∀ s ∈ before, s.WellFormed := fun s hs => hwf s (by simp [hs])
  simp only [List.map_append, List.map_cons]
  rw [util.JqLoop_segments_append before (.object m) v _ hbefore hreach]
  exact util.JqLoop_not_object v _ _ hv

/-- C7, witness: on `{"a": {"b": ["x", {"c": 7}]}}` the path `a.b[0].c` goes
through the string `"x"` and fails with the map error at `c`. -/
theorem Jq_non_mapping_witness :
    util.Jq nestedClaims "a.b[0].c".toList
      = .returned (.null, some (.expectedMap "c".toList)) :=
  Jq_non_mapping nestedClaims [.plain "a".toList, .indexed "b".toList 0] (.plain "c".toList) []
    (.string "x".toList) (by decide) (by decide) rfl (by intro kvs h; cases h)

/-- C8, counterexample: with two leading separators the result differs from
that of the bare path: on `{"a": 1}`, `..a` fails with the map error while `a`
gives `1`. -/
theorem Jq_leading_separators_counterexample :
    util.Jq numberClaims "..a".toList = .returned (.null, some (.expectedMap "a".toList)) ∧
    util.Jq numberClaims "a".toList = .returned (.number 1, none) ∧
    util.Jq numberClaims ('.' :: '.' :: "a".toList) ≠ util.Jq numberClaims "a".toList :=
  ⟨rfl, rfl, by
    intro h
    have e1 : util.Jq numberClaims ('.' :: '.' :: "a".toList)
        = .returned (.null, some (.expectedMap "a".toList)) := rfl
    have e2 : util.Jq numberClaims "a".toList = .returned (.number 1, none) := rfl
    rw [e1, e2] at h
    cases h⟩

/-- C8, amended. One leading path separator is stripped before splitting: for
every claim mapping `m` and every path `p` that does not itself begin with a
separator, `Jq(m, "." ++ p)` returns the same value and the same error outcome
as `Jq(m, p)`. -/
theorem Jq_leading_separator (m : List (GoString × Value)) (p : GoString)
    (hp : p.head? ≠ some '.') : util.Jq m ('.' :: p) = util.Jq m p := by
  simp only [util.Jq, strings.TrimPrefix_dot_cons, strings.TrimPrefix_dot_of_head p hp]

/-- C8, witness: `.a.b[1].c` and `a.b[1].c` give the same result. -/
theorem Jq_leading_separator_witness :
    util.Jq nestedClaims ".a.b[1].c".toList = util.Jq nestedClaims "a.b[1].c".toList :=
  Jq_leading_separator nestedClaims "a.b[1].c".toList (by decide)

/-! ## The request handlers -/

/-- C9. For every request whose context has no OIDC user or whose user is not
active, both `enrollUserHandler` and `submitTxHandler` answer 401 and leave the
world as it was: the file system, the remote state, the open connections and
the record of calls (no `Jq`, no keystore lookup, no CA call, no gateway
client, no submission) are unchanged. -/
theorem unauthenticated_no_effect {σ : Type} (ext : External σ) (cfg : config.Config)
    (w : World σ) (r : proxy.Request)
    (h : r.user = none ∨ ∃ u, r.user = some u ∧ u.Active = false) :
    proxy.enrollUserHandler ext cfg w r
      = (.returned ⟨proxy.StatusUnauthorized, .text "no user found"⟩, w) ∧
    proxy.submitTxHandler ext cfg w r
      = (.returned ⟨proxy.StatusUnauthorized, .text "no user found"⟩, w) := by
  rcases h with h | ⟨u, h, hu⟩
  · simp [proxy.enrollUserHandler, proxy.submitTxHandler, h]
  · simp [proxy.enrollUserHandler, proxy.submitTxHandler, h, hu]

/-- C9, witness: a request without a user is answered 401 by both handlers,
and the status is 401. -/
theorem unauthenticated_no_effect_witness :
    (proxy.enrollUserHandler demoExternal demoConfig (freshWorld []) anonymousRequest
      = (.returned ⟨401, .text "no user found"⟩, freshWorld [])) ∧
    (proxy.submitTxHandler demoExternal demoConfig (freshWorld []) anonymousRequest
      = (.returned ⟨401, .text "no user found"⟩, freshWorld [])) :=
  unauthenticated_no_effect demoExternal demoConfig (freshWorld []) anonymousRequest (Or.inl rfl)

/-- C10. For every authenticated request to `submitTxHandler` whose body binds
and whose `channel` or `chaincode` path parameter is empty, the handler answers
400 and leaves the world as it was: `fabric.SubmitTransaction` is not called,
so there is no credential lookup and no gateway connection. -/
theorem submit_empty_path_parameter {σ : Type} (ext : External σ) (cfg : config.Config)
    (w : World σ) (r : proxy.Request) (u : oidc.IntrospectionResponse)
    (name : GoString) (args : List GoString)
    (huser : r.user = some u) (hactive : u.Active = true)
    (hbind : ext.bind r.body = .ok (name, args))
    (hempty : r.channel = [] ∨ r.chaincode = []) :
    proxy.submitTxHandler ext cfg w r
      = (.returned ⟨proxy.StatusBadRequest, .text "channel and chaincode name are required"⟩, w) := by
  simp [proxy.submitTxHandler, huser, hactive, hbind, hempty]

/-- C10, witness: `alice` submitting with an empty chaincode name gets 400. -/
theorem submit_empty_path_parameter_witness :
    proxy.submitTxHandler demoExternal demoConfig (freshWorld []) noChaincodeRequest
      = (.returned ⟨400, .text "channel and chaincode name are required"⟩, freshWorld []) :=
  submit_empty_path_parameter demoExternal demoConfig (freshWorld []) noChaincodeRequest alice
    "CreateAsset".toList [] rfl rfl rfl (Or.inr rfl)

/-! ## `Clean` is idempotent -/

theorem strings.Split_pieces (s : GoString) (c : Char) : ∀ e ∈ strings.Split s c, c ∉ e := by
  induction s with
  | nil => simp [strings.Split]
  | cons x xs ih =>
    simp only [strings.Split]
    split
    · intro e he
      simp only [List.mem_cons] at he
      rcases he with rfl | he
      · simp
      · exact ih e he
    · rename_i hx
      split
      · rename_i heq
        exact absurd heq (strings.Split_ne_nil xs c)
      · rename_i piece pieces heq
        intro e he
        simp only [List.mem_cons] at he
        rcases he with rfl | he
        · have := ih piece (by rw [heq]; simp)
          simp only [List.mem_cons, not_or]
          exact ⟨fun e => hx e.symm, this⟩
        · exact ih e (by rw [heq]; simp [he])

theorem strings.Join_ne_nil (es : List GoString) (c : Char) (hne : es ≠ [])
    (h : ∀ e ∈ es, e ≠ []) :
    strings.Join es c ≠ [] ∧ (strings.Join es c).head? = (es.head hne).head? := by
  cases es with
  | nil => exact absurd rfl hne
  | cons e rest =>
    have he : e ≠ [] := h e (by simp)
    cases e with
    | nil => exact absurd rfl he
    | cons x xs =>
      cases rest with
      | nil => simp [strings.Join]
      | cons e2 rest2 => simp [strings.Join]

theorem filepath.cleanStep_normal (rooted : Bool) (out : List GoString) (e : GoString)
    (h : filepath.Normal e) : filepath.cleanStep rooted out e = e :: out := by
  obtain ⟨h1, h2, h3, _⟩ := h
  simp [filepath.cleanStep, h1, h2, h3]

theorem filepath.cleanStep_stack (rooted : Bool) (out : List GoString) (elem : GoString)
    (hinv : filepath.CleanStack rooted out) (helem : '/' ∉ elem) :
    filepath.CleanStack rooted (filepath.cleanStep rooted out elem) := by
  by_cases h1 : elem = [] ∨ elem = ['.']
  · simpa [filepath.cleanStep, h1] using hinv
  · by_cases h2 : elem = ['.', '.']
    · subst h2
      obtain ⟨kept, n, rfl, hkept, hroot⟩ := hinv
      cases kept with
      | nil =>
        cases n with
        | zero =>
          cases rooted with
          | true => exact ⟨[], 0, by simp [filepath.cleanStep], by simp, by simp⟩
          | false => exact ⟨[], 1, by simp [filepath.cleanStep, List.replicate], by simp, by simp⟩
        | succ n =>
          have hr : rooted = false := by
            cases rooted with
            | true => exact absurd (hroot rfl) (by simp)
            | false => rfl
          subst hr
          refine ⟨[], n + 2, ?_, by simp, by simp⟩
          simp [filepath.cleanStep, List.replicate]
      | cons top below =>
        have htop : filepath.Normal top := hkept top (by simp)
        have hne : top ≠ ['.', '.'] := htop.2.2.1
        refine ⟨below, n, ?_, fun e he => hkept e (List.mem_cons_of_mem _ he), hroot⟩
        simp [filepath.cleanStep, hne]
    · obtain ⟨kept, n, rfl, hkept, hroot⟩ := hinv
      have hnormal : filepath.Normal elem := by
        simp only [not_or] at h1
        exact ⟨h1.1, h1.2, h2, helem⟩
      rw [filepath.cleanStep_normal _ _ _ hnormal]
      refine ⟨elem :: kept, n, by simp, ?_, hroot⟩
      intro e he
      simp only [List.mem_cons] at he
      rcases he with rfl | he
      · exact hnormal
      · exact hkept e he

theorem filepath.foldl_cleanStep_stack (rooted : Bool) (comps : List GoString)
    (out : List GoString) (hcomps : ∀ e ∈ comps, '/' ∉ e)
    (hinv : filepath.CleanStack rooted out) :
    filepath.CleanStack rooted (comps.foldl (filepath.cleanStep rooted) out) := by
  induction comps generalizing out with
  | nil => exact hinv
  | cons e rest ih =>
    simp only [List.foldl_cons]
    exact ih _ (fun x hx => hcomps x (List.mem_cons_of_mem _ hx))
      (filepath.cleanStep_stack rooted out e hinv (hcomps e (by simp)))

theorem filepath.foldl_cleanStep_normal (rooted : Bool) (comps out : List GoString)
    (h : ∀ e ∈ comps, filepath.Normal e) :
    comps.foldl (filepath.cleanStep rooted) out = comps.reverse ++ out := by
  induction comps generalizing out with
  | nil => simp
  | cons e rest ih =>
    simp only [List.foldl_cons, filepath.cleanStep_normal rooted out e (h e (by simp))]
    rw [ih _ (fun x hx => h x (List.mem_cons_of_mem _ hx))]
    simp

theorem filepath.foldl_cleanStep_dotdot (n k : Nat) :
    (List.replicate n ['.', '.']).foldl (filepath.cleanStep false) (List.replicate k ['.', '.'])
      = List.replicate (n + k) ['.', '.'] := by
  induction n generalizing k with
  | zero => simp
  | succ n ih =>
    have hstep : filepath.cleanStep false (List.replicate k ['.', '.']) ['.', '.']
        = List.replicate (k + 1) ['.', '.'] := by
      cases k with
      | zero => simp [filepath.cleanStep, List.replicate]
      | succ k => simp [filepath.cleanStep, List.replicate]
    rw [List.replicate_succ, List.foldl_cons, hstep, ih (k + 1)]
    congr 1
    omega

/-- Cleaning the elements kept by `Clean` keeps them all. -/
theorem filepath.refold_cleanStack (rooted : Bool) (out : List GoString)
    (h : filepath.CleanStack rooted out) :
    out.reverse.foldl (filepath.cleanStep rooted) [] = out := by
  obtain ⟨kept, n, rfl, hkept, hroot⟩ := h
  have hdots : (List.replicate n ['.', '.']).foldl (filepath.cleanStep rooted) []
      = List.replicate n ['.', '.'] := by
    cases rooted with
    | true => simp [hroot rfl]
    | false => simpa using filepath.foldl_cleanStep_dotdot n 0
  rw [List.reverse_append, List.reverse_replicate, List.foldl_append, hdots,
    filepath.foldl_cleanStep_normal rooted kept.reverse _
      (fun e he => hkept e (List.mem_reverse.1 he))]
  simp

theorem filepath.CleanStack_elems (rooted : Bool) (out : List GoString)
    (h : filepath.CleanStack rooted out) : ∀ e ∈ out, e ≠ [] ∧ '/' ∉ e := by
  obtain ⟨kept, n, rfl, hkept, _⟩ := h
  intro e he
  simp only [List.mem_append] at he
  rcases he with he | he
  · exact ⟨(hkept e he).1, (hkept e he).2.2.2⟩
  · have := List.eq_of_mem_replicate he
    subst this
    exact ⟨by simp, by decide⟩

theorem filepath.Clean_ne_nil (p : GoString) : filepath.Clean p ≠ [] := by
  unfold filepath.Clean
  split
  · simp
  · simp only []
    split
    · simp
    · split <;> simp_all

theorem filepath.Clean_Clean (p : GoString) : filepath.Clean (filepath.Clean p) = filepath.Clean p := by
  by_cases hp : p = []
  · subst hp
    decide
  · generalize hr : (decide (p.head? = some '/')) = rooted
    have hstack : filepath.CleanStack rooted
        ((strings.Split p '/').foldl (filepath.cleanStep rooted) []) :=
      filepath.foldl_cleanStep_stack rooted _ [] (strings.Split_pieces p '/')
        ⟨[], 0, by simp, by simp, by simp⟩
    generalize hout : (strings.Split p '/').foldl (filepath.cleanStep rooted) [] = out at hstack
    have helems := filepath.CleanStack_elems rooted out hstack
    have hrefold := filepath.refold_cleanStack rooted out hstack
    have hclean : filepath.Clean p =
        if rooted = true then '/' :: strings.Join out.reverse '/'
        else if strings.Join out.reverse '/' = [] then ['.'] else strings.Join out.reverse '/' := by
      simp only [filepath.Clean, hp, if_false, hr, hout]
    rw [hclean]
    by_cases hnil : out = []
    · subst hnil
      cases rooted <;> decide
    · have hrev : out.reverse ≠ [] := by simpa using hnil
      have hrevel : ∀ e ∈ out.reverse, e ≠ [] := fun e he => (helems e (List.mem_reverse.1 he)).1
      have hrevsep : ∀ e ∈ out.reverse, '/' ∉ e := fun e he => (helems e (List.mem_reverse.1 he)).2
      obtain ⟨hjne, hjhead⟩ := strings.Join_ne_nil out.reverse '/' hrev hrevel
      have hsplit := strings.Split_Join out.reverse '/' hrev hrevsep
      cases rooted with
      | true =>
        simp only [if_true]
        have hs : strings.Split ('/' :: strings.Join out.reverse '/') '/' = [] :: out.reverse := by
          simp [strings.Split, hsplit]
        simp only [filepath.Clean, List.cons_ne_nil, if_false, List.head?_cons, decide_True, hs,
          List.foldl_cons, if_true]
        have h0 : filepath.cleanStep true [] [] = [] := by simp [filepath.cleanStep]
        rw [h0, hrefold]
      | false =>
        simp only [Bool.false_eq_true, if_false, hjne]
        have hhead : (strings.Join out.reverse '/').head? ≠ some '/' := by
          rw [hjhead]
          have hmem : out.reverse.head hrev ∈ out.reverse := List.head_mem hrev
          have h1 := hrevel _ hmem
          have h2 := hrevsep _ hmem
          cases hh : out.reverse.head hrev with
          | nil => exact absurd hh h1
          | cons x xs =>
            rw [hh] at h2
            simp only [List.mem_cons, not_or] at h2
            simp only [List.head?_cons, ne_eq, Option.some.injEq]
            exact fun e => h2.1 e.symm
        have hd : decide ((strings.Join out.reverse '/').head? = some '/') = false := by
          simpa using hhead
        simp only [filepath.Clean, hjne, if_false, hd, hsplit, hrefold, Bool.false_eq_true]

theorem filepath.Join_single_Join (a b : GoString) (rest : List GoString) (hb : b ≠ []) :
    filepath.Join [filepath.Join (a :: b :: rest)] = filepath.Join (a :: b :: rest) := by
  have hclean : ∃ p, filepath.Join (a :: b :: rest) = filepath.Clean p := by
    by_cases ha : a = []
    · exact ⟨strings.Join (b :: rest) '/', by simp [filepath.Join, ha, hb]⟩
    · exact ⟨strings.Join (a :: b :: rest) '/', by simp [filepath.Join, ha]⟩
  obtain ⟨p, hp⟩ := hclean
  rw [hp]
  simp [filepath.Join, filepath.Clean_ne_nil, strings.Join, filepath.Clean_Clean]

/-! ## The lookups of the credential store only read -/

theorem World.ReadsFrom.refl {σ : Type} (w : World σ) : w.ReadsFrom w :=
  ⟨rfl, rfl, rfl, rfl, [], by simp, by simp⟩

theorem World.ReadsFrom.trans {σ : Type} {a b c : World σ} (h1 : a.ReadsFrom b)
    (h2 : b.ReadsFrom c) : a.ReadsFrom c := by
  obtain ⟨f1, r1, c1, n1, e1, t1, p1⟩ := h1
  obtain ⟨f2, r2, c2, n2, e2, t2, p2⟩ := h2
  refine ⟨f2.trans f1, r2.trans r1, c2.trans c1, n2.trans n1, e1 ++ e2, ?_, ?_⟩
  · rw [t2, t1, List.append_assoc]
  · intro e he
    rcases List.mem_append.1 he with he | he
    · exact p1 e he
    · exact p2 e he

theorem World.ReadsFrom.log {σ : Type} (w : World σ) (e : Event) (h : e.readOnly = true) :
    w.ReadsFrom (w.log e) :=
  ⟨rfl, rfl, rfl, rfl, [e], rfl, by simpa using h⟩

theorem fabric.GetMSPKeyfile_reads {σ : Type} (w : World σ) (homeDir : GoString) :
    ∃ w', fabric.GetMSPKeyfile w homeDir = (fabric.keyfileIn w.fs homeDir, w') ∧
      w.ReadsFrom w' := by
  have hreads : w.ReadsFrom ((w.log (.GetMSPKeyfile homeDir)).log (.osGlob (filepath.Join
      [filepath.Join [homeDir, "msp".toList, "keystore".toList], "*".toList]))) :=
    (World.ReadsFrom.log w (.GetMSPKeyfile homeDir) rfl).trans
      (World.ReadsFrom.log _ (.osGlob _) rfl)
  refine ⟨_, ?_, hreads⟩
  simp only [fabric.GetMSPKeyfile, fabric.keyfileIn, World.log]
  split <;> rfl

theorem fabric.LoadMSPKeyCert_reads {σ : Type} (w : World σ) (homeDir : GoString) :
    ∃ w', fabric.LoadMSPKeyCert w homeDir = (fabric.keyCertIn w.fs homeDir, w') ∧
      w.ReadsFrom w' := by
  obtain ⟨wk, hk, hreadsk⟩ :=
    fabric.GetMSPKeyfile_reads (w.log (.LoadMSPKeyCert homeDir)) (filepath.Join [homeDir])
  have hw0 : w.ReadsFrom (w.log (.LoadMSPKeyCert homeDir)) :=
    World.ReadsFrom.log w (.LoadMSPKeyCert homeDir) rfl
  have hwk : w.ReadsFrom wk := hw0.trans hreadsk
  have hfs : wk.fs = w.fs := hwk.1
  have hlogfs : (w.log (.LoadMSPKeyCert homeDir)).fs = w.fs := rfl
  rw [hlogfs] at hk
  unfold fabric.LoadMSPKeyCert fabric.keyCertIn
  simp only [hk]
  cases hkey : fabric.keyfileIn w.fs (filepath.Join [homeDir]) with
  | error err => exact ⟨wk, rfl, hwk⟩
  | ok keyFilePath =>
    simp only []
    have h1 : (wk.log (.osReadFile (filepath.Join
        [homeDir, "msp".toList, "signcerts".toList, "cert.pem".toList]))).fs = w.fs := hfs
    have hr1 : w.ReadsFrom (wk.log (.osReadFile (filepath.Join
        [homeDir, "msp".toList, "signcerts".toList, "cert.pem".toList]))) :=
      hwk.trans (World.ReadsFrom.log _ (.osReadFile _) rfl)
    rw [h1]
    cases hcert : os.ReadFile w.fs (filepath.Join
        [homeDir, "msp".toList, "signcerts".toList, "cert.pem".toList]) with
    | none => exact ⟨_, rfl, hr1⟩
    | some certBytes =>
      simp only []
      have h2 : ((wk.log (.osReadFile (filepath.Join
          [homeDir, "msp".toList, "signcerts".toList, "cert.pem".toList]))).log
            (.osReadFile keyFilePath)).fs = w.fs := hfs
      have hr2 := hr1.trans (World.ReadsFrom.log _ (.osReadFile keyFilePath) rfl)
      rw [h2]
      cases hkeyb : os.ReadFile w.fs keyFilePath with
      | none => exact ⟨_, rfl, hr2⟩
      | some keyBytes => exact ⟨_, rfl, hr2⟩

theorem fabric.keyfileIn_of_keyCertIn (fs : FS) (homeDir : GoString) (keyCert : fabric.MSPKeyCert)
    (h : fabric.keyCertIn fs homeDir = .ok keyCert) :
    ∃ keyFile, fabric.keyfileIn fs (filepath.Join [homeDir]) = .ok keyFile := by
  unfold fabric.keyCertIn at h
  cases hkey : fabric.keyfileIn fs (filepath.Join [homeDir]) with
  | error err => simp [hkey] at h
  | ok keyFile => exact ⟨keyFile, rfl⟩

/-- What a 200 answer of `enrollUserHandler` tells about the call. -/
theorem proxy.enrollUserHandler_ok {σ : Type} (ext : External σ) (cfg : config.Config)
    (w w1 : World σ) (r : proxy.Request) (body : proxy.Body)
    (h : proxy.enrollUserHandler ext cfg w r = (.returned ⟨proxy.StatusOK, body⟩, w1)) :
    ∃ (u : oidc.IntrospectionResponse) (fabricClaim : Value) (fabricClaimBytes : GoString)
      (decoded : api.RegistrationRequest) (wE : World σ) (keyCert : fabric.MSPKeyCert),
      r.user = some u ∧ u.Active = true ∧
      util.Jq u.Claims cfg.Fabric.CA.OIDCClaimKey = .returned (fabricClaim, none) ∧
      ext.jsonMarshal fabricClaim = .ok fabricClaimBytes ∧
      ext.jsonUnmarshalRegistrationRequest fabricClaimBytes = .ok decoded ∧
      fabric.LoadMSPKeyCert wE
        (filepath.Join [cfg.Fabric.CA.ClientHome, "users".toList, u.Subject]) = (.ok keyCert, w1) ∧
      body = .keyCert
        { Cert := ext.base64Encode keyCert.Cert, Key := ext.base64Encode keyCert.Key } := by
  unfold proxy.enrollUserHandler at h
  split at h
  · simp [proxy.StatusOK, proxy.StatusUnauthorized] at h
  · rename_i u hu
    split at h
    · simp [proxy.StatusOK, proxy.StatusUnauthorized] at h
    · rename_i hactive
      simp only [] at h
      split at h
      · simp at h
      · simp [proxy.StatusOK, proxy.StatusInternalServerError] at h
      · rename_i fabricClaim hjq
        split at h
        · simp [proxy.StatusOK, proxy.StatusInternalServerError] at h
        · rename_i fabricClaimBytes hmarshal
          split at h
          · simp [proxy.StatusOK, proxy.StatusBadRequest] at h
          · rename_i decoded hdecode
            split at h
            · simp [proxy.StatusOK, proxy.StatusInternalServerError] at h
            · rename_i wE henrolled
              split at h
              · simp [proxy.StatusOK, proxy.StatusInternalServerError] at h
              · rename_i keyCert wL hload
                simp only [Prod.mk.injEq, GoResult.returned.injEq, proxy.Response.mk.injEq,
                  true_and] at h
                obtain ⟨hbody, hw⟩ := h
                subst hw
                refine ⟨u, fabricClaim, fabricClaimBytes, decoded, wE, keyCert, hu, ?_, hjq,
                  hmarshal, hdecode, hload, hbody.symm⟩
                simpa using hactive

/-- Once the keystore lookup for the subject of a request finds a key file,
`enrollUserHandler` only reads; and if the credential of the subject can be
loaded and the claim of the request is extracted and decoded, it answers 200
with that credential. -/
theorem proxy.enrollUserHandler_enrolled {σ : Type} (ext : External σ) (cfg : config.Config)
    (w : World σ) (r : proxy.Request) (u : oidc.IntrospectionResponse) (keyFile : GoString)
    (hu : r.user = some u)
    (hkey : fabric.keyfileIn w.fs
      (filepath.Join [cfg.Fabric.CA.ClientHome, "users".toList, u.Subject]) = .ok keyFile) :
    w.ReadsFrom (proxy.enrollUserHandler ext cfg w r).2 ∧
    ∀ (keyCert : fabric.MSPKeyCert) (fabricClaim : Value) (fabricClaimBytes : GoString)
      (decoded : api.RegistrationRequest),
      fabric.keyCertIn w.fs
        (filepath.Join [cfg.Fabric.CA.ClientHome, "users".toList, u.Subject]) = .ok keyCert →
      u.Active = true →
      util.Jq u.Claims cfg.Fabric.CA.OIDCClaimKey = .returned (fabricClaim, none) →
      ext.jsonMarshal fabricClaim = .ok fabricClaimBytes →
      ext.jsonUnmarshalRegistrationRequest fabricClaimBytes = .ok decoded →
      (proxy.enrollUserHandler ext cfg w r).1
        = .returned ⟨proxy.StatusOK, .keyCert
            { Cert := ext.base64Encode keyCert.Cert, Key := ext.base64Encode keyCert.Key }⟩ := by
  have hJq := World.ReadsFrom.log w (.Jq cfg.Fabric.CA.OIDCClaimKey) rfl
  obtain ⟨wG, hG, hreadsG⟩ := fabric.GetMSPKeyfile_reads (w.log (.Jq cfg.Fabric.CA.OIDCClaimKey))
    (filepath.Join [cfg.Fabric.CA.ClientHome, "users".toList, u.Subject])
  have hlogfs : (w.log (.Jq cfg.Fabric.CA.OIDCClaimKey)).fs = w.fs := rfl
  rw [hlogfs, hkey] at hG
  obtain ⟨w2, h2, hreads2⟩ := fabric.LoadMSPKeyCert_reads wG
    (filepath.Join [cfg.Fabric.CA.ClientHome, "users".toList, u.Subject])
  have hGfs : wG.fs = w.fs := hreadsG.1.trans hlogfs
  rw [hGfs] at h2
  have hreads : w.ReadsFrom w2 := (hJq.trans hreadsG).trans hreads2
  constructor
  · cases hactive : u.Active with
    | false =>
      have h : (proxy.enrollUserHandler ext cfg w r).2 = w := by
        simp [proxy.enrollUserHandler, hu, hactive]
      rw [h]
      exact World.ReadsFrom.refl w
    | true =>
      cases hjq : util.Jq u.Claims cfg.Fabric.CA.OIDCClaimKey with
      | panicked =>
        have h : (proxy.enrollUserHandler ext cfg w r).2
            = w.log (.Jq cfg.Fabric.CA.OIDCClaimKey) := by
          simp [proxy.enrollUserHandler, hu, hactive, hjq]
        rw [h]
        exact hJq
      | returned res =>
        obtain ⟨fabricClaim, errOpt⟩ := res
        cases errOpt with
        | some err =>
          have h : (proxy.enrollUserHandler ext cfg w r).2
              = w.log (.Jq cfg.Fabric.CA.OIDCClaimKey) := by
            simp [proxy.enrollUserHandler, hu, hactive, hjq]
          rw [h]
          exact hJq
        | none =>
          cases hm : ext.jsonMarshal fabricClaim with
          | error err =>
            have h : (proxy.enrollUserHandler ext cfg w r).2
                = w.log (.Jq cfg.Fabric.CA.OIDCClaimKey) := by
              simp [proxy.enrollUserHandler, hu, hactive, hjq, hm]
            rw [h]
            exact hJq
          | ok fabricClaimBytes =>
            cases hd : ext.jsonUnmarshalRegistrationRequest fabricClaimBytes with
            | error err =>
              have h : (proxy.enrollUserHandler ext cfg w r).2
                  = w.log (.Jq cfg.Fabric.CA.OIDCClaimKey) := by
                simp [proxy.enrollUserHandler, hu, hactive, hjq, hm, hd]
              rw [h]
              exact hJq
            | ok decoded =>
              have h : (proxy.enrollUserHandler ext cfg w r).2 = w2 := by
                unfold proxy.enrollUserHandler
                simp only [hu, hactive, hjq, hm, hd, hG, h2]
                cases fabric.keyCertIn w.fs
                  (filepath.Join [cfg.Fabric.CA.ClientHome, "users".toList, u.Subject]) <;> simp
              rw [h]
              exact hreads
  · intro keyCert fabricClaim fabricClaimBytes decoded hkc hactive hjq hm hd
    rw [hkc] at h2
    unfold proxy.enrollUserHandler
    simp only [hu, hactive, hjq, hm, hd, hG, h2]
    simp

/-- C2, the claim at a failing input. With the claim path `fabric.role`,
`alice` enrolls with a claim that has a mapping at that path and is answered
200 with her certificate and key. A second call for the same subject, with a
claim that has nothing at the path, is answered 500: the claim is extracted
before the credential store is looked at. -/
theorem enroll_second_call_counterexample :
    (proxy.enrollUserHandler demoExternal roleConfig (freshWorld []) aliceRoleRequest).1
      = .returned ⟨200, .keyCert ⟨"CERT alice".toList, "KEY alice".toList⟩⟩ ∧
    (proxy.enrollUserHandler demoExternal roleConfig
        (proxy.enrollUserHandler demoExternal roleConfig (freshWorld []) aliceRoleRequest).2
        aliceNoRoleRequest).1
      = .returned ⟨500, .text "expected map at path: role"⟩ ∧
    (proxy.enrollUserHandler demoExternal roleConfig
        (proxy.enrollUserHandler demoExternal roleConfig (freshWorld []) aliceRoleRequest).2
        aliceRoleRequest).1
      = .returned ⟨200, .keyCert ⟨"CERT alice".toList, "KEY alice".toList⟩⟩ :=
  ⟨rfl, rfl, rfl⟩

/-- C2, as the code has it. Let `enrollUserHandler` have just answered 200 to a
request of a user, and let a second request of a user with the same subject be
served on the resulting state. Whatever the claims of the second request,
`RegisterAndEnrollUser` is not invoked and nothing changes but the record of
calls, to which only read-only calls are added. The same request served again
is answered 200 with the same body (the same base64 certificate and key); so is
every second request of an active user whose claim at the configured path is
extracted, marshalled and decoded without error. -/
theorem enroll_idempotent {σ : Type} (ext : External σ) (cfg : config.Config)
    (w w1 : World σ) (r r2 : proxy.Request) (u u2 : oidc.IntrospectionResponse)
    (body : proxy.Body)
    (hfirst : proxy.enrollUserHandler ext cfg w r = (.returned ⟨proxy.StatusOK, body⟩, w1))
    (hu : r.user = some u) (hu2 : r2.user = some u2) (hsubject : u2.Subject = u.Subject) :
    ((proxy.enrollUserHandler ext cfg w1 r2).2.fs = w1.fs ∧
      (proxy.enrollUserHandler ext cfg w1 r2).2.remote = w1.remote ∧
      (proxy.enrollUserHandler ext cfg w1 r2).2.conns = w1.conns ∧
      ∃ evs, (proxy.enrollUserHandler ext cfg w1 r2).2.trace = w1.trace ++ evs ∧
        (∀ e ∈ evs, e.readOnly = true) ∧ ∀ regReq, Event.RegisterAndEnrollUser regReq ∉ evs) ∧
    (proxy.enrollUserHandler ext cfg w1 r).1 = .returned ⟨proxy.StatusOK, body⟩ ∧
    ∀ (fabricClaim : Value) (fabricClaimBytes : GoString) (decoded : api.RegistrationRequest),
      u2.Active = true →
      util.Jq u2.Claims cfg.Fabric.CA.OIDCClaimKey = .returned (fabricClaim, none) →
      ext.jsonMarshal fabricClaim = .ok fabricClaimBytes →
      ext.jsonUnmarshalRegistrationRequest fabricClaimBytes = .ok decoded →
      (proxy.enrollUserHandler ext cfg w1 r2).1 = .returned ⟨proxy.StatusOK, body⟩ := by
  obtain ⟨u0, fabricClaim, fabricClaimBytes, decoded, wE, keyCert, hu0, hactive, hjq, hmarshal,
    hdecode, hload, hbody⟩ := proxy.enrollUserHandler_ok ext cfg w w1 r body hfirst
  rw [hu] at hu0
  cases hu0
  obtain ⟨wL, hL, hreadsL⟩ := fabric.LoadMSPKeyCert_reads wE
    (filepath.Join [cfg.Fabric.CA.ClientHome, "users".toList, u.Subject])
  rw [hload] at hL
  simp only [Prod.mk.injEq] at hL
  obtain ⟨hkc, hwL⟩ := hL
  subst hwL
  have hfs : w1.fs = wE.fs := hreadsL.1
  obtain ⟨keyFile, hkeyFile⟩ := fabric.keyfileIn_of_keyCertIn wE.fs _ keyCert hkc.symm
  rw [filepath.Join_single_Join _ _ _ (by decide)] at hkeyFile
  rw [← hfs] at hkeyFile hkc
  obtain ⟨-, hok⟩ := proxy.enrollUserHandler_enrolled ext cfg w1 r u keyFile hu hkeyFile
  have hkeyFile2 := hkeyFile
  have hkc2 := hkc
  rw [← hsubject] at hkeyFile2 hkc2
  obtain ⟨hreads2, hok2⟩ := proxy.enrollUserHandler_enrolled ext cfg w1 r2 u2 keyFile hu2 hkeyFile2
  obtain ⟨f, rm, c, -, evs, ht, hro⟩ := hreads2
  refine ⟨⟨f, rm, c, evs, ht, hro, ?_⟩, ?_, ?_⟩
  · intro regReq hmem
    have := hro _ hmem
    simp [Event.readOnly] at this
  · rw [hbody]
    exact hok keyCert fabricClaim fabricClaimBytes decoded hkc.symm hactive hjq hmarshal hdecode
  · intro fabricClaim2 fabricClaimBytes2 decoded2 hactive2 hjq2 hm2 hd2
    rw [hbody]
    exact hok2 keyCert fabricClaim2 fabricClaimBytes2 decoded2 hkc2.symm hactive2 hjq2 hm2 hd2

/-- C2, witness: `alice` enrolls on an empty file system, which registers and
enrolls her and answers 200. A second request of `alice`, with the other claim
`{"id": "mallory"}`, served on the resulting state is answered 200 with the
same certificate and key, without a registration, and so is the first request
served again. -/
theorem enroll_idempotent_witness :
    Event.RegisterAndEnrollUser
        { Name := "alice".toList, Typ := [], Secret := [], MaxEnrollments := 0, Affiliation := [],
          Attributes := [], CAName := [] } ∈ aliceEnrolled.trace ∧
    ((proxy.enrollUserHandler demoExternal demoConfig aliceEnrolled
          aliceNamedMalloryRequest).2.fs = aliceEnrolled.fs ∧
      (proxy.enrollUserHandler demoExternal demoConfig aliceEnrolled
          aliceNamedMalloryRequest).2.remote = aliceEnrolled.remote ∧
      (proxy.enrollUserHandler demoExternal demoConfig aliceEnrolled
          aliceNamedMalloryRequest).2.conns = aliceEnrolled.conns ∧
      ∃ evs, (proxy.enrollUserHandler demoExternal demoConfig aliceEnrolled
          aliceNamedMalloryRequest).2.trace = aliceEnrolled.trace ++ evs ∧
        (∀ e ∈ evs, e.readOnly = true) ∧ ∀ regReq, Event.RegisterAndEnrollUser regReq ∉ evs) ∧
    (proxy.enrollUserHandler demoExternal demoConfig aliceEnrolled aliceRequest).1
      = .returned ⟨200, .keyCert ⟨"CERT alice".toList, "KEY alice".toList⟩⟩ ∧
    (proxy.enrollUserHandler demoExternal demoConfig aliceEnrolled aliceNamedMalloryRequest).1
      = .returned ⟨200, .keyCert ⟨"CERT alice".toList, "KEY alice".toList⟩⟩ :=
  have h := enroll_idempotent demoExternal demoConfig (freshWorld []) aliceEnrolled aliceRequest
    aliceNamedMalloryRequest alice aliceNamedMallory
    (.keyCert ⟨"CERT alice".toList, "KEY alice".toList⟩) rfl rfl rfl rfl
  ⟨by decide, h.1, h.2.1,
   h.2.2 (.object [("id".toList, .string "mallory".toList)]) []
    { Name := [], Typ := [], Secret := [], MaxEnrollments := 0, Affiliation := [],
      Attributes := [], CAName := [] } rfl rfl rfl rfl⟩

/-- C3, the code at a failing input. No directory `fabric/users/*` exists on
`bobFS`, so the keystore directory of the subject `*` holds no file; yet
`GetMSPKeyfile` finds the key of `bob`, and `SubmitTransaction` goes on to
build a gateway client: it opens a gRPC connection, which stays open, and fails
only when the certificate of `*` cannot be read. Where such a certificate
exists (`bobStarFS`), the keystore of `*` still holding no file, the
transaction is submitted and no error is returned. -/
theorem submit_unprovisioned_glob_subject :
    os.Stat bobFS "fabric/users/*/msp/keystore".toList = none ∧
    os.Readdirnames bobFS "fabric/users/*/msp/keystore".toList = [] ∧
    (fabric.GetMSPKeyfile (freshWorld bobFS) "fabric/users/*".toList).1
      = .ok "fabric/users/bob/msp/keystore/key_sk".toList ∧
    (fabric.SubmitTransaction demoExternal demoConfig (freshWorld bobFS) (some starUser)
        "mychannel".toList "assetcc".toList "CreateAsset".toList ["asset1".toList]).1
      = .error ("failed to create gateway client: failed to create identity: "
          ++ "failed to read certificate file") ∧
    (fabric.SubmitTransaction demoExternal demoConfig (freshWorld bobFS) (some starUser)
        "mychannel".toList "assetcc".toList "CreateAsset".toList ["asset1".toList]).2.conns = [0] ∧
    Event.NewGatewayClient "fabric/users/*/msp/signcerts/cert.pem".toList
        "fabric/users/bob/msp/keystore/key_sk".toList ∈
      (fabric.SubmitTransaction demoExternal demoConfig (freshWorld bobFS) (some starUser)
        "mychannel".toList "assetcc".toList "CreateAsset".toList ["asset1".toList]).2.trace ∧
    os.Readdirnames bobStarFS "fabric/users/*/msp/keystore".toList = [] ∧
    (fabric.SubmitTransaction demoExternal demoConfig (freshWorld bobStarFS) (some starUser)
        "mychannel".toList "assetcc".toList "CreateAsset".toList ["asset1".toList]).1
      = .ok "CreateAsset".toList :=
  ⟨rfl, rfl, rfl, rfl, rfl, by decide, rfl, rfl⟩

/-! ## Joining cleaned paths -/

theorem strings.Split_append (a b : GoString) (c : Char) :
    strings.Split (a ++ c :: b) c = strings.Split a c ++ strings.Split b c := by
  induction a with
  | nil => simp [strings.Split]
  | cons x xs ih =>
    by_cases hx : x = c
    · simp [strings.Split, hx, ih]
    · simp only [List.cons_append, strings.Split, hx, if_false]
      simp only [List.append_eq] at ih ⊢
      rw [ih]
      cases hs : strings.Split xs c with
      | nil => exact absurd hs (strings.Split_ne_nil xs c)
      | cons piece pieces => simp

theorem strings.Join_append_singleton (es : List GoString) (e : GoString) (c : Char)
    (hne : es ≠ []) : strings.Join (es ++ [e]) c = strings.Join es c ++ c :: e := by
  induction es with
  | nil => exact absurd rfl hne
  | cons x rest ih =>
    cases rest with
    | nil => simp [strings.Join]
    | cons y rest2 =>
      have := ih (by simp)
      simp only [List.cons_append, strings.Join] at this ⊢
      simp only [List.append_eq] at this ⊢
      rw [this]
      simp

theorem strings.Join_cons (e : GoString) (es : List GoString) (c : Char) (hne : es ≠ []) :
    strings.Join (e :: es) c = e ++ c :: strings.Join es c := by
  cases es with
  | nil => exact absurd rfl hne
  | cons y rest => simp [strings.Join]

theorem filepath.CleanStack_push (rooted : Bool) (out : List GoString) (e : GoString)
    (h : filepath.CleanStack rooted out) (he : filepath.Normal e) :
    filepath.CleanStack rooted (e :: out) := by
  obtain ⟨kept, n, rfl, hkept, hroot⟩ := h
  refine ⟨e :: kept, n, by simp, ?_, hroot⟩
  intro x hx
  simp only [List.mem_cons] at hx
  rcases hx with rfl | hx
  · exact he
  · exact hkept x hx

/-- A cleaned path and the elements it is made of. -/
theorem filepath.Clean_eq_render (p : GoString) (hp : p ≠ []) :
    ∃ rooted out, filepath.CleanStack rooted out ∧ filepath.Clean p = filepath.render rooted out := by
  refine ⟨decide (p.head? = some '/'),
    (strings.Split p '/').foldl (filepath.cleanStep (decide (p.head? = some '/'))) [], ?_, ?_⟩
  · exact filepath.foldl_cleanStep_stack _ _ [] (strings.Split_pieces p '/')
      ⟨[], 0, by simp, by simp, by simp⟩
  · simp only [filepath.Clean, hp, if_false, filepath.render]

/-- Splitting a cleaned path and cleaning the pieces gives back its elements. -/
theorem filepath.foldl_Split_render (rooted : Bool) (out : List GoString)
    (h : filepath.CleanStack rooted out) :
    (strings.Split (filepath.render rooted out) '/').foldl (filepath.cleanStep rooted) [] = out ∧
    (filepath.render rooted out ≠ []) ∧
    decide ((filepath.render rooted out).head? = some '/') = rooted := by
  have helems := filepath.CleanStack_elems rooted out h
  have hrefold := filepath.refold_cleanStack rooted out h
  by_cases hnil : out = []
  · subst hnil
    cases rooted <;> decide
  · have hrev : out.reverse ≠ [] := by simpa using hnil
    have hrevel : ∀ e ∈ out.reverse, e ≠ [] := fun e he => (helems e (List.mem_reverse.1 he)).1
    have hrevsep : ∀ e ∈ out.reverse, '/' ∉ e := fun e he => (helems e (List.mem_reverse.1 he)).2
    obtain ⟨hjne, hjhead⟩ := strings.Join_ne_nil out.reverse '/' hrev hrevel
    have hsplit := strings.Split_Join out.reverse '/' hrev hrevsep
    cases rooted with
    | true =>
      have hs : strings.Split ('/' :: strings.Join out.reverse '/') '/' = [] :: out.reverse := by
        simp [strings.Split, hsplit]
      have h0 : filepath.cleanStep true [] [] = [] := by simp [filepath.cleanStep]
      simp only [filepath.render, if_true, hs, List.foldl_cons, h0, hrefold]
      simp
    | false =>
      have hhead : (strings.Join out.reverse '/').head? ≠ some '/' := by
        rw [hjhead]
        have hmem : out.reverse.head hrev ∈ out.reverse := List.head_mem hrev
        have h1 := hrevel _ hmem
        have h2 := hrevsep _ hmem
        cases hh : out.reverse.head hrev with
        | nil => exact absurd hh h1
        | cons x xs =>
          rw [hh] at h2
          simp only [List.mem_cons, not_or] at h2
          simp only [List.head?_cons, ne_eq, Option.some.injEq]
          exact fun e => h2.1 e.symm
      simp only [filepath.render, Bool.false_eq_true, if_false, hjne, hsplit, hrefold]
      exact ⟨trivial, hjne, by simpa using hhead⟩

/-- Joining normal elements to a cleaned path appends them. -/
theorem filepath.Join_render (rooted : Bool) (out es : List GoString)
    (h : filepath.CleanStack rooted out) (hes : ∀ e ∈ es, filepath.Normal e) (hne : es ≠ []) :
    filepath.Join (filepath.render rooted out :: es) = filepath.render rooted (es.reverse ++ out) := by
  obtain ⟨hfold, hqne, hroot⟩ := filepath.foldl_Split_render rooted out h
  have hessep : ∀ e ∈ es, '/' ∉ e := fun e he => (hes e he).2.2.2
  have hrhs : filepath.render rooted (es.reverse ++ out) =
      if rooted = true then '/' :: strings.Join (es.reverse ++ out).reverse '/'
      else if strings.Join (es.reverse ++ out).reverse '/' = [] then ['.']
      else strings.Join (es.reverse ++ out).reverse '/' := rfl
  rw [hrhs]
  generalize filepath.render rooted out = q at hfold hqne hroot
  have hjoin : strings.Join (q :: es) '/' = q ++ '/' :: strings.Join es '/' :=
    strings.Join_cons _ _ _ hne
  have hhead : (q ++ '/' :: strings.Join es '/').head? = q.head? := by
    cases q with
    | nil => exact absurd rfl hqne
    | cons x xs => simp
  simp only [filepath.Join, hqne, if_false, hjoin, filepath.Clean, List.append_eq_nil, false_and,
    hhead, hroot, strings.Split_append, List.foldl_append, hfold,
    strings.Split_Join es '/' hne hessep, filepath.foldl_cleanStep_normal rooted es out hes]

theorem filepath.Join_eq_render (a b : GoString) (rest : List GoString) (hb : b ≠ []) :
    ∃ rooted out, filepath.CleanStack rooted out ∧
      filepath.Join (a :: b :: rest) = filepath.render rooted out := by
  by_cases ha : a = []
  · have hp : strings.Join (b :: rest) '/' ≠ [] := by
      cases rest with
      | nil => simpa [strings.Join] using hb
      | cons y ys => simp [strings.Join]
    obtain ⟨rooted, out, hs, hc⟩ := filepath.Clean_eq_render _ hp
    exact ⟨rooted, out, hs, by simp [filepath.Join, ha, hb, hc]⟩
  · have hp : strings.Join (a :: b :: rest) '/' ≠ [] := by simp [strings.Join, ha]
    obtain ⟨rooted, out, hs, hc⟩ := filepath.Clean_eq_render _ hp
    exact ⟨rooted, out, hs, by simp [filepath.Join, ha, hc]⟩

/-! ## `Glob` on a keystore pattern without metacharacters in its directory -/

theorem filepath.hasMeta_eq_false (p : GoString) :
    filepath.hasMeta p = false ↔ ∀ c ∈ p, c ≠ '*' ∧ c ≠ '?' ∧ c ≠ '[' ∧ c ≠ '\\' := by
  simp [filepath.hasMeta, List.any_eq_false, and_assoc]

theorem strings.mem_Join (es : List GoString) (sep c : Char) (h : c ∈ strings.Join es sep) :
    (∃ e ∈ es, c ∈ e) ∨ c = sep := by
  induction es with
  | nil => simp [strings.Join] at h
  | cons e rest ih =>
    cases rest with
    | nil => exact Or.inl ⟨e, by simp, by simpa [strings.Join] using h⟩
    | cons y ys =>
      simp only [strings.Join, List.mem_append, List.mem_cons] at h
      rcases h with h | h | h
      · exact Or.inl ⟨e, by simp, h⟩
      · exact Or.inr h
      · have h' : c ∈ strings.Join (y :: ys) sep := by simpa [strings.Join] using h
        rcases ih h' with ⟨x, hx, hc⟩ | hc
        · exact Or.inl ⟨x, List.mem_cons_of_mem _ hx, hc⟩
        · exact Or.inr hc

theorem strings.mem_Join_of_mem (es : List GoString) (sep c : Char) (e : GoString)
    (he : e ∈ es) (hc : c ∈ e) : c ∈ strings.Join es sep := by
  induction es with
  | nil => simp at he
  | cons x rest ih =>
    cases rest with
    | nil =>
      simp only [List.mem_singleton] at he
      subst he
      simpa [strings.Join] using hc
    | cons y ys =>
      simp only [strings.Join, List.mem_append, List.mem_cons]
      simp only [List.mem_cons] at he
      rcases he with rfl | he
      · exact Or.inl hc
      · have := ih (by simpa using he)
        exact Or.inr (Or.inr (by simpa [strings.Join] using this))

/-- A cleaned path has a metacharacter only if one of its elements has. -/
theorem filepath.hasMeta_render (rooted : Bool) (out : List GoString) :
    filepath.hasMeta (filepath.render rooted out) = false ↔
      ∀ e ∈ out, filepath.hasMeta e = false := by
  constructor
  · intro h e he
    rw [filepath.hasMeta_eq_false] at h ⊢
    intro c hc
    have hj : c ∈ strings.Join out.reverse '/' :=
      strings.mem_Join_of_mem _ _ _ e (List.mem_reverse.2 he) hc
    apply h
    unfold filepath.render
    split
    · exact List.mem_cons_of_mem _ hj
    · split
      · rename_i hnil
        rw [hnil] at hj
        simp at hj
      · exact hj
  · intro h
    rw [filepath.hasMeta_eq_false]
    intro c hc
    have hplain : c = '/' ∨ c = '.' ∨ c ∈ strings.Join out.reverse '/' := by
      unfold filepath.render at hc
      split at hc
      · simp only [List.mem_cons] at hc
        rcases hc with hc | hc
        · exact Or.inl hc
        · exact Or.inr (Or.inr hc)
      · split at hc
        · simp only [List.mem_singleton] at hc
          exact Or.inr (Or.inl hc)
        · exact Or.inr (Or.inr hc)
    rcases hplain with rfl | rfl | hj
    · decide
    · decide
    · rcases strings.mem_Join _ _ _ hj with ⟨e, he, hce⟩ | rfl
      · exact (filepath.hasMeta_eq_false e).1 (h e (List.mem_reverse.1 he)) c hce
      · decide

theorem filepath.scanLen_cons_plain (x : Char) (rest : GoString) (b : Bool)
    (h1 : x ≠ '*') (h2 : x ≠ '[') (h3 : x ≠ '\\') :
    filepath.scanLen (x :: rest) b
      = 1 + filepath.scanLen rest (if x = ']' then false else b) := by
  conv_lhs => unfold filepath.scanLen
  split
  · rename_i heq; cases heq
  · rename_i heq; cases heq; exact absurd rfl h3
  · rename_i heq; cases heq; exact absurd rfl h3
  · rename_i heq; cases heq; exact absurd rfl h2
  · rename_i heq; cases heq; simp
  · rename_i heq; cases heq; exact absurd rfl h1
  · rename_i hb _ heq
    cases heq
    have : x ≠ ']' := fun e => hb e
    simp [this]

theorem filepath.scanLen_plain (X rest : GoString)
    (hX : ∀ c ∈ X, c ≠ '*' ∧ c ≠ '?' ∧ c ≠ '[' ∧ c ≠ '\\') :
    filepath.scanLen (X ++ '*' :: rest) false = X.length := by
  induction X with
  | nil => simp [filepath.scanLen]
  | cons x xs ih =>
    have hx := hX x (by simp)
    have ih' := ih (fun c hc => hX c (List.mem_cons_of_mem _ hc))
    rw [List.cons_append, filepath.scanLen_cons_plain x _ false hx.1 hx.2.2.1 hx.2.2.2]
    simp only [ite_self, ih', List.length_cons]
    omega

theorem filepath.matchChunkLoop_plain_empty (chunk : GoString) (budget : Nat)
    (hchunk : ∀ c ∈ chunk, c ≠ '*' ∧ c ≠ '?' ∧ c ≠ '[' ∧ c ≠ '\\')
    (hbudget : chunk.length < budget) (failed : Bool) (hf : failed = true ∨ chunk ≠ []) :
    filepath.matchChunkLoop budget chunk [] failed = .ok none := by
  induction chunk generalizing budget failed with
  | nil =>
    cases budget with
    | zero => simp at hbudget
    | succ b =>
      rcases hf with hf | hf
      · simp [filepath.matchChunkLoop, hf]
      · exact absurd rfl hf
  | cons c cs ih =>
    cases budget with
    | zero => simp at hbudget
    | succ b =>
      have hc := hchunk c (by simp)
      simp only [filepath.matchChunkLoop, List.isEmpty_nil, Bool.or_true, hc.2.2.1, hc.2.1,
        hc.2.2.2, if_false, if_true, List.head?_nil, Bool.true_or]
      exact ih b (fun x hx => hchunk x (List.mem_cons_of_mem _ hx))
        (by simpa using hbudget) true (Or.inl rfl)

/-- A pattern made of a literal part and a final star is well formed, and does
not match the empty name. -/
theorem filepath.Match_plain_star (X : GoString) (hne : X ≠ [])
    (hX : ∀ c ∈ X, c ≠ '*' ∧ c ≠ '?' ∧ c ≠ '[' ∧ c ≠ '\\') :
    filepath.Match (X ++ ['*']) [] = .ok false := by
  obtain ⟨x, xs, rfl⟩ := List.exists_cons_of_ne_nil hne
  have hx := hX x (by simp)
  have hstar : ((x :: xs ++ ['*']).head? = some '*') = False := by simp [hx.1]
  have hdrop : List.dropWhile (fun c => decide (c = '*')) (x :: xs ++ ['*']) = x :: xs ++ ['*'] := by
    simp [List.dropWhile, hx.1]
  have hlen := filepath.scanLen_plain (x :: xs) [] hX
  have hscan : filepath.scanChunk (x :: xs ++ ['*']) = (false, x :: xs, ['*']) := by
    simp only [filepath.scanChunk, hstar, hdrop, hlen, decide_False]
    simp
  have hchunk : filepath.matchChunk (x :: xs) [] = .ok none :=
    filepath.matchChunkLoop_plain_empty (x :: xs) _ hX (by simp) false (Or.inr (by simp))
  simp only [filepath.Match, List.length_append, List.length_cons, List.length_nil,
    filepath.MatchLoop, List.append_eq_nil, List.cons_ne_nil, and_false, if_false, hscan,
    Bool.false_eq_true, false_and, hchunk]

theorem strings.LastIndex_of_not_mem (s : GoString) (c : Char) (h : c ∉ s) :
    strings.LastIndex s c = -1 := by
  induction s with
  | nil => rfl
  | cons x xs ih =>
    simp only [List.mem_cons, not_or] at h
    have hx : x ≠ c := fun e => h.1 e.symm
    simp [strings.LastIndex, ih h.2, hx]

theorem strings.LastIndex_append_sep (s t : GoString) (c : Char) (h : c ∉ t) :
    strings.LastIndex (s ++ c :: t) c = (s.length : Int) := by
  induction s with
  | nil => simp [strings.LastIndex, strings.LastIndex_of_not_mem t c h]
  | cons x xs ih =>
    simp only [List.cons_append, strings.LastIndex, List.length_cons]
    simp only [List.append_eq] at ih ⊢
    rw [ih]
    have : (xs.length : Int) ≥ 0 := by omega
    simp only [this, if_true]
    push_cast
    rfl

theorem filepath.render_cons (rooted : Bool) (out : List GoString) (e : GoString)
    (h : filepath.CleanStack rooted out) (hne : out ≠ []) :
    filepath.render rooted (e :: out) = filepath.render rooted out ++ '/' :: e ∧
      filepath.render rooted out ≠ [] := by
  have helems := filepath.CleanStack_elems rooted out h
  have hrev : out.reverse ≠ [] := by simpa using hne
  have hrevel : ∀ x ∈ out.reverse, x ≠ [] := fun x hx => (helems x (List.mem_reverse.1 hx)).1
  obtain ⟨hjne, _⟩ := strings.Join_ne_nil out.reverse '/' hrev hrevel
  have hj : strings.Join (out.reverse ++ [e]) '/' = strings.Join out.reverse '/' ++ '/' :: e :=
    strings.Join_append_singleton _ _ _ hrev
  cases rooted with
  | true => simp [filepath.render, hj]
  | false => simp [filepath.render, hj, hjne]

/-- The pattern `<dir>/*`, for a directory without metacharacters that has no
entry, matches nothing. -/
theorem filepath.globWithLimit_plain_dir (fs : FS) (limit : Nat) (dir : GoString)
    (hne : dir ≠ []) (hmeta : filepath.hasMeta dir = false)
    (hempty : os.Readdirnames fs dir = []) :
    filepath.globWithLimit fs (limit + 1) (dir ++ ['/', '*']) = .ok [] := by
  have hX : ∀ c ∈ dir ++ ['/'], c ≠ '*' ∧ c ≠ '?' ∧ c ≠ '[' ∧ c ≠ '\\' := by
    intro c hc
    simp only [List.mem_append, List.mem_singleton] at hc
    rcases hc with hc | rfl
    · exact (filepath.hasMeta_eq_false dir).1 hmeta c hc
    · decide
  have hM : filepath.Match (dir ++ ['/', '*']) [] = .ok false := by
    have := filepath.Match_plain_star (dir ++ ['/']) (by simp) hX
    simpa using this
  have hpm : filepath.hasMeta (dir ++ ['/', '*']) = true := by simp [filepath.hasMeta]
  have hlast : strings.LastIndex (dir ++ '/' :: ['*']) '/' = (dir.length : Int) :=
    strings.LastIndex_append_sep dir ['*'] '/' (by decide)
  have hsplit : filepath.Split (dir ++ ['/', '*']) = (dir ++ ['/'], ['*']) := by
    have h1 : ((dir.length : Int) + 1).toNat = dir.length + 1 := by omega
    have h2 : dir ++ ['/', '*'] = (dir ++ ['/']) ++ ['*'] := by simp
    simp only [filepath.Split, hlast, h1]
    rw [h2, List.take_left' (by simp), List.drop_left' (by simp)]
  have hcg : filepath.cleanGlobPath (dir ++ ['/']) = dir := by
    have h1 : dir ++ ['/'] ≠ ['/'] := by
      cases dir with
      | nil => exact absurd rfl hne
      | cons x xs => simp
    simp only [filepath.cleanGlobPath, List.append_eq_nil, List.cons_ne_nil, and_false, if_false,
      h1, List.length_append, List.length_singleton, Nat.add_sub_cancel]
    exact List.take_left' rfl
  have hglob : filepath.glob fs dir ['*'] [] = .ok [] := by
    unfold filepath.glob
    split
    · rw [hempty]
      rfl
    · rfl
  simp only [filepath.globWithLimit, hM, hpm, Bool.not_true, Bool.false_eq_true, if_false, hsplit,
    hcg, hmeta, Bool.not_false, if_true, hglob]

theorem filepath.Glob_plain_dir (fs : FS) (dir : GoString) (hne : dir ≠ [])
    (hmeta : filepath.hasMeta dir = false) (hempty : os.Readdirnames fs dir = []) :
    filepath.Glob fs (dir ++ ['/', '*']) = .ok [] :=
  filepath.globWithLimit_plain_dir fs 9999 dir hne hmeta hempty

/-- The keystore pattern of a home directory without metacharacters whose
keystore has no entry matches nothing. -/
theorem fabric.Glob_empty_keystore (fs : FS) (a b : GoString) (rest : List GoString)
    (hb : b ≠ [])
    (hmeta : filepath.hasMeta (filepath.Join (a :: b :: rest)) = false)
    (hempty : os.Readdirnames fs (filepath.Join
      [filepath.Join (a :: b :: rest), "msp".toList, "keystore".toList]) = []) :
    filepath.Glob fs (filepath.Join
      [filepath.Join [filepath.Join (a :: b :: rest), "msp".toList, "keystore".toList],
        "*".toList]) = .ok [] := by
  obtain ⟨rooted, out, hstack, hU⟩ := filepath.Join_eq_render a b rest hb
  rw [hU] at hmeta hempty ⊢
  have hN1 : filepath.Normal "msp".toList := by unfold filepath.Normal; decide
  have hN2 : filepath.Normal "keystore".toList := by unfold filepath.Normal; decide
  have hN3 : filepath.Normal "*".toList := by unfold filepath.Normal; decide
  have hkd : filepath.Join [filepath.render rooted out, "msp".toList, "keystore".toList]
      = filepath.render rooted ("keystore".toList :: "msp".toList :: out) := by
    have := filepath.Join_render rooted out ["msp".toList, "keystore".toList] hstack
      (by intro e he; simp only [List.mem_cons, List.mem_singleton, List.not_mem_nil, or_false] at he
          rcases he with rfl | rfl
          · exact hN1
          · exact hN2) (by simp)
    simpa using this
  have hstack2 : filepath.CleanStack rooted ("keystore".toList :: "msp".toList :: out) :=
    filepath.CleanStack_push _ _ _ (filepath.CleanStack_push _ _ _ hstack hN1) hN2
  have hpat : filepath.Join [filepath.render rooted ("keystore".toList :: "msp".toList :: out),
      "*".toList] = filepath.render rooted ("*".toList :: "keystore".toList :: "msp".toList :: out) := by
    have := filepath.Join_render rooted _ ["*".toList] hstack2
      (by intro e he; simp only [List.mem_singleton] at he; subst he; exact hN3) (by simp)
    simpa using this
  obtain ⟨hcons, hkdne⟩ := filepath.render_cons rooted _ "*".toList hstack2 (by simp)
  have hkdmeta : filepath.hasMeta (filepath.render rooted
      ("keystore".toList :: "msp".toList :: out)) = false := by
    rw [filepath.hasMeta_render]
    intro e he
    simp only [List.mem_cons] at he
    rcases he with rfl | rfl | he
    · decide
    · decide
    · exact (filepath.hasMeta_render rooted out).1 hmeta e he
  rw [hkd] at hempty
  have hG := filepath.Glob_plain_dir fs _ hkdne hkdmeta hempty
  rw [hkd, hpat, hcons]
  have hform : filepath.render rooted ("keystore".toList :: "msp".toList :: out) ++ '/' :: "*".toList
      = filepath.render rooted ("keystore".toList :: "msp".toList :: out) ++ ['/', '*'] := rfl
  rw [hform, hG]

/-- For every user whose credential directory has no glob metacharacter and
whose keystore directory holds no entry, `SubmitTransaction` returns the
keystore error after the keystore lookup alone: no call reaches the
certificate authority, no gateway client is built, and the file system, the
remote state and the open connections are unchanged. -/
theorem submit_unprovisioned_plain_subject {σ : Type} (ext : External σ) (cfg : config.Config)
    (w : World σ) (user : oidc.IntrospectionResponse) (channelID chaincodeID fn : GoString)
    (args : List GoString)
    (hmeta : filepath.hasMeta
      (filepath.Join [cfg.Fabric.CA.ClientHome, "users".toList, user.Subject]) = false)
    (hempty : os.Readdirnames w.fs (filepath.Join
      [filepath.Join [cfg.Fabric.CA.ClientHome, "users".toList, user.Subject],
        "msp".toList, "keystore".toList]) = []) :
    fabric.SubmitTransaction ext cfg w (some user) channelID chaincodeID fn args
      = (.error "failed to get MSP keyfile: no key file found in keystore",
         { w with trace := w.trace ++
            [.SubmitTransaction channelID chaincodeID fn args,
             .GetMSPKeyfile (filepath.Join [cfg.Fabric.CA.ClientHome, "users".toList, user.Subject]),
             .osGlob (filepath.Join
               [filepath.Join [filepath.Join [cfg.Fabric.CA.ClientHome, "users".toList, user.Subject],
                 "msp".toList, "keystore".toList], "*".toList])] }) := by
  have hG := fabric.Glob_empty_keystore w.fs cfg.Fabric.CA.ClientHome "users".toList
    [user.Subject] (by decide) hmeta hempty
  unfold fabric.SubmitTransaction fabric.GetMSPKeyfile
  simp only [World.log, hG, List.append_assoc, List.singleton_append]
  rfl

/-- On a file system where only `bob` is enrolled, the subject `carol` cannot
submit: the keystore error is returned and nothing else is called. -/
theorem submit_unprovisioned_plain_subject_witness :
    (fabric.SubmitTransaction demoExternal demoConfig (freshWorld bobFS)
        (some { Active := true, Subject := "carol".toList, Claims := [] })
        "mychannel".toList "assetcc".toList "CreateAsset".toList ["asset1".toList]).1
      = .error "failed to get MSP keyfile: no key file found in keystore" :=
  congrArg Prod.fst
    (submit_unprovisioned_plain_subject demoExternal demoConfig (freshWorld bobFS)
      { Active := true, Subject := "carol".toList, Claims := [] }
      "mychannel".toList "assetcc".toList "CreateAsset".toList ["asset1".toList] rfl rfl)

/-! ## The models of `Match`, `Clean` and `Glob` on known cases -/

/-- The model of `filepath.Match` on entries of the test table of the Go
standard library, and on a pattern whose malformed rest is never reached. -/
theorem filepath.Match_known_cases :
    filepath.Match "abc".toList "abc".toList = .ok true ∧
    filepath.Match "*".toList "abc".toList = .ok true ∧
    filepath.Match "*c".toList "abc".toList = .ok true ∧
    filepath.Match "a*".toList "a".toList = .ok true ∧
    filepath.Match "a*".toList "ab/c".toList = .ok false ∧
    filepath.Match "a*/b".toList "abc/b".toList = .ok true ∧
    filepath.Match "a*/b".toList "a/c/b".toList = .ok false ∧
    filepath.Match "a*b*c*d*e*/f".toList "axbxcxdxexxx/f".toList = .ok true ∧
    filepath.Match "a*b?c*x".toList "abxbbxdbxebxczzx".toList = .ok true ∧
    filepath.Match "a*b?c*x".toList "abxbbxdbxebxczzy".toList = .ok false ∧
    filepath.Match "ab[b-d]".toList "abc".toList = .ok true ∧
    filepath.Match "ab[e-g]".toList "abc".toList = .ok false ∧
    filepath.Match "ab[^e-g]".toList "abc".toList = .ok true ∧
    filepath.Match "a\\*b".toList "a*b".toList = .ok true ∧
    filepath.Match "a?b".toList "a/b".toList = .ok false ∧
    filepath.Match "[\\-]".toList "-".toList = .ok true ∧
    filepath.Match "[]a]".toList "]".toList = .error .ErrBadPattern ∧
    filepath.Match "[-]".toList "-".toList = .error .ErrBadPattern ∧
    filepath.Match "[a-b-c]".toList "a".toList = .error .ErrBadPattern ∧
    filepath.Match "[".toList "a".toList = .error .ErrBadPattern ∧
    filepath.Match "[^bc".toList "a".toList = .error .ErrBadPattern ∧
    filepath.Match "a[".toList "a".toList = .error .ErrBadPattern ∧
    filepath.Match "\\".toList "a".toList = .error .ErrBadPattern ∧
    filepath.Match "*x".toList "xxx".toList = .ok true ∧
    filepath.Match "x*[".toList "bob".toList = .ok false :=
  ⟨rfl, rfl, rfl, rfl, rfl, rfl, rfl, rfl, rfl, rfl, rfl, rfl, rfl, rfl, rfl, rfl, rfl, rfl, rfl,
    rfl, rfl, rfl, rfl, rfl, rfl⟩

/-- The model of `filepath.Join` and `filepath.Clean` on known cases. -/
theorem filepath.Join_known_cases :
    filepath.Join ["a".toList, "b".toList, "c".toList] = "a/b/c".toList ∧
    filepath.Join ["a".toList, "b/c".toList] = "a/b/c".toList ∧
    filepath.Join ["a/b".toList, "../../../xyz".toList] = "../xyz".toList ∧
    filepath.Join ["".toList, "".toList] = [] ∧
    filepath.Join ["a".toList, "".toList] = "a".toList ∧
    filepath.Join ["".toList, "a".toList] = "a".toList ∧
    filepath.Join ["/".toList, "a".toList] = "/a".toList ∧
    filepath.Clean "abc//def//ghi".toList = "abc/def/ghi".toList ∧
    filepath.Clean "abc/./def".toList = "abc/def".toList ∧
    filepath.Clean "/abc/../..".toList = "/".toList ∧
    filepath.Clean "abc/def/../../..".toList = "..".toList ∧
    filepath.Clean "/../abc".toList = "/abc".toList ∧
    filepath.Clean "abc/".toList = "abc".toList ∧
    filepath.Clean "".toList = ".".toList :=
  ⟨rfl, rfl, rfl, rfl, rfl, rfl, rfl, rfl, rfl, rfl, rfl, rfl, rfl, rfl⟩

/-- The model of `filepath.Glob` on a file system with one enrolled user: a
literal directory lists its entries, a star in a directory position ranges
over the directories, and an unfinished character class is a bad pattern. -/
theorem filepath.Glob_known_cases :
    filepath.Glob bobFS "fabric/users/bob/msp/keystore/*".toList
      = .ok ["fabric/users/bob/msp/keystore/key_sk".toList] ∧
    filepath.Glob bobFS "fabric/users/carol/msp/keystore/*".toList = .ok [] ∧
    filepath.Glob bobFS "fabric/users/*/msp/keystore/*".toList
      = .ok ["fabric/users/bob/msp/keystore/key_sk".toList] ∧
    filepath.Glob bobFS "fabric/*".toList
      = .ok ["fabric/tls".toList, "fabric/users".toList] ∧
    filepath.Glob bobFS "fabric/users/[/msp/keystore/*".toList = .error .ErrBadPattern :=
  ⟨rfl, rfl, rfl, rfl, rfl⟩

/-! ## The private-key parser -/

/-- C11. `parsePrivateKey` is an ordered fallback over the bytes `b` of the
decoded PEM block: it returns the PKCS8 parse of `b` whenever that succeeds;
otherwise the EC parse whenever that succeeds; otherwise the PKCS1 parse
whenever that succeeds; and it returns an error if and only if the input has
no PEM block or all three parses fail. -/
theorem parsePrivateKey_ordered_fallback {σ : Type} (ext : External σ) (pemBytes : GoString) :
    (∀ b key, ext.pemDecode pemBytes = some b → ext.ParsePKCS8PrivateKey b = .ok key →
      fabric.parsePrivateKey ext pemBytes = .ok key) ∧
    (∀ b e8 key, ext.pemDecode pemBytes = some b → ext.ParsePKCS8PrivateKey b = .error e8 →
      ext.ParseECPrivateKey b = .ok key → fabric.parsePrivateKey ext pemBytes = .ok key) ∧
    (∀ b e8 eEC key, ext.pemDecode pemBytes = some b → ext.ParsePKCS8PrivateKey b = .error e8 →
      ext.ParseECPrivateKey b = .error eEC → ext.ParsePKCS1PrivateKey b = .ok key →
      fabric.parsePrivateKey ext pemBytes = .ok key) ∧
    ((∃ err, fabric.parsePrivateKey ext pemBytes = .error err) ↔
      (ext.pemDecode pemBytes = none ∨
        ∃ b e8 eEC e1, ext.pemDecode pemBytes = some b ∧ ext.ParsePKCS8PrivateKey b = .error e8 ∧
          ext.ParseECPrivateKey b = .error eEC ∧ ext.ParsePKCS1PrivateKey b = .error e1)) := by
  refine ⟨?_, ?_, ?_, ?_⟩
  · intro b key hb h8
    simp [fabric.parsePrivateKey, hb, h8]
  · intro b e8 key hb h8 hEC
    simp [fabric.parsePrivateKey, hb, h8, hEC]
  · intro b e8 eEC key hb h8 hEC h1
    simp [fabric.parsePrivateKey, hb, h8, hEC, h1]
  · unfold fabric.parsePrivateKey
    cases hb : ext.pemDecode pemBytes with
    | none => simp
    | some b =>
      cases h8 : ext.ParsePKCS8PrivateKey b with
      | ok key => simp [h8]
      | error e8 =>
        cases hEC : ext.ParseECPrivateKey b with
        | ok key => simp [h8, hEC]
        | error eEC =>
          cases h1 : ext.ParsePKCS1PrivateKey b with
          | ok key => simp [h8, hEC, h1]
          | error e1 => simp [h8, hEC, h1]

/-- C11, witness: where the PKCS8 parse fails and the EC parse succeeds, the
key returned is the EC parse of the block. -/
theorem parsePrivateKey_ordered_fallback_witness :
    fabric.parsePrivateKey ecKeyExternal "PEM".toList = .ok "EC PEM".toList :=
  (parsePrivateKey_ordered_fallback ecKeyExternal "PEM".toList).2.1 "PEM".toList "not PKCS8"
    "EC PEM".toList rfl rfl rfl

/-! ## Where `Jq` panics -/

/-- C15, the code at failing inputs: on a segment whose `]` precedes its `[`,
reached at a mapping, the slice expression of `Jq` is out of bounds and `Jq`
panics instead of returning a value or an error. -/
theorem Jq_panics_on_reversed_brackets :
    util.Jq [] "][".toList = .panicked ∧
    util.Jq [] "a]b[0".toList = .panicked ∧
    util.Jq nestedClaims "a.b]x[".toList = .panicked :=
  ⟨rfl, rfl, rfl⟩

/-! ## The credential directory of a subject -/

/-- Cleaning a path followed by normal elements keeps the elements, on top of
what cleaning the path alone keeps. -/
theorem filepath.Clean_append_elems (p : GoString) (hp : p ≠ []) (es : List GoString)
    (hes : ∀ e ∈ es, filepath.Normal e) (hne : es ≠ []) :
    ∃ rooted out, filepath.CleanStack rooted out ∧
      out = (strings.Split p '/').foldl (filepath.cleanStep rooted) [] ∧
      filepath.Clean p = filepath.render rooted out ∧
      filepath.Clean (p ++ '/' :: strings.Join es '/')
        = filepath.render rooted (es.reverse ++ out) := by
  refine ⟨decide (p.head? = some '/'),
    (strings.Split p '/').foldl (filepath.cleanStep (decide (p.head? = some '/'))) [], ?_, rfl,
    ?_, ?_⟩
  · exact filepath.foldl_cleanStep_stack _ _ [] (strings.Split_pieces p '/')
      ⟨[], 0, by simp, by simp, by simp⟩
  · simp only [filepath.Clean, hp, if_false, filepath.render]
  · have hessep : ∀ e ∈ es, '/' ∉ e := fun e he => (hes e he).2.2.2
    have hhead : (p ++ '/' :: strings.Join es '/').head? = p.head? := by
      cases p with
      | nil => exact absurd rfl hp
      | cons x xs => simp
    simp only [filepath.Clean, List.append_eq_nil, hp, false_and, if_false, hhead,
      strings.Split_append, List.foldl_append, strings.Split_Join es '/' hne hessep,
      filepath.foldl_cleanStep_normal _ es _ hes, filepath.render]

theorem filepath.render_append (rooted : Bool) (out es : List GoString)
    (h : filepath.CleanStack rooted out) (hout : out ≠ [])
    (hes : ∀ e ∈ es, filepath.Normal e) (hne : es ≠ []) :
    filepath.render rooted (es.reverse ++ out)
      = filepath.render rooted out ++ '/' :: strings.Join es '/' := by
  induction es generalizing out with
  | nil => exact absurd rfl hne
  | cons e rest ih =>
    have he : filepath.Normal e := hes e (by simp)
    have hrest : ∀ x ∈ rest, filepath.Normal x := fun x hx => hes x (List.mem_cons_of_mem _ hx)
    have hcons := (filepath.render_cons rooted out e h hout).1
    by_cases hr : rest = []
    · subst hr
      simpa [strings.Join] using hcons
    · have := ih (e :: out) (filepath.CleanStack_push _ _ _ h he) (by simp) hrest hr
      rw [List.reverse_cons, List.append_assoc, List.singleton_append, this, hcons,
        strings.Join_cons e rest '/' hr]
      simp

/-- The users directory and the credential directory of a subject, as cleaned
paths over a common stem. -/
theorem filepath.Join_users_subject (home subject : GoString) :
    ∃ p, p ≠ [] ∧
      (∃ before, strings.Split p '/' = before ++ ["users".toList]) ∧
      filepath.Join [home, "users".toList] = filepath.Clean p ∧
      (subject ≠ [] →
        filepath.Join [home, "users".toList, subject] = filepath.Clean (p ++ '/' :: subject)) := by
  by_cases hh : home = []
  · subst hh
    refine ⟨"users".toList, by decide, ⟨[], by decide⟩, by simp [filepath.Join, strings.Join], ?_⟩
    intro hs
    simp [filepath.Join, strings.Join]
  · refine ⟨home ++ '/' :: "users".toList, by simp, ?_, by simp [filepath.Join, strings.Join, hh], ?_⟩
    · refine ⟨strings.Split home '/', ?_⟩
      rw [strings.Split_append, strings.Split_of_not_mem "users".toList '/' (by decide)]
    · intro hs
      simp [filepath.Join, strings.Join, hh]

/-- C17, counterexample: with the client home `fabric`, the subject `..` has the
client home itself as credential directory, so its keystore is the keystore of
the administrative identity, and on a file system where the administrator is
enrolled a transaction of that subject is submitted; the subject `../x` has
the credential directory `fabric/x`. Neither lies below `fabric/users`. -/
theorem credential_directory_counterexample :
    filepath.Join ["fabric".toList, "users".toList, "..".toList] = "fabric".toList ∧
    filepath.Join [filepath.Join ["fabric".toList, "users".toList, "..".toList],
        "msp".toList, "keystore".toList]
      = filepath.Join ["fabric".toList, "msp".toList, "keystore".toList] ∧
    ¬ filepath.IsBelow (filepath.Join ["fabric".toList, "users".toList, "..".toList])
        (filepath.Join ["fabric".toList, "users".toList]) ∧
    filepath.Join ["fabric".toList, "users".toList, "../x".toList] = "fabric/x".toList ∧
    ¬ filepath.IsBelow (filepath.Join ["fabric".toList, "users".toList, "../x".toList])
        (filepath.Join ["fabric".toList, "users".toList]) ∧
    (fabric.GetMSPKeyfile (freshWorld adminFS)
        (filepath.Join [demoConfig.Fabric.CA.ClientHome, "users".toList, dotDotUser.Subject])).1
      = .ok "fabric/msp/keystore/key_sk".toList ∧
    (fabric.SubmitTransaction demoExternal demoConfig (freshWorld adminFS) (some dotDotUser)
        "mychannel".toList "assetcc".toList "CreateAsset".toList ["asset1".toList]).1
      = .ok "CreateAsset".toList :=
  ⟨by decide, by decide, by decide, by decide, by decide, rfl, rfl⟩

/-- C17, amended. For every client home and every subject made of one or more
elements separated by `/`, each of them non-empty and neither `.` nor `..`
(in particular every subject without `/` other than the empty one, `.` and
`..`), the credential directory `filepath.Join(ClientHome, "users", subject)`
is `filepath.Join(ClientHome, "users")` followed by a separator and the
subject, hence strictly below the users directory. -/
theorem credential_directory_below_users (home : GoString) (elems : List GoString)
    (hne : elems ≠ []) (helems : ∀ e ∈ elems, filepath.Normal e) :
    filepath.Join [home, "users".toList, strings.Join elems '/']
      = filepath.Join [home, "users".toList] ++ '/' :: strings.Join elems '/' ∧
    filepath.IsBelow (filepath.Join [home, "users".toList, strings.Join elems '/'])
      (filepath.Join [home, "users".toList]) := by
  have hsubj : strings.Join elems '/' ≠ [] :=
    (strings.Join_ne_nil elems '/' hne (fun e he => (helems e he).1)).1
  obtain ⟨p, hp, ⟨before, hsplit⟩, husers, huser⟩ :=
    filepath.Join_users_subject home (strings.Join elems '/')
  obtain ⟨rooted, out, hstack, hout, hclean, hcleanAll⟩ :=
    filepath.Clean_append_elems p hp elems helems hne
  have hnormal : filepath.Normal "users".toList := by unfold filepath.Normal; decide
  have hnonempty : out ≠ [] := by
    rw [hout, hsplit, List.foldl_append, List.foldl_cons, List.foldl_nil,
      filepath.cleanStep_normal _ _ _ hnormal]
    exact List.cons_ne_nil _ _
  have heq : filepath.Join [home, "users".toList, strings.Join elems '/']
      = filepath.Join [home, "users".toList] ++ '/' :: strings.Join elems '/' := by
    rw [huser hsubj, husers, hcleanAll, hclean]
    exact filepath.render_append rooted out elems hstack hnonempty helems hne
  refine ⟨heq, ?_⟩
  unfold filepath.IsBelow
  rw [heq]
  refine ⟨⟨strings.Join elems '/', by simp⟩, ?_⟩
  have : 0 < (strings.Join elems '/').length := List.length_pos.2 hsubj
  simp only [List.length_append, List.length_cons]
  omega

/-- C17, witness: the credential directory of `alice` under the client home
`fabric` is `fabric/users/alice`, below `fabric/users`. -/
theorem credential_directory_below_users_witness :
    filepath.Join ["fabric".toList, "users".toList, "alice".toList] = "fabric/users/alice".toList ∧
    filepath.IsBelow (filepath.Join ["fabric".toList, "users".toList, "alice".toList])
      (filepath.Join ["fabric".toList, "users".toList]) :=
  credential_directory_below_users "fabric".toList ["alice".toList] (by decide)
    (by intro e he; simp only [List.mem_singleton] at he; subst he; unfold filepath.Normal; decide)

/-! ## Connections opened by `SubmitTransaction` -/

theorem fabric.newGrpcConnection_conns {σ : Type} (ext : External σ) (cfg : config.Config)
    (w : World σ) :
    (fabric.newGrpcConnection ext cfg w).2.fs = w.fs ∧
    (fabric.newGrpcConnection ext cfg w).2.remote = w.remote ∧
    (fabric.grpcOpens ext cfg w.fs = true →
      (fabric.newGrpcConnection ext cfg w).1 = .ok w.nextConn ∧
      (fabric.newGrpcConnection ext cfg w).2.conns = w.conns ++ [w.nextConn]) ∧
    (fabric.grpcOpens ext cfg w.fs = false →
      (∃ err, (fabric.newGrpcConnection ext cfg w).1 = .error err) ∧
      (fabric.newGrpcConnection ext cfg w).2.conns = w.conns) := by
  unfold fabric.newGrpcConnection fabric.grpcOpens
  simp only [World.log]
  cases h1 : os.ReadFile w.fs cfg.Fabric.GW.TLSTrustedCerts with
  | none => simp [h1]
  | some certificatePEM =>
    cases h2 : ext.CertificateFromPEM certificatePEM with
    | error err => simp [h1, h2]
    | ok certificate =>
      cases h3 : ext.grpcNewClient cfg.Fabric.GW.PeerEndpoint certificate
          cfg.Fabric.GW.PeerServerNameOverride with
      | some err => simp [h1, h2, h3]
      | none => simp [h1, h2, h3]

theorem fabric.newIdentity_world {σ : Type} (ext : External σ) (w : World σ)
    (certPath mspID : GoString) :
    (fabric.newIdentity ext w certPath mspID).2 = w.log (.osReadFile certPath) := by
  unfold fabric.newIdentity
  simp only []
  split
  · rfl
  · split
    · rfl
    · split <;> rfl

theorem fabric.newSign_world {σ : Type} (ext : External σ) (w : World σ) (keyPath : GoString) :
    (fabric.newSign ext w keyPath).2 = w.log (.osReadFile keyPath) := by
  unfold fabric.newSign
  simp only []
  split
  · rfl
  · split
    · rfl
    · split <;> rfl

/-- `NewGatewayClient` closes nothing: the connection `newGrpcConnection` opens
is still open when it returns, whatever it returns. -/
theorem fabric.NewGatewayClient_conns {σ : Type} (ext : External σ) (cfg : config.Config)
    (w : World σ) (conf : Option config.Config) :
    (fabric.NewGatewayClient ext cfg w conf).2.remote = w.remote ∧
    (fabric.NewGatewayClient ext cfg w conf).2.conns
      = (if fabric.grpcOpens ext cfg w.fs = true then w.conns ++ [w.nextConn] else w.conns) ∧
    (∀ gw, (fabric.NewGatewayClient ext cfg w conf).1 = .ok gw →
      fabric.grpcOpens ext cfg w.fs = true) := by
  have hG := fabric.newGrpcConnection_conns ext cfg
  have hI := fabric.newIdentity_world ext
  have hS := fabric.newSign_world ext
  unfold fabric.NewGatewayClient
  simp only []
  split
  · next err w1 heq =>
    obtain ⟨-, hrem, hopen, hclosed⟩ := hG _
    rw [heq] at hrem hopen hclosed
    simp only [World.log] at hrem hopen hclosed
    cases hg : fabric.grpcOpens ext cfg w.fs with
    | true => have := (hopen hg).1; simp at this
    | false => simp [hrem, (hclosed hg).2]
  · next clientConn w1 heq =>
    obtain ⟨-, hrem, hopen, hclosed⟩ := hG _
    rw [heq] at hrem hopen hclosed
    simp only [World.log] at hrem hopen hclosed
    cases hg : fabric.grpcOpens ext cfg w.fs with
    | false => obtain ⟨err, herr⟩ := (hclosed hg).1; simp at herr
    | true =>
      have hconns := (hopen hg).2
      split
      · next err w2 heq2 =>
        have h2 := congrArg Prod.snd heq2
        rw [hI] at h2
        simp only [World.log] at h2
        subst h2
        simp [hrem, hconns]
      · next id w2 heq2 =>
        have h2 := congrArg Prod.snd heq2
        rw [hI] at h2
        simp only [World.log] at h2
        subst h2
        split
        · next err w3 heq3 =>
          have h3 := congrArg Prod.snd heq3
          rw [hS] at h3
          simp only [World.log] at h3
          subst h3
          simp [hrem, hconns]
        · next sign w3 heq3 =>
          have h3 := congrArg Prod.snd heq3
          rw [hS] at h3
          simp only [World.log] at h3
          subst h3
          split <;> simp [World.log, hrem, hconns]

/-- C12, the claim at a failing input. `bob` is enrolled on `bobFS`; his
transaction is submitted and `SubmitTransaction` returns its result, and the
gRPC connection opened on the way (number 0) is still open afterwards, none
having been open before. The same holds on an error path after
`newGrpcConnection` has succeeded: for the subject `*` on `bobFS` the gateway
client cannot be built, and the connection stays open. -/
theorem SubmitTransaction_connection_counterexample :
    (freshWorld bobFS).conns = [] ∧
    (fabric.SubmitTransaction demoExternal demoConfig (freshWorld bobFS) (some bob)
        "mychannel".toList "assetcc".toList "CreateAsset".toList ["asset1".toList]).1
      = .ok "CreateAsset".toList ∧
    (fabric.SubmitTransaction demoExternal demoConfig (freshWorld bobFS) (some bob)
        "mychannel".toList "assetcc".toList "CreateAsset".toList ["asset1".toList]).2.conns = [0] ∧
    (fabric.NewGatewayClient demoExternal demoConfig (freshWorld bobFS)
        (some { fabric.zeroConfig with Fabric := { fabric.zeroConfig.Fabric with
          GW := { fabric.zeroConfig.Fabric.GW with
            MSPCert := "fabric/users/*/msp/signcerts/cert.pem".toList,
            MSPKey := "fabric/users/bob/msp/keystore/key_sk".toList } } })).1
      = .error "failed to create identity: failed to read certificate file" ∧
    (fabric.SubmitTransaction demoExternal demoConfig (freshWorld bobFS) (some starUser)
        "mychannel".toList "assetcc".toList "CreateAsset".toList ["asset1".toList]).1
      = .error ("failed to create gateway client: failed to create identity: "
          ++ "failed to read certificate file") ∧
    (fabric.SubmitTransaction demoExternal demoConfig (freshWorld bobFS) (some starUser)
        "mychannel".toList "assetcc".toList "CreateAsset".toList ["asset1".toList]).2.conns = [0] :=
  ⟨rfl, rfl, rfl, rfl, rfl, rfl⟩

/-- C12, as the code has it. `SubmitTransaction` releases nothing. For every
configuration, every behaviour of the external libraries, every state and every
call: the connections open afterwards are those open before, followed by the
one connection `newGrpcConnection` has opened, which it does exactly when a
user is present, the keystore lookup for the subject finds a key file, the
trust anchor of the peer can be read and parsed and `grpc.NewClient` succeeds;
this is so whether building the gateway client or submitting then succeeds or
fails. In particular the connections after the call are those before it only if
no connection was opened, and a call that returns a result always leaves one
more connection open. -/
theorem SubmitTransaction_leaves_connection_open {σ : Type} (ext : External σ)
    (cfg : config.Config) (w : World σ) (user : Option oidc.IntrospectionResponse)
    (channelID chaincodeID fn : GoString) (args : List GoString) :
    (fabric.SubmitTransaction ext cfg w user channelID chaincodeID fn args).2.conns
      = (if fabric.opensConnection ext cfg w.fs user = true then w.conns ++ [w.nextConn]
          else w.conns) ∧
    ((fabric.SubmitTransaction ext cfg w user channelID chaincodeID fn args).2.conns = w.conns ↔
      fabric.opensConnection ext cfg w.fs user = false) ∧
    (∀ resultBytes,
      (fabric.SubmitTransaction ext cfg w user channelID chaincodeID fn args).1 = .ok resultBytes →
      (fabric.SubmitTransaction ext cfg w user channelID chaincodeID fn args).2.conns
        = w.conns ++ [w.nextConn]) := by
  have hmain :
      (fabric.SubmitTransaction ext cfg w user channelID chaincodeID fn args).2.conns
        = (if fabric.opensConnection ext cfg w.fs user = true then w.conns ++ [w.nextConn]
            else w.conns) ∧
      (∀ resultBytes,
        (fabric.SubmitTransaction ext cfg w user channelID chaincodeID fn args).1
          = .ok resultBytes → fabric.opensConnection ext cfg w.fs user = true) := by
    unfold fabric.SubmitTransaction
    cases user with
    | none => simp [fabric.opensConnection, World.log]
    | some user =>
      simp only []
      obtain ⟨wk, hk, hreads⟩ := fabric.GetMSPKeyfile_reads
        (w.log (.SubmitTransaction channelID chaincodeID fn args))
        (filepath.Join [cfg.Fabric.CA.ClientHome, "users".toList, user.Subject])
      obtain ⟨hfs, -, hconns, hnext, -⟩ := hreads
      simp only [World.log] at hfs hconns hnext hk
      simp only [World.log]
      rw [hk]
      cases hkey : fabric.keyfileIn w.fs
          (filepath.Join [cfg.Fabric.CA.ClientHome, "users".toList, user.Subject]) with
      | error err =>
        simp only [fabric.opensConnection, hkey, hconns]
        simp
      | ok keyPath =>
        simp only []
        have hopens : fabric.opensConnection ext cfg w.fs (some user)
            = fabric.grpcOpens ext cfg wk.fs := by
          simp only [fabric.opensConnection, hkey, hfs]
        rw [hopens]
        have hgw := fabric.NewGatewayClient_conns ext cfg wk
        split
        · next err w1 heq =>
          obtain ⟨-, hc, -⟩ := hgw _
          rw [heq] at hc
          simp only [] at hc
          simp [hc, hconns, hnext]
        · next gw w1 heq =>
          obtain ⟨-, hc, hok⟩ := hgw _
          rw [heq] at hc hok
          simp only [] at hc hok
          have hg := hok gw rfl
          split <;> simp [World.log, hc, hg, hconns, hnext]
  obtain ⟨hconns, hok⟩ := hmain
  refine ⟨hconns, ?_, ?_⟩
  · rw [hconns]
    cases fabric.opensConnection ext cfg w.fs user <;> simp
  · intro resultBytes h
    rw [hconns, hok resultBytes h]
    simp

/-! ## The credential store: a certificate written is the certificate loaded -/

theorem os.ReadFile_WriteString (fs : FS) (name s : GoString) :
    os.ReadFile (os.WriteString fs name s) name = some s := by
  simp [os.ReadFile, os.WriteString, FS.lookup]

/-- A successful `writeCert` leaves the certificate of the identity as the
content of the file at the path it was given. -/
theorem fabric.writeCert_ReadFile {σ : Type} (w w1 : World σ) (identity : lib.Identity)
    (filePath cert : GoString) (hcert : fabric.certFromIdentity identity = .ok cert)
    (hwrite : fabric.writeCert w identity filePath = (none, w1)) :
    os.ReadFile w1.fs filePath = some cert := by
  unfold fabric.writeCert at hwrite
  rw [hcert] at hwrite
  simp only [] at hwrite
  split at hwrite
  · simp at hwrite
  · next fs hcreate =>
    simp only [Prod.mk.injEq, true_and] at hwrite
    subst hwrite
    exact os.ReadFile_WriteString fs filePath cert

/-- A successful `Enroll` has written the certificate of the identity it
returns to `<MSPDir>/signcerts/cert.pem`. -/
theorem fabric.Enroll_ReadFile {σ : Type} (ext : External σ) (w w1 : World σ)
    (c : fabric.CAClient) (request : api.EnrollmentRequest) (identity : lib.Identity)
    (henroll : fabric.CAClient.Enroll ext w c request = (.ok identity, w1)) :
    ∃ cert, fabric.certFromIdentity identity = .ok cert ∧
      os.ReadFile w1.fs (filepath.Join [identity.MSPDir, "signcerts".toList, "cert.pem".toList])
        = some cert := by
  unfold fabric.CAClient.Enroll at henroll
  simp only [] at henroll
  split at henroll
  · simp at henroll
  · simp at henroll
  · next fs remote identity0 hlib =>
    split at henroll
    · simp at henroll
    · next w2 hwrite =>
      simp only [Prod.mk.injEq, Except.ok.injEq] at henroll
      obtain ⟨hid, hw⟩ := henroll
      subst hid
      subst hw
      cases hcert : fabric.certFromIdentity identity0 with
      | error err =>
        unfold fabric.writeCert at hwrite
        rw [hcert] at hwrite
        simp at hwrite
      | ok cert => exact ⟨cert, rfl, fabric.writeCert_ReadFile _ _ _ _ _ hcert hwrite⟩

/-- What `LoadMSPKeyCert` returns when the keystore lookup finds a key file and
both files can be read. -/
theorem fabric.LoadMSPKeyCert_of_files {σ : Type} (w : World σ)
    (homeDir cert keyFile keyBytes : GoString)
    (hkey : fabric.keyfileIn w.fs (filepath.Join [homeDir]) = .ok keyFile)
    (hcert : os.ReadFile w.fs
      (filepath.Join [homeDir, "msp".toList, "signcerts".toList, "cert.pem".toList]) = some cert)
    (hread : os.ReadFile w.fs keyFile = some keyBytes) :
    (fabric.LoadMSPKeyCert w homeDir).1 = .ok { Cert := cert, Key := keyBytes } := by
  obtain ⟨w2, h2, -⟩ := fabric.LoadMSPKeyCert_reads w homeDir
  rw [h2]
  simp only [fabric.keyCertIn, hkey, hcert, hread]

/-- C13, the code at a failing input. The keystore of `bob` holds his key file
`key_sk` and, beside it, a directory `a_backup`. `writeCert` succeeds in
writing a renewed certificate of `bob` to
`fabric/users/bob/msp/signcerts/cert.pem`, and the file then holds it. Yet
`GetMSPKeyfile` returns the first entry of the keystore in byte order, the
directory, so the following `LoadMSPKeyCert("fabric/users/bob")` fails on
reading the key. Without the directory the same steps return the renewed
certificate with the key. -/
theorem credential_store_keystore_with_directory :
    os.ReadFile bobBackupFS "fabric/users/bob/msp/keystore/key_sk".toList
      = some "KEY bob".toList ∧
    os.Readdirnames bobBackupFS "fabric/users/bob/msp/keystore".toList
      = ["a_backup".toList, "key_sk".toList] ∧
    fabric.certFromIdentity bobRenewed = .ok "CERT bob renewed".toList ∧
    (fabric.writeCert (freshWorld bobBackupFS) bobRenewed
        "fabric/users/bob/msp/signcerts/cert.pem".toList).1 = none ∧
    os.ReadFile
        (fabric.writeCert (freshWorld bobBackupFS) bobRenewed
          "fabric/users/bob/msp/signcerts/cert.pem".toList).2.fs
        "fabric/users/bob/msp/signcerts/cert.pem".toList
      = some "CERT bob renewed".toList ∧
    (fabric.GetMSPKeyfile
        (fabric.writeCert (freshWorld bobBackupFS) bobRenewed
          "fabric/users/bob/msp/signcerts/cert.pem".toList).2 "fabric/users/bob".toList).1
      = .ok "fabric/users/bob/msp/keystore/a_backup".toList ∧
    (fabric.LoadMSPKeyCert
        (fabric.writeCert (freshWorld bobBackupFS) bobRenewed
          "fabric/users/bob/msp/signcerts/cert.pem".toList).2 "fabric/users/bob".toList).1
      = .error "failed to read key file" ∧
    (fabric.LoadMSPKeyCert
        (fabric.writeCert (freshWorld bobFS) bobRenewed
          "fabric/users/bob/msp/signcerts/cert.pem".toList).2 "fabric/users/bob".toList).1
      = .ok { Cert := "CERT bob renewed".toList, Key := "KEY bob".toList } :=
  ⟨rfl, rfl, rfl, rfl, rfl, rfl, rfl, rfl⟩

/-! ## The calls made by the enroll flow -/

theorem World.callsSince_of_trace {σ : Type} (w w' : World σ) (evs : List Event)
    (h : w'.trace = w.trace ++ evs) : w.callsSince w' = evs := by
  simp [World.callsSince, h]

theorem World.CallsOf.unchanged {σ : Type} (P : Event → Prop) (w : World σ) : World.CallsOf P w w :=
  ⟨[], by simp, by simp⟩

theorem World.CallsOf.of_trace {σ : Type} (P : Event → Prop) {w w' : World σ}
    (h : w'.trace = w.trace) : World.CallsOf P w w' :=
  ⟨[], by simp [h], by simp⟩

theorem World.CallsOf.andThen {σ : Type} {P : Event → Prop} {a b c : World σ}
    (h1 : World.CallsOf P a b) (h2 : World.CallsOf P b c) : World.CallsOf P a c := by
  obtain ⟨e1, t1, p1⟩ := h1
  obtain ⟨e2, t2, p2⟩ := h2
  refine ⟨e1 ++ e2, ?_, ?_⟩
  · rw [t2, t1, List.append_assoc]
  · intro e he
    rcases List.mem_append.1 he with he | he
    · exact p1 e he
    · exact p2 e he

theorem World.CallsOf.logged {σ : Type} {P : Event → Prop} (w : World σ) (e : Event) (h : P e) :
    World.CallsOf P w (w.log e) :=
  ⟨[e], rfl, by simpa using h⟩

theorem Event.external_of_ofRegistration (cfg : config.Config) (name : GoString) (e : Event)
    (h : e.ofRegistration cfg name) : e.external = true := by
  cases e <;> first | rfl | exact h.elim

theorem fabric.GetMSPKeyfile_eq {σ : Type} (w : World σ) (homeDir : GoString) :
    fabric.GetMSPKeyfile w homeDir
      = (fabric.keyfileIn w.fs homeDir,
         (w.log (.GetMSPKeyfile homeDir)).log (.osGlob (filepath.Join
           [filepath.Join [homeDir, "msp".toList, "keystore".toList], "*".toList]))) := by
  simp only [fabric.GetMSPKeyfile, fabric.keyfileIn, World.log]
  split <;> rfl

theorem fabric.LoadMSPKeyCert_calls {σ : Type} (w : World σ) (homeDir : GoString) :
    World.CallsOf (fun e => e.external = true ∧ e.readOnly = true)
      ((w.log (.LoadMSPKeyCert homeDir)).log (.GetMSPKeyfile (filepath.Join [homeDir])))
      (fabric.LoadMSPKeyCert w homeDir).2 := by
  have h0 : World.CallsOf (fun e => e.external = true ∧ e.readOnly = true)
      ((w.log (.LoadMSPKeyCert homeDir)).log (.GetMSPKeyfile (filepath.Join [homeDir])))
      (((w.log (.LoadMSPKeyCert homeDir)).log (.GetMSPKeyfile (filepath.Join [homeDir]))).log
        (.osGlob (filepath.Join [filepath.Join [filepath.Join [homeDir], "msp".toList,
          "keystore".toList], "*".toList]))) :=
    World.CallsOf.logged _ (.osGlob _) ⟨rfl, rfl⟩
  unfold fabric.LoadMSPKeyCert
  simp only [fabric.GetMSPKeyfile_eq]
  cases fabric.keyfileIn (w.log (.LoadMSPKeyCert homeDir)).fs (filepath.Join [homeDir]) with
  | error err => exact h0
  | ok keyFilePath =>
    simp only []
    have h1 := h0.andThen (World.CallsOf.logged _ (.osReadFile (filepath.Join
      [homeDir, "msp".toList, "signcerts".toList, "cert.pem".toList])) ⟨rfl, rfl⟩)
    split
    · exact h1
    · have h2 := h1.andThen (World.CallsOf.logged _ (.osReadFile keyFilePath) ⟨rfl, rfl⟩)
      split
      · exact h2
      · exact h2

theorem fabric.createUserDir_calls {σ : Type} (P : Event → Prop) (w : World σ)
    (userDir : GoString) (hP : P (.osMkdirAll (filepath.Join [userDir, "msp".toList]))) :
    World.CallsOf P w (fabric.createUserDir w userDir).2 := by
  have h0 := World.CallsOf.logged w (.osMkdirAll (filepath.Join [userDir, "msp".toList])) hP
  unfold fabric.createUserDir
  simp only []
  split
  · exact h0
  · exact h0.andThen (World.CallsOf.of_trace P rfl)

theorem fabric.writeCert_calls {σ : Type} (P : Event → Prop) (w : World σ)
    (identity : lib.Identity) (filePath : GoString) (hP : P (.osCreate filePath)) :
    World.CallsOf P w (fabric.writeCert w identity filePath).2 := by
  have h0 := World.CallsOf.logged w (.osCreate filePath) hP
  unfold fabric.writeCert
  split
  · exact World.CallsOf.unchanged P w
  · simp only []
    split
    · exact h0
    · exact h0.andThen (World.CallsOf.of_trace P rfl)

theorem fabric.NewCAClient_calls {σ : Type} (P : Event → Prop) (ext : External σ)
    (cfg : config.Config) (w : World σ) (userHomeDir : Option GoString)
    (hP : P (.caInit (userHomeDir.getD cfg.Fabric.CA.ClientHome))) :
    World.CallsOf P w (fabric.NewCAClient ext cfg w userHomeDir).2 := by
  cases userHomeDir with
  | none =>
    have h0 := World.CallsOf.logged w (.caInit cfg.Fabric.CA.ClientHome) hP
    unfold fabric.NewCAClient
    simp only []
    split
    · exact h0.andThen (World.CallsOf.of_trace P rfl)
    · exact h0.andThen (World.CallsOf.of_trace P rfl)
  | some dir =>
    have h0 := World.CallsOf.logged w (.caInit dir) hP
    unfold fabric.NewCAClient
    simp only []
    split
    · exact h0.andThen (World.CallsOf.of_trace P rfl)
    · exact h0.andThen (World.CallsOf.of_trace P rfl)

theorem fabric.Enroll_calls {σ : Type} (P : Event → Prop) (ext : External σ) (w : World σ)
    (c : fabric.CAClient) (request : api.EnrollmentRequest) (hP : P (.caEnroll request))
    (hcreate : ∀ path, P (.osCreate path)) :
    World.CallsOf P w (fabric.CAClient.Enroll ext w c request).2 := by
  have h0 := World.CallsOf.logged w (.caEnroll request) hP
  unfold fabric.CAClient.Enroll
  simp only []
  split
  · exact h0.andThen (World.CallsOf.of_trace P rfl)
  · exact h0.andThen (World.CallsOf.of_trace P rfl)
  · next fs remote identity hlib =>
    have h1 : World.CallsOf P w
        { w.log (.caEnroll request) with fs := fs, remote := remote } :=
      h0.andThen (World.CallsOf.of_trace P rfl)
    split
    · next err w2 hwrite =>
      have h2 := fabric.writeCert_calls P
        { w.log (.caEnroll request) with fs := fs, remote := remote } identity
        (filepath.Join [identity.MSPDir, "signcerts".toList, "cert.pem".toList]) (hcreate _)
      rw [hwrite] at h2
      exact h1.andThen h2
    · next w2 hwrite =>
      have h2 := fabric.writeCert_calls P
        { w.log (.caEnroll request) with fs := fs, remote := remote } identity
        (filepath.Join [identity.MSPDir, "signcerts".toList, "cert.pem".toList]) (hcreate _)
      rw [hwrite] at h2
      exact h1.andThen h2

theorem fabric.EnrollAdmin_calls {σ : Type} (P : Event → Prop) (ext : External σ)
    (cfg : config.Config) (w : World σ) (c : fabric.CAClient)
    (hload : ∀ homeDir, P (.caLoadMyIdentity homeDir))
    (hP : ∀ request : api.EnrollmentRequest, request.Name = cfg.Fabric.CA.Admin →
      P (.caEnroll request))
    (hcreate : ∀ path, P (.osCreate path)) :
    World.CallsOf P w (fabric.CAClient.EnrollAdmin ext cfg w c).2 := by
  have h0 := World.CallsOf.logged w (.caLoadMyIdentity c.caClient.HomeDir) (hload _)
  unfold fabric.CAClient.EnrollAdmin
  simp only []
  split
  · exact h0
  · exact h0.andThen (fabric.Enroll_calls P ext _ c _ (hP _ rfl) hcreate)

theorem fabric.RegisterAndEnrollUser_calls {σ : Type} (ext : External σ) (cfg : config.Config)
    (w : World σ) (regReq : api.RegistrationRequest) :
    World.CallsOf (Event.ofRegistration cfg regReq.Name) (w.log (.RegisterAndEnrollUser regReq))
      (fabric.RegisterAndEnrollUser ext cfg w regReq).2 := by
  have hcreate : ∀ path, Event.ofRegistration cfg regReq.Name (.osCreate path) :=
    fun _ => trivial
  unfold fabric.RegisterAndEnrollUser
  simp only []
  split
  · next err w1 h1 =>
    have c1 := fabric.createUserDir_calls (Event.ofRegistration cfg regReq.Name)
      (w.log (.RegisterAndEnrollUser regReq))
      (filepath.Join [cfg.Fabric.CA.ClientHome, "users".toList, regReq.Name]) rfl
    rw [h1] at c1
    exact c1
  · next w1 h1 =>
    have c1 := fabric.createUserDir_calls (Event.ofRegistration cfg regReq.Name)
      (w.log (.RegisterAndEnrollUser regReq))
      (filepath.Join [cfg.Fabric.CA.ClientHome, "users".toList, regReq.Name]) rfl
    rw [h1] at c1
    split
    · next err w2 h2 =>
      have c2 := fabric.NewCAClient_calls (Event.ofRegistration cfg regReq.Name) ext cfg w1
        (some (filepath.Join [cfg.Fabric.CA.ClientHome, "users".toList, regReq.Name]))
        (Or.inl rfl)
      rw [h2] at c2
      exact c1.andThen c2
    · next userCAClient w2 h2 =>
      have c2 := fabric.NewCAClient_calls (Event.ofRegistration cfg regReq.Name) ext cfg w1
        (some (filepath.Join [cfg.Fabric.CA.ClientHome, "users".toList, regReq.Name]))
        (Or.inl rfl)
      rw [h2] at c2
      split
      · next err w3 h3 =>
        have c3 := fabric.NewCAClient_calls (Event.ofRegistration cfg regReq.Name) ext cfg w2
          none (Or.inr rfl)
        rw [h3] at c3
        exact (c1.andThen c2).andThen c3
      · next adminCAClient w3 h3 =>
        have c3 := fabric.NewCAClient_calls (Event.ofRegistration cfg regReq.Name) ext cfg w2
          none (Or.inr rfl)
        rw [h3] at c3
        split
        · next err w4 h4 =>
          have c4 := fabric.EnrollAdmin_calls (Event.ofRegistration cfg regReq.Name) ext cfg w3
            adminCAClient (fun _ => trivial) (fun _ h => Or.inr h) hcreate
          rw [h4] at c4
          exact ((c1.andThen c2).andThen c3).andThen c4
        · next adminIdentity w4 h4 =>
          have c4 := fabric.EnrollAdmin_calls (Event.ofRegistration cfg regReq.Name) ext cfg w3
            adminCAClient (fun _ => trivial) (fun _ h => Or.inr h) hcreate
          rw [h4] at c4
          have hreg : Event.ofRegistration cfg regReq.Name (.caRegister regReq) := rfl
          have c5 := (((c1.andThen c2).andThen c3).andThen c4).andThen
            (World.CallsOf.logged w4 (.caRegister regReq) hreg)
          split
          · exact c5.andThen (World.CallsOf.of_trace _ rfl)
          · next remote secret h5 =>
            exact (c5.andThen (World.CallsOf.of_trace _ rfl)).andThen
              (fabric.Enroll_calls _ ext _ userCAClient _ (Or.inl rfl) hcreate)

theorem fabric.LoadMSPKeyCert_trace {σ : Type} (w : World σ) (a b : GoString)
    (rest : List GoString) (hb : b ≠ []) :
    ∃ evs, (fabric.LoadMSPKeyCert w (filepath.Join (a :: b :: rest))).2.trace
        = w.trace ++ (.LoadMSPKeyCert (filepath.Join (a :: b :: rest))
            :: .GetMSPKeyfile (filepath.Join (a :: b :: rest)) :: evs) ∧
      ∀ e ∈ evs, e.external = true ∧ e.readOnly = true := by
  obtain ⟨evs, ht, hp⟩ := fabric.LoadMSPKeyCert_calls w (filepath.Join (a :: b :: rest))
  rw [filepath.Join_single_Join a b rest hb] at ht
  refine ⟨evs, ?_, hp⟩
  rw [ht]
  simp only [World.log, List.append_assoc, List.singleton_append, List.cons_append,
    List.nil_append]

theorem fabric.RegisterAndEnrollUser_trace {σ : Type} (ext : External σ) (cfg : config.Config)
    (w : World σ) (regReq : api.RegistrationRequest) :
    ∃ evs, (fabric.RegisterAndEnrollUser ext cfg w regReq).2.trace
        = w.trace ++ (.RegisterAndEnrollUser regReq :: evs) ∧
      ∀ e ∈ evs, e.ofRegistration cfg regReq.Name := by
  obtain ⟨evs, ht, hp⟩ := fabric.RegisterAndEnrollUser_calls ext cfg w regReq
  refine ⟨evs, ?_, hp⟩
  rw [ht]
  simp only [World.log, List.append_assoc, List.singleton_append, List.cons_append,
    List.nil_append]

/-- The calls of `enrollUserHandler` once the registration request is decoded:
the claim extraction and the keystore lookup of the subject, then the calls of
`RegisterAndEnrollUser` exactly when that lookup fails, then, unless the
registration has failed, those of `LoadMSPKeyCert`. -/
theorem proxy.enrollUserHandler_calls {σ : Type} (ext : External σ) (cfg : config.Config)
    (w : World σ) (r : proxy.Request) (user : oidc.IntrospectionResponse) (fabricClaim : Value)
    (fabricClaimBytes : GoString) (decoded : api.RegistrationRequest)
    (hu : r.user = some user) (hactive : user.Active = true)
    (hjq : util.Jq user.Claims cfg.Fabric.CA.OIDCClaimKey = .returned (fabricClaim, none))
    (hm : ext.jsonMarshal fabricClaim = .ok fabricClaimBytes)
    (hd : ext.jsonUnmarshalRegistrationRequest fabricClaimBytes = .ok decoded) :
    ∃ reg load : List Event,
      (proxy.enrollUserHandler ext cfg w r).2.trace
        = w.trace ++ ([.Jq cfg.Fabric.CA.OIDCClaimKey,
            .GetMSPKeyfile (filepath.Join [cfg.Fabric.CA.ClientHome, "users".toList, user.Subject]),
            .osGlob (filepath.Join [filepath.Join
              [filepath.Join [cfg.Fabric.CA.ClientHome, "users".toList, user.Subject],
                "msp".toList, "keystore".toList], "*".toList])] ++ reg ++ load) ∧
      ((∃ keyFile, fabric.keyfileIn w.fs
          (filepath.Join [cfg.Fabric.CA.ClientHome, "users".toList, user.Subject]) = .ok keyFile) →
        reg = []) ∧
      ((∃ err, fabric.keyfileIn w.fs
          (filepath.Join [cfg.Fabric.CA.ClientHome, "users".toList, user.Subject]) = .error err) →
        ∃ evs, reg = .RegisterAndEnrollUser { decoded with Name := user.Subject } :: evs ∧
          ∀ e ∈ evs, e.ofRegistration cfg user.Subject) ∧
      (load = [] ∨
        ∃ evs, load = .LoadMSPKeyCert
              (filepath.Join [cfg.Fabric.CA.ClientHome, "users".toList, user.Subject])
            :: .GetMSPKeyfile
              (filepath.Join [cfg.Fabric.CA.ClientHome, "users".toList, user.Subject]) :: evs ∧
          ∀ e ∈ evs, e.external = true ∧ e.readOnly = true) := by
  have hload := fun w0 : World σ =>
    fabric.LoadMSPKeyCert_trace w0 cfg.Fabric.CA.ClientHome "users".toList [user.Subject]
      (by decide)
  have hreg := fun w0 : World σ =>
    fabric.RegisterAndEnrollUser_trace ext cfg w0 { decoded with Name := user.Subject }
  have hfs : (w.log (.Jq cfg.Fabric.CA.OIDCClaimKey)).fs = w.fs := rfl
  unfold proxy.enrollUserHandler
  simp only [hu, hactive, hjq, hm, hd, fabric.GetMSPKeyfile_eq, hfs]
  simp only [Bool.true_eq_false, if_false]
  cases hkey : fabric.keyfileIn w.fs
      (filepath.Join [cfg.Fabric.CA.ClientHome, "users".toList, user.Subject]) with
  | ok keyFile =>
    simp only []
    split
    · next err w2 heq =>
      obtain ⟨evs, ht, hp⟩ := hload _
      rw [heq] at ht
      simp only [World.log] at ht
      refine ⟨[], _, ?_, fun _ => rfl, ?_, Or.inr ⟨evs, rfl, hp⟩⟩
      · simp only [ht, List.append_assoc, List.singleton_append, List.cons_append,
          List.nil_append, List.append_nil]
      · rintro ⟨err2, herr2⟩
        cases herr2
    · next keyCert w2 heq =>
      obtain ⟨evs, ht, hp⟩ := hload _
      rw [heq] at ht
      simp only [World.log] at ht
      refine ⟨[], _, ?_, fun _ => rfl, ?_, Or.inr ⟨evs, rfl, hp⟩⟩
      · simp only [ht, List.append_assoc, List.singleton_append, List.cons_append,
          List.nil_append, List.append_nil]
      · rintro ⟨err2, herr2⟩
        cases herr2
  | error err =>
    simp only []
    split
    · next err1 w1 henrolled =>
      split at henrolled
      · next err2 w2 hcall =>
        simp only [Prod.mk.injEq, Option.some.injEq] at henrolled
        obtain ⟨-, hw⟩ := henrolled
        subst hw
        obtain ⟨evs, ht, hp⟩ := hreg _
        rw [hcall] at ht
        simp only [World.log] at ht
        refine ⟨_, [], ?_, ?_, fun _ => ⟨evs, rfl, hp⟩, Or.inl rfl⟩
        · simp only [ht, List.append_assoc, List.singleton_append, List.cons_append,
            List.nil_append, List.append_nil]
        · rintro ⟨keyFile, hk⟩
          cases hk
      · simp at henrolled
    · next w1 henrolled =>
      split at henrolled
      · simp at henrolled
      · next identity w2 hcall =>
        simp only [Prod.mk.injEq, true_and] at henrolled
        subst henrolled
        obtain ⟨evs, ht, hp⟩ := hreg _
        rw [hcall] at ht
        simp only [World.log] at ht
        split
        · next err3 w3 heq =>
          obtain ⟨evs2, ht2, hp2⟩ := hload w2
          rw [heq] at ht2
          simp only [] at ht2
          refine ⟨_, _, ?_, ?_, fun _ => ⟨evs, rfl, hp⟩, Or.inr ⟨evs2, rfl, hp2⟩⟩
          · simp only [ht2, ht, List.append_assoc, List.singleton_append, List.cons_append,
              List.nil_append, List.append_nil]
          · rintro ⟨keyFile, hk⟩
            cases hk
        · next keyCert w3 heq =>
          obtain ⟨evs2, ht2, hp2⟩ := hload w2
          rw [heq] at ht2
          simp only [] at ht2
          refine ⟨_, _, ?_, ?_, fun _ => ⟨evs, rfl, hp⟩, Or.inr ⟨evs2, rfl, hp2⟩⟩
          · simp only [ht2, ht, List.append_assoc, List.singleton_append, List.cons_append,
              List.nil_append, List.append_nil]
          · rintro ⟨keyFile, hk⟩
            cases hk

/-- Every call of `enrollUserHandler` for a user: the claim extraction, the two
lookups in the directory of the subject, a registration under the name of the
subject with its calls, and file reads. -/
theorem proxy.enrollUserHandler_events {σ : Type} (ext : External σ) (cfg : config.Config)
    (w : World σ) (r : proxy.Request) (user : oidc.IntrospectionResponse)
    (hu : r.user = some user) :
    ∀ e ∈ w.callsSince (proxy.enrollUserHandler ext cfg w r).2,
      e = .Jq cfg.Fabric.CA.OIDCClaimKey ∨
      e = .GetMSPKeyfile (filepath.Join [cfg.Fabric.CA.ClientHome, "users".toList, user.Subject]) ∨
      e = .LoadMSPKeyCert (filepath.Join [cfg.Fabric.CA.ClientHome, "users".toList, user.Subject]) ∨
      (∃ regReq, e = .RegisterAndEnrollUser regReq ∧ regReq.Name = user.Subject) ∨
      (e.external = true ∧ e.readOnly = true) ∨
      e.ofRegistration cfg user.Subject := by
  intro e he
  have hjqOnly : (proxy.enrollUserHandler ext cfg w r).2 = w.log (.Jq cfg.Fabric.CA.OIDCClaimKey) →
      e = .Jq cfg.Fabric.CA.OIDCClaimKey := by
    intro h
    rw [h, World.callsSince_of_trace w _ [.Jq cfg.Fabric.CA.OIDCClaimKey] rfl] at he
    simpa using he
  cases hactive : user.Active with
  | false =>
    have h : (proxy.enrollUserHandler ext cfg w r).2 = w := by
      simp [proxy.enrollUserHandler, hu, hactive]
    rw [h, World.callsSince_of_trace w w [] (by simp)] at he
    simp at he
  | true =>
    cases hjq : util.Jq user.Claims cfg.Fabric.CA.OIDCClaimKey with
    | panicked =>
      exact Or.inl (hjqOnly (by simp [proxy.enrollUserHandler, hu, hactive, hjq]))
    | returned res =>
      obtain ⟨fabricClaim, errOpt⟩ := res
      cases errOpt with
      | some err =>
        exact Or.inl (hjqOnly (by simp [proxy.enrollUserHandler, hu, hactive, hjq]))
      | none =>
        cases hm : ext.jsonMarshal fabricClaim with
        | error err =>
          exact Or.inl (hjqOnly (by simp [proxy.enrollUserHandler, hu, hactive, hjq, hm]))
        | ok fabricClaimBytes =>
          cases hd : ext.jsonUnmarshalRegistrationRequest fabricClaimBytes with
          | error err =>
            exact Or.inl (hjqOnly (by simp [proxy.enrollUserHandler, hu, hactive, hjq, hm, hd]))
          | ok decoded =>
            obtain ⟨reg, load, ht, hok, herr, hload⟩ := proxy.enrollUserHandler_calls ext cfg w r
              user fabricClaim fabricClaimBytes decoded hu hactive hjq hm hd
            rw [World.callsSince_of_trace w _ _ ht] at he
            simp only [List.mem_append, List.mem_cons, List.mem_singleton, List.not_mem_nil,
              or_false] at he
            rcases he with ((he | he | he) | he) | he
            · exact Or.inl he
            · exact Or.inr (Or.inl he)
            · exact Or.inr (Or.inr (Or.inr (Or.inr (Or.inl (by subst he; exact ⟨rfl, rfl⟩)))))
            · cases hkey : fabric.keyfileIn w.fs
                  (filepath.Join [cfg.Fabric.CA.ClientHome, "users".toList, user.Subject]) with
              | ok keyFile =>
                rw [hok ⟨keyFile, hkey⟩] at he
                simp at he
              | error err =>
                obtain ⟨evs, hreg, hp⟩ := herr ⟨err, hkey⟩
                rw [hreg] at he
                rcases List.mem_cons.1 he with he | he
                · exact Or.inr (Or.inr (Or.inr (Or.inl ⟨_, he, rfl⟩)))
                · exact Or.inr (Or.inr (Or.inr (Or.inr (Or.inr (hp e he)))))
            · rcases hload with hnil | ⟨evs, hl, hp⟩
              · rw [hnil] at he
                simp at he
              · rw [hl] at he
                simp only [List.mem_cons] at he
                rcases he with he | he | he
                · exact Or.inr (Or.inr (Or.inl he))
                · exact Or.inr (Or.inl he)
                · exact Or.inr (Or.inr (Or.inr (Or.inr (Or.inl (hp e he)))))

/-! ## When the enroll flow registers -/

/-- C14, the claim at a failing input. The keystore of `alice` holds a key file
and her certificate file is missing, so `LoadMSPKeyCert` on her directory
fails; yet `enrollUserHandler` does not call `RegisterAndEnrollUser`: its calls
are the claim extraction, the keystore lookup, which succeeds, and
`LoadMSPKeyCert` with its reads, and it answers 500. -/
theorem enroll_key_without_certificate_counterexample :
    (fabric.GetMSPKeyfile (freshWorld aliceKeyOnlyFS) "fabric/users/alice".toList).1
      = .ok "fabric/users/alice/msp/keystore/key_sk".toList ∧
    os.ReadFile aliceKeyOnlyFS "fabric/users/alice/msp/signcerts/cert.pem".toList = none ∧
    (fabric.LoadMSPKeyCert (freshWorld aliceKeyOnlyFS) "fabric/users/alice".toList).1
      = .error "failed to read certificate file" ∧
    (proxy.enrollUserHandler demoExternal demoConfig (freshWorld aliceKeyOnlyFS) aliceRequest).1
      = .returned ⟨500, .text "failed to read certificate file"⟩ ∧
    (proxy.enrollUserHandler demoExternal demoConfig (freshWorld aliceKeyOnlyFS)
        aliceRequest).2.trace
      = [ .Jq "fabric".toList,
          .GetMSPKeyfile "fabric/users/alice".toList,
          .osGlob "fabric/users/alice/msp/keystore/*".toList,
          .LoadMSPKeyCert "fabric/users/alice".toList,
          .GetMSPKeyfile "fabric/users/alice".toList,
          .osGlob "fabric/users/alice/msp/keystore/*".toList,
          .osReadFile "fabric/users/alice/msp/signcerts/cert.pem".toList ] :=
  ⟨rfl, rfl, rfl, rfl, rfl⟩

/-- C14, as the code has it. The enroll flow decides by the keystore lookup
alone. For every active user whose claim at the configured path is extracted,
marshalled and decoded into a registration request, `enrollUserHandler` calls
`RegisterAndEnrollUser` if and only if `GetMSPKeyfile` on the directory of the
subject fails. When that lookup finds a key file while the certificate file
`msp/signcerts/cert.pem` cannot be read, `LoadMSPKeyCert` on that directory
fails, no registration takes place and the answer is 500. -/
theorem enroll_registers_iff_keystore_lookup_fails {σ : Type} (ext : External σ)
    (cfg : config.Config) (w : World σ) (r : proxy.Request) (user : oidc.IntrospectionResponse)
    (fabricClaim : Value) (fabricClaimBytes : GoString) (decoded : api.RegistrationRequest)
    (hu : r.user = some user) (hactive : user.Active = true)
    (hjq : util.Jq user.Claims cfg.Fabric.CA.OIDCClaimKey = .returned (fabricClaim, none))
    (hm : ext.jsonMarshal fabricClaim = .ok fabricClaimBytes)
    (hd : ext.jsonUnmarshalRegistrationRequest fabricClaimBytes = .ok decoded) :
    ((∃ regReq, Event.RegisterAndEnrollUser regReq ∈
        w.callsSince (proxy.enrollUserHandler ext cfg w r).2) ↔
      ∃ err, (fabric.GetMSPKeyfile w
        (filepath.Join [cfg.Fabric.CA.ClientHome, "users".toList, user.Subject])).1
          = .error err) ∧
    (∀ keyFile,
      (fabric.GetMSPKeyfile w
        (filepath.Join [cfg.Fabric.CA.ClientHome, "users".toList, user.Subject])).1
          = .ok keyFile →
      os.ReadFile w.fs (filepath.Join [filepath.Join
        [cfg.Fabric.CA.ClientHome, "users".toList, user.Subject],
          "msp".toList, "signcerts".toList, "cert.pem".toList]) = none →
      (fabric.LoadMSPKeyCert w
        (filepath.Join [cfg.Fabric.CA.ClientHome, "users".toList, user.Subject])).1
          = .error "failed to read certificate file" ∧
      (proxy.enrollUserHandler ext cfg w r).1
        = .returned ⟨proxy.StatusInternalServerError, .text "failed to read certificate file"⟩ ∧
      ∀ regReq, Event.RegisterAndEnrollUser regReq ∉
        w.callsSince (proxy.enrollUserHandler ext cfg w r).2) := by
  obtain ⟨reg, load, ht, hok, herr, hload⟩ := proxy.enrollUserHandler_calls ext cfg w r
    user fabricClaim fabricClaimBytes decoded hu hactive hjq hm hd
  have hcalls := World.callsSince_of_trace w _ _ ht
  have hnotload : ∀ regReq, Event.RegisterAndEnrollUser regReq ∉ load := by
    intro regReq hmem
    rcases hload with hnil | ⟨evs, hl, hp⟩
    · rw [hnil] at hmem
      simp at hmem
    · rw [hl] at hmem
      simp only [List.mem_cons] at hmem
      rcases hmem with hmem | hmem | hmem
      · cases hmem
      · cases hmem
      · have := (hp _ hmem).1
        simp [Event.external] at this
  have hnone : (∃ keyFile, fabric.keyfileIn w.fs
      (filepath.Join [cfg.Fabric.CA.ClientHome, "users".toList, user.Subject]) = .ok keyFile) →
      ∀ regReq, Event.RegisterAndEnrollUser regReq ∉
        w.callsSince (proxy.enrollUserHandler ext cfg w r).2 := by
    intro hkey regReq hmem
    rw [hcalls, hok hkey] at hmem
    simp only [List.mem_append, List.mem_cons, List.mem_singleton, List.not_mem_nil,
      or_false] at hmem
    rcases hmem with (hmem | hmem | hmem) | hmem
    · cases hmem
    · cases hmem
    · cases hmem
    · exact hnotload regReq hmem
  rw [fabric.GetMSPKeyfile_eq]
  refine ⟨⟨?_, ?_⟩, ?_⟩
  · rintro ⟨regReq, hmem⟩
    cases hkey : fabric.keyfileIn w.fs
        (filepath.Join [cfg.Fabric.CA.ClientHome, "users".toList, user.Subject]) with
    | ok keyFile => exact absurd hmem (hnone ⟨keyFile, hkey⟩ regReq)
    | error err => exact ⟨err, rfl⟩
  · rintro ⟨err, hkey⟩
    obtain ⟨evs, hreg, -⟩ := herr ⟨err, hkey⟩
    refine ⟨{ decoded with Name := user.Subject }, ?_⟩
    rw [hcalls, hreg]
    simp
  · intro keyFile hkey hcert
    simp only [] at hkey
    have hJ := filepath.Join_single_Join cfg.Fabric.CA.ClientHome "users".toList [user.Subject]
      (by decide)
    have hkc : ∀ fs : FS, fs = w.fs → fabric.keyCertIn fs
        (filepath.Join [cfg.Fabric.CA.ClientHome, "users".toList, user.Subject])
          = .error "failed to read certificate file" := by
      intro fs hfs
      subst hfs
      have hcert2 : os.ReadFile w.fs (filepath.Join
          [filepath.Join [cfg.Fabric.CA.ClientHome, "users".toList, user.Subject],
            "msp".toList, "signcerts".toList, "cert.pem".toList]) = none := hcert
      simp only [fabric.keyCertIn, hJ, hkey, hcert2]
    refine ⟨?_, ?_, hnone ⟨keyFile, hkey⟩⟩
    · obtain ⟨w2, h2, -⟩ := fabric.LoadMSPKeyCert_reads w
        (filepath.Join [cfg.Fabric.CA.ClientHome, "users".toList, user.Subject])
      rw [h2]
      exact hkc w.fs rfl
    · obtain ⟨w2, h2, -⟩ := fabric.LoadMSPKeyCert_reads
        (((w.log (.Jq cfg.Fabric.CA.OIDCClaimKey)).log (.GetMSPKeyfile
          (filepath.Join [cfg.Fabric.CA.ClientHome, "users".toList, user.Subject]))).log
          (.osGlob (filepath.Join [filepath.Join
            [filepath.Join [cfg.Fabric.CA.ClientHome, "users".toList, user.Subject],
              "msp".toList, "keystore".toList], "*".toList])))
        (filepath.Join [cfg.Fabric.CA.ClientHome, "users".toList, user.Subject])
      have h3 : fabric.keyCertIn
          (((w.log (.Jq cfg.Fabric.CA.OIDCClaimKey)).log (.GetMSPKeyfile
            (filepath.Join [cfg.Fabric.CA.ClientHome, "users".toList, user.Subject]))).log
            (.osGlob (filepath.Join [filepath.Join
              [filepath.Join [cfg.Fabric.CA.ClientHome, "users".toList, user.Subject],
                "msp".toList, "keystore".toList], "*".toList]))).fs
          (filepath.Join [cfg.Fabric.CA.ClientHome, "users".toList, user.Subject])
            = .error "failed to read certificate file" := hkc _ rfl
      rw [h3] at h2
      have hfs : (w.log (.Jq cfg.Fabric.CA.OIDCClaimKey)).fs = w.fs := rfl
      unfold proxy.enrollUserHandler
      simp only [hu, hactive, hjq, hm, hd, fabric.GetMSPKeyfile_eq, hfs, hkey, h2]
      simp

/-- C14, witness: on an empty file system the keystore lookup for `alice`
fails, and her request makes `enrollUserHandler` call `RegisterAndEnrollUser`. -/
theorem enroll_registers_iff_keystore_lookup_fails_witness :
    (fabric.GetMSPKeyfile (freshWorld []) "fabric/users/alice".toList).1
      = .error "no key file found in keystore" ∧
    Event.RegisterAndEnrollUser
        { Name := "alice".toList, Typ := [], Secret := [], MaxEnrollments := 0, Affiliation := [],
          Attributes := [], CAName := [] } ∈
      (freshWorld []).callsSince
        (proxy.enrollUserHandler demoExternal demoConfig (freshWorld []) aliceRequest).2 ∧
    ((∃ regReq, Event.RegisterAndEnrollUser regReq ∈
        (freshWorld []).callsSince
          (proxy.enrollUserHandler demoExternal demoConfig (freshWorld []) aliceRequest).2) ↔
      ∃ err, (fabric.GetMSPKeyfile (freshWorld [])
        (filepath.Join [demoConfig.Fabric.CA.ClientHome, "users".toList, alice.Subject])).1
          = .error err) :=
  ⟨rfl, by decide,
   (enroll_registers_iff_keystore_lookup_fails demoExternal demoConfig (freshWorld [])
      aliceRequest alice (.object [("affiliation".toList, .string "org1.dept1".toList)]) []
      { Name := [], Typ := [], Secret := [], MaxEnrollments := 0, Affiliation := [],
        Attributes := [], CAName := [] } rfl rfl rfl rfl rfl).1⟩

/-! ## The identity registered depends on the subject alone -/

/-- C16. The identity registered does not depend on the claims. For every two
requests of users with the same subject, whatever their claims, the states they
are served in and the behaviour of the JSON decoder, every call made by
`enrollUserHandler` for either of them satisfies: a `RegisterAndEnrollUser`
call and a registration at the certificate authority carry a
`RegistrationRequest` whose `Name` is the subject; `GetMSPKeyfile` and
`LoadMSPKeyCert` are called on the directory `Join(ClientHome, "users",
subject)`; the directory created is `msp` in that directory; and the CA clients
are initialised in that directory or in `ClientHome`. -/
theorem registration_independent_of_claims {σ : Type} (ext : External σ) (cfg : config.Config)
    (w1 w2 : World σ) (r1 r2 : proxy.Request) (u1 u2 : oidc.IntrospectionResponse)
    (h1 : r1.user = some u1) (h2 : r2.user = some u2) (hsubject : u1.Subject = u2.Subject) :
    ∀ e, (e ∈ w1.callsSince (proxy.enrollUserHandler ext cfg w1 r1).2 ∨
          e ∈ w2.callsSince (proxy.enrollUserHandler ext cfg w2 r2).2) →
      (∀ regReq, e = .RegisterAndEnrollUser regReq → regReq.Name = u1.Subject) ∧
      (∀ regReq, e = .caRegister regReq → regReq.Name = u1.Subject) ∧
      (∀ homeDir, e = .GetMSPKeyfile homeDir ∨ e = .LoadMSPKeyCert homeDir →
        homeDir = filepath.Join [cfg.Fabric.CA.ClientHome, "users".toList, u1.Subject]) ∧
      (∀ path, e = .osMkdirAll path →
        path = filepath.Join
          [filepath.Join [cfg.Fabric.CA.ClientHome, "users".toList, u1.Subject], "msp".toList]) ∧
      (∀ homeDir, e = .caInit homeDir →
        homeDir = filepath.Join [cfg.Fabric.CA.ClientHome, "users".toList, u1.Subject] ∨
          homeDir = cfg.Fabric.CA.ClientHome) := by
  intro e he
  have hev : e = .Jq cfg.Fabric.CA.OIDCClaimKey ∨
      e = .GetMSPKeyfile (filepath.Join [cfg.Fabric.CA.ClientHome, "users".toList, u1.Subject]) ∨
      e = .LoadMSPKeyCert (filepath.Join [cfg.Fabric.CA.ClientHome, "users".toList, u1.Subject]) ∨
      (∃ regReq, e = .RegisterAndEnrollUser regReq ∧ regReq.Name = u1.Subject) ∨
      (e.external = true ∧ e.readOnly = true) ∨
      e.ofRegistration cfg u1.Subject := by
    rcases he with he | he
    · exact proxy.enrollUserHandler_events ext cfg w1 r1 u1 h1 e he
    · have := proxy.enrollUserHandler_events ext cfg w2 r2 u2 h2 e he
      rw [← hsubject] at this
      exact this
  rcases hev with h | h | h | ⟨regReq, h, hname⟩ | ⟨hx, hr⟩ | h
  · subst h
    simp
  · subst h
    simp
  · subst h
    simp
  · subst h
    simp [hname]
  · cases e <;> simp [Event.external, Event.readOnly] at hx hr ⊢
  · cases e <;> simp [Event.ofRegistration] at h ⊢ <;> exact h

/-- C16, witness: `alice` enrolls once with the claim `{"affiliation":
"org1.dept1"}` and once, on a fresh state, with the claim `{"id": "mallory"}`,
which the decoder turns into a registration request named `mallory`. Both
requests register the name `alice` and use the directory `fabric/users/alice`. -/
theorem registration_independent_of_claims_witness :
    idClaimExternal.jsonUnmarshalRegistrationRequest "mallory".toList
      = .ok { Name := "mallory".toList, Typ := [], Secret := [], MaxEnrollments := 0,
              Affiliation := [], Attributes := [], CAName := [] } ∧
    Event.RegisterAndEnrollUser
        { Name := "alice".toList, Typ := [], Secret := [], MaxEnrollments := 0, Affiliation := [],
          Attributes := [], CAName := [] } ∈
      (freshWorld []).callsSince
        (proxy.enrollUserHandler idClaimExternal demoConfig (freshWorld []) aliceRequest).2 ∧
    Event.RegisterAndEnrollUser
        { Name := "alice".toList, Typ := [], Secret := [], MaxEnrollments := 0, Affiliation := [],
          Attributes := [], CAName := [] } ∈
      (freshWorld []).callsSince
        (proxy.enrollUserHandler idClaimExternal demoConfig (freshWorld [])
          aliceNamedMalloryRequest).2 ∧
    Event.LoadMSPKeyCert "fabric/users/alice".toList ∈
      (freshWorld []).callsSince
        (proxy.enrollUserHandler idClaimExternal demoConfig (freshWorld [])
          aliceNamedMalloryRequest).2 ∧
    ∀ e, (e ∈ (freshWorld []).callsSince
            (proxy.enrollUserHandler idClaimExternal demoConfig (freshWorld []) aliceRequest).2 ∨
          e ∈ (freshWorld []).callsSince
            (proxy.enrollUserHandler idClaimExternal demoConfig (freshWorld [])
              aliceNamedMalloryRequest).2) →
      (∀ regReq, e = .RegisterAndEnrollUser regReq → regReq.Name = alice.Subject) ∧
      (∀ regReq, e = .caRegister regReq → regReq.Name = alice.Subject) ∧
      (∀ homeDir, e = .GetMSPKeyfile homeDir ∨ e = .LoadMSPKeyCert homeDir →
        homeDir = filepath.Join [demoConfig.Fabric.CA.ClientHome, "users".toList, alice.Subject]) ∧
      (∀ path, e = .osMkdirAll path →
        path = filepath.Join
          [filepath.Join [demoConfig.Fabric.CA.ClientHome, "users".toList, alice.Subject],
            "msp".toList]) ∧
      (∀ homeDir, e = .caInit homeDir →
        homeDir = filepath.Join [demoConfig.Fabric.CA.ClientHome, "users".toList, alice.Subject] ∨
          homeDir = demoConfig.Fabric.CA.ClientHome) :=
  ⟨rfl, by decide, by decide, by decide,
   registration_independent_of_claims idClaimExternal demoConfig (freshWorld []) (freshWorld [])
    aliceRequest aliceNamedMalloryRequest alice aliceNamedMallory rfl rfl rfl⟩

/-! ## Where `Jq` returns -/

theorem strings.Index_bounds (s : GoString) (c : Char) :
    -1 ≤ strings.Index s c ∧ strings.Index s c ≤ (s.length : Int) := by
  induction s with
  | nil => simp [strings.Index]
  | cons x xs ih =>
    simp only [strings.Index, List.length_cons]
    split
    · constructor <;> omega
    · split
      · constructor <;> omega
      · push_cast
        constructor <;> omega

theorem util.JqLoop_returns (keys : List GoString)
    (h : ∀ key ∈ keys, strings.Contains key '[' = true → strings.Contains key ']' = true →
      strings.Index key '[' < strings.Index key ']') :
    ∀ current : Value, ∃ r, util.JqLoop current keys = .returned r := by
  induction keys with
  | nil => intro current; exact ⟨_, rfl⟩
  | cons key keys ih =>
    have ih2 := ih (fun k hk => h k (List.mem_cons_of_mem _ hk))
    have hkey := h key (List.mem_cons_self _ _)
    intro current
    cases current with
    | object currentMap =>
      unfold util.JqLoop
      by_cases hboth : (strings.Contains key '[' && strings.Contains key ']') = true
      · simp only [hboth, if_true]
        have hb := Bool.and_eq_true_iff.1 hboth
        have hlt := hkey hb.1 hb.2
        have hopen : 0 ≤ strings.Index key '[' := by
          have := hb.1
          simpa [strings.Contains] using this
        have hI1 := strings.Index_bounds key '['
        have hI2 := strings.Index_bounds key ']'
        have hs1 : GoString.slice key 0 (strings.Index key '[')
            = .returned ((key.drop (0 : Int).toNat).take
                ((strings.Index key '[').toNat - (0 : Int).toNat)) := by
          unfold GoString.slice
          rw [if_pos ⟨le_refl 0, hopen, hI1.2⟩]
        have hs2 : GoString.slice key (strings.Index key '[' + 1) (strings.Index key ']')
            = .returned ((key.drop (strings.Index key '[' + 1).toNat).take
                ((strings.Index key ']').toNat - (strings.Index key '[' + 1).toNat)) := by
          unfold GoString.slice
          rw [if_pos ⟨by omega, by omega, hI2.2⟩]
        rw [hs1]
        simp only []
        rw [hs2]
        simp only []
        split
        · exact ⟨_, rfl⟩
        · next index hindex =>
          split
          · next array harray =>
            split
            · exact ⟨_, rfl⟩
            · next hrange =>
              have hlen : index.toNat < array.length := by omega
              have hget : array[index.toNat]? = some (array.get ⟨index.toNat, hlen⟩) := by
                simp [List.getElem?_eq_getElem hlen]
              rw [hget]
              exact ih2 _
          · exact ⟨_, rfl⟩
      · simp only [hboth]
        exact ih2 _
    | null => exact ⟨_, rfl⟩
    | bool b => exact ⟨_, rfl⟩
    | number n => exact ⟨_, rfl⟩
    | string s => exact ⟨_, rfl⟩
    | array xs => exact ⟨_, rfl⟩

/-- `Jq` returns, with a value or with an error, on every claim mapping and
every path in which each segment holding both brackets has its first `[` before
its first `]`; whether the segment is well formed otherwise does not matter. -/
theorem Jq_returns_on_ordered_brackets (input : List (GoString × Value)) (path : GoString)
    (h : ∀ key ∈ strings.Split (strings.TrimPrefix path ['.']) '.',
      strings.Contains key '[' = true → strings.Contains key ']' = true →
        strings.Index key '[' < strings.Index key ']') :
    ∃ r, util.Jq input path = .returned r :=
  util.JqLoop_returns _ h _

/-- The malformed path `a[x]y.b[[2]]..c]` has its brackets in order in every
segment, so `Jq` returns on it, here with the invalid-index error. -/
theorem Jq_returns_on_ordered_brackets_witness :
    util.Jq nestedClaims "a[x]y.b[[2]]..c]".toList
      = .returned (.null, some (.invalidArrayIndex "a[x]y".toList)) ∧
    ∃ r, util.Jq nestedClaims "a[x]y.b[[2]]..c]".toList = .returned r :=
  ⟨rfl, Jq_returns_on_ordered_brackets nestedClaims "a[x]y.b[[2]]..c]".toList (by decide)⟩

/-! ## The keystore lookup on a home directory without metacharacters -/

theorem filepath.Match_star (n : GoString) (h : '/' ∉ n) :
    filepath.Match ['*'] n = .ok true := by
  have hscan : filepath.scanChunk ['*'] = (true, [], []) := by decide
  have hc : strings.Contains n '/' = false := by
    cases hcon : strings.Contains n '/' with
    | false => rfl
    | true => exact absurd ((strings.Contains_iff n '/').1 hcon) h
  simp [filepath.Match, filepath.MatchLoop, hscan, hc]

theorem filepath.globNames_star (dir : GoString) (names found : List GoString)
    (h : ∀ n ∈ names, '/' ∉ n) :
    filepath.globNames dir ['*'] names found
      = .ok (found ++ names.map (fun n => filepath.Join [dir, n])) := by
  induction names generalizing found with
  | nil => simp [filepath.globNames]
  | cons n names ih =>
    have hn := filepath.Match_star n (h n (List.mem_cons_self _ _))
    simp only [filepath.globNames, hn, if_true]
    rw [ih _ (fun m hm => h m (List.mem_cons_of_mem _ hm))]
    simp

theorem os.childName_normal (dir key n : GoString) (h : os.childName dir key = some n) :
    filepath.Normal n := by
  unfold os.childName at h
  simp only [] at h
  generalize (if dir = ['.'] then [] else if dir = ['/'] then dir else dir ++ ['/']) = stem at h
  by_cases hp : stem.isPrefixOf key = true
  · rw [if_pos hp] at h
    by_cases hname : List.drop stem.length key = [] ∨ List.drop stem.length key = ['.'] ∨
        List.drop stem.length key = ['.', '.'] ∨ (List.drop stem.length key).contains '/' = true
    · rw [if_pos hname] at h
      cases h
    · rw [if_neg hname] at h
      simp only [Option.some.injEq] at h
      subst h
      simp only [not_or] at hname
      refine ⟨hname.1, hname.2.1, hname.2.2.1, ?_⟩
      have := hname.2.2.2
      simpa using this
  · rw [if_neg hp] at h
    cases h

theorem List.mem_of_mem_eraseDups_loop {α : Type} [BEq α] [LawfulBEq α] (x : α) :
    ∀ (as bs : List α), x ∈ List.eraseDups.loop as bs → x ∈ as ∨ x ∈ bs := by
  intro as
  induction as with
  | nil =>
    intro bs hx
    simp only [List.eraseDups.loop, List.mem_reverse] at hx
    exact Or.inr hx
  | cons a as ih =>
    intro bs hx
    unfold List.eraseDups.loop at hx
    split at hx
    · rcases ih _ hx with h | h
      · exact Or.inl (List.mem_cons_of_mem _ h)
      · exact Or.inr h
    · rcases ih _ hx with h | h
      · exact Or.inl (List.mem_cons_of_mem _ h)
      · rcases List.mem_cons.1 h with h | h
        · exact Or.inl (by rw [h]; exact List.mem_cons_self _ _)
        · exact Or.inr h

theorem os.Readdirnames_normal (fs : FS) (dir n : GoString) (h : n ∈ os.Readdirnames fs dir) :
    filepath.Normal n := by
  unfold os.Readdirnames List.eraseDups at h
  rcases List.mem_of_mem_eraseDups_loop n _ _ h with h | h
  · obtain ⟨entry, -, hentry⟩ := List.mem_filterMap.1 h
    exact os.childName_normal dir entry.1 n hentry
  · simp at h

theorem slices.mem_insertSorted (x y : GoString) (ys : List GoString)
    (h : y ∈ slices.insertSorted x ys) : y = x ∨ y ∈ ys := by
  induction ys with
  | nil => simpa [slices.insertSorted] using h
  | cons z zs ih =>
    unfold slices.insertSorted at h
    split at h
    · simpa using h
    · rcases List.mem_cons.1 h with h | h
      · exact Or.inr (by rw [h]; exact List.mem_cons_self _ _)
      · rcases ih h with h | h
        · exact Or.inl h
        · exact Or.inr (List.mem_cons_of_mem _ h)

theorem slices.mem_of_mem_SortStrings (names : List GoString) (y : GoString)
    (h : y ∈ slices.SortStrings names) : y ∈ names := by
  induction names with
  | nil => simp [slices.SortStrings] at h
  | cons x xs ih =>
    have h2 : y ∈ slices.insertSorted x (slices.SortStrings xs) := by
      simpa [slices.SortStrings] using h
    rcases slices.mem_insertSorted x y _ h2 with h3 | h3
    · rw [h3]; exact List.mem_cons_self _ _
    · exact List.mem_cons_of_mem _ (ih h3)

/-- The pattern `<dir>/*`, for a directory without metacharacters, is matched
by `glob` in that directory. -/
theorem filepath.globWithLimit_plain_dir_glob (fs : FS) (limit : Nat) (dir : GoString)
    (hne : dir ≠ []) (hmeta : filepath.hasMeta dir = false) :
    filepath.globWithLimit fs (limit + 1) (dir ++ ['/', '*'])
      = filepath.glob fs dir ['*'] [] := by
  have hX : ∀ c ∈ dir ++ ['/'], c ≠ '*' ∧ c ≠ '?' ∧ c ≠ '[' ∧ c ≠ '\\' := by
    intro c hc
    simp only [List.mem_append, List.mem_singleton] at hc
    rcases hc with hc | rfl
    · exact (filepath.hasMeta_eq_false dir).1 hmeta c hc
    · decide
  have hM : filepath.Match (dir ++ ['/', '*']) [] = .ok false := by
    have := filepath.Match_plain_star (dir ++ ['/']) (by simp) hX
    simpa using this
  have hpm : filepath.hasMeta (dir ++ ['/', '*']) = true := by simp [filepath.hasMeta]
  have hlast : strings.LastIndex (dir ++ '/' :: ['*']) '/' = (dir.length : Int) :=
    strings.LastIndex_append_sep dir ['*'] '/' (by decide)
  have hsplit : filepath.Split (dir ++ ['/', '*']) = (dir ++ ['/'], ['*']) := by
    have h1 : ((dir.length : Int) + 1).toNat = dir.length + 1 := by omega
    have h2 : dir ++ ['/', '*'] = (dir ++ ['/']) ++ ['*'] := by simp
    simp only [filepath.Split, hlast, h1]
    rw [h2, List.take_left' (by simp), List.drop_left' (by simp)]
  have hcg : filepath.cleanGlobPath (dir ++ ['/']) = dir := by
    have h1 : dir ++ ['/'] ≠ ['/'] := by
      cases dir with
      | nil => exact absurd rfl hne
      | cons x xs => simp
    simp only [filepath.cleanGlobPath, List.append_eq_nil, List.cons_ne_nil, and_false, if_false,
      h1, List.length_append, List.length_singleton, Nat.add_sub_cancel]
    exact List.take_left' rfl
  simp only [filepath.globWithLimit, hM, hpm, Bool.not_true, Bool.false_eq_true, if_false, hsplit,
    hcg, hmeta, Bool.not_false, if_true]

/-- The pattern `<dir>/*`, for a directory without metacharacters that exists,
matches its entries, in byte order. -/
theorem filepath.Glob_plain_dir_entries (fs : FS) (dir : GoString) (hne : dir ≠ [])
    (hmeta : filepath.hasMeta dir = false) (hdir : os.Stat fs dir = some .dir) :
    filepath.Glob fs (dir ++ ['/', '*'])
      = .ok ((slices.SortStrings (os.Readdirnames fs dir)).map
          (fun n => filepath.Join [dir, n])) := by
  have h := filepath.globWithLimit_plain_dir_glob fs 9999 dir hne hmeta
  have hG : filepath.Glob fs (dir ++ ['/', '*'])
      = filepath.globWithLimit fs (9999 + 1) (dir ++ ['/', '*']) := rfl
  rw [hG, h]
  unfold filepath.glob
  rw [hdir]
  simp only []
  rw [filepath.globNames_star]
  · simp
  · intro n hn
    exact (os.Readdirnames_normal fs dir n (slices.mem_of_mem_SortStrings _ n hn)).2.2.2

theorem os.Stat_cons_ne (fs : FS) (p name : GoString) (node : Node) (h : p ≠ name) :
    os.Stat ((p, node) :: fs) name = os.Stat fs name := by
  simp [os.Stat, FS.lookup, h]

theorem os.ReadFile_cons_ne (fs : FS) (p name : GoString) (node : Node) (h : p ≠ name) :
    os.ReadFile ((p, node) :: fs) name = os.ReadFile fs name := by
  simp [os.ReadFile, FS.lookup, h]

theorem os.Readdirnames_cons_none (fs : FS) (p dir : GoString) (node : Node)
    (h : os.childName dir p = none) :
    os.Readdirnames ((p, node) :: fs) dir = os.Readdirnames fs dir := by
  simp [os.Readdirnames, List.filterMap_cons, h]

theorem os.Create_eq (fs fs1 : FS) (name : GoString) (h : os.Create fs name = some fs1) :
    fs1 = (name, .file []) :: fs := by
  unfold os.Create at h
  split at h
  · cases h
  · split at h
    · cases h
    · simp only [Option.some.injEq] at h
      exact h.symm
  · cases h

/-- The file system a successful `writeCert` leaves: the file at the path it
was given, created empty and then written, on top of the file system before. -/
theorem fabric.writeCert_fs {σ : Type} (w w1 : World σ) (identity : lib.Identity)
    (filePath cert : GoString) (hcert : fabric.certFromIdentity identity = .ok cert)
    (hwrite : fabric.writeCert w identity filePath = (none, w1)) :
    w1.fs = (filePath, .file cert) :: (filePath, .file []) :: w.fs := by
  unfold fabric.writeCert at hwrite
  rw [hcert] at hwrite
  simp only [] at hwrite
  split at hwrite
  · simp at hwrite
  · next fs hcreate =>
    simp only [Prod.mk.injEq, true_and] at hwrite
    subst hwrite
    have := os.Create_eq _ _ _ hcreate
    subst this
    rfl

/-- The certificate file of a directory is no entry of its keystore, and is
neither the keystore nor a path below it. -/
theorem os.certificate_apart_from_keystore (M first : GoString) :
    M ++ "/signcerts/cert.pem".toList ≠ M ++ "/keystore".toList ∧
    M ++ "/signcerts/cert.pem".toList ≠ M ++ "/keystore".toList ++ '/' :: first ∧
    os.childName (M ++ "/keystore".toList) (M ++ "/signcerts/cert.pem".toList) = none := by
  refine ⟨?_, ?_, ?_⟩
  · intro h
    have := List.append_cancel_left h
    revert this
    decide
  · intro h
    rw [List.append_assoc] at h
    have h2 := List.append_cancel_left h
    have h3 := congrArg (fun l => l[1]?) h2
    revert h3
    simp
  · have h1 : M ++ "/keystore".toList ≠ ['.'] := by
      intro h
      have := congrArg List.length h
      simp at this
    have h2 : M ++ "/keystore".toList ≠ ['/'] := by
      intro h
      have := congrArg List.length h
      simp at this
    have h3 : ¬ (M ++ "/keystore".toList ++ ['/']) <+: (M ++ "/signcerts/cert.pem".toList) := by
      rw [List.append_assoc, List.prefix_append_right_inj]
      decide
    have h4 : (M ++ "/keystore".toList ++ ['/']).isPrefixOf (M ++ "/signcerts/cert.pem".toList)
        = false := by
      cases hp : (M ++ "/keystore".toList ++ ['/']).isPrefixOf (M ++ "/signcerts/cert.pem".toList)
        with
      | false => rfl
      | true => exact absurd (List.isPrefixOf_iff_prefix.1 hp) h3
    unfold os.childName
    simp only [h1, h2, if_false, h4, Bool.false_eq_true]

/-- The paths of the credential store below a home directory
`Join(a, b, rest...)`: all of them are `<home>/msp` followed by fixed elements. -/
theorem fabric.credential_paths (a b : GoString) (rest : List GoString) (hb : b ≠ []) :
    ∃ M : GoString,
      filepath.Join [filepath.Join (a :: b :: rest), "msp".toList, "keystore".toList]
        = M ++ "/keystore".toList ∧
      filepath.Join [filepath.Join (a :: b :: rest), "msp".toList, "signcerts".toList,
          "cert.pem".toList] = M ++ "/signcerts/cert.pem".toList ∧
      (filepath.hasMeta (filepath.Join (a :: b :: rest)) = false →
        filepath.hasMeta (M ++ "/keystore".toList) = false) ∧
      filepath.Join [M ++ "/keystore".toList, "*".toList] = M ++ "/keystore".toList ++ ['/', '*'] ∧
      ∀ n, filepath.Normal n →
        filepath.Join [M ++ "/keystore".toList, n] = M ++ "/keystore".toList ++ '/' :: n := by
  obtain ⟨rooted, out, hstack, hU⟩ := filepath.Join_eq_render a b rest hb
  have hN1 : filepath.Normal "msp".toList := by unfold filepath.Normal; decide
  have hN2 : filepath.Normal "keystore".toList := by unfold filepath.Normal; decide
  have hN3 : filepath.Normal "*".toList := by unfold filepath.Normal; decide
  have hN4 : filepath.Normal "signcerts".toList := by unfold filepath.Normal; decide
  have hN5 : filepath.Normal "cert.pem".toList := by unfold filepath.Normal; decide
  have hs1 : filepath.CleanStack rooted ("msp".toList :: out) :=
    filepath.CleanStack_push _ _ _ hstack hN1
  have hs2 : filepath.CleanStack rooted ("keystore".toList :: "msp".toList :: out) :=
    filepath.CleanStack_push _ _ _ hs1 hN2
  have hs3 : filepath.CleanStack rooted ("signcerts".toList :: "msp".toList :: out) :=
    filepath.CleanStack_push _ _ _ hs1 hN4
  have hK : filepath.Join [filepath.render rooted out, "msp".toList, "keystore".toList]
      = filepath.render rooted ("keystore".toList :: "msp".toList :: out) := by
    have := filepath.Join_render rooted out ["msp".toList, "keystore".toList] hstack
      (by intro e he; simp only [List.mem_cons, List.mem_singleton, List.not_mem_nil, or_false] at he
          rcases he with rfl | rfl
          · exact hN1
          · exact hN2) (by simp)
    simpa using this
  have hC : filepath.Join [filepath.render rooted out, "msp".toList, "signcerts".toList,
      "cert.pem".toList]
      = filepath.render rooted ("cert.pem".toList :: "signcerts".toList :: "msp".toList :: out) := by
    have := filepath.Join_render rooted out ["msp".toList, "signcerts".toList, "cert.pem".toList]
      hstack
      (by intro e he; simp only [List.mem_cons, List.mem_singleton, List.not_mem_nil, or_false] at he
          rcases he with rfl | rfl | rfl
          · exact hN1
          · exact hN4
          · exact hN5) (by simp)
    simpa using this
  have hK2 := (filepath.render_cons rooted ("msp".toList :: out) "keystore".toList hs1 (by simp)).1
  have hC2 := (filepath.render_cons rooted ("msp".toList :: out) "signcerts".toList hs1 (by simp)).1
  have hC3 := (filepath.render_cons rooted ("signcerts".toList :: "msp".toList :: out)
    "cert.pem".toList hs3 (by simp)).1
  have hKM : filepath.render rooted ("keystore".toList :: "msp".toList :: out)
      = filepath.render rooted ("msp".toList :: out) ++ "/keystore".toList := hK2
  have hCM : filepath.render rooted
      ("cert.pem".toList :: "signcerts".toList :: "msp".toList :: out)
      = filepath.render rooted ("msp".toList :: out) ++ "/signcerts/cert.pem".toList := by
    rw [hC3, hC2, List.append_assoc]
    rfl
  refine ⟨filepath.render rooted ("msp".toList :: out), ?_, ?_, ?_, ?_, ?_⟩
  · rw [hU, hK, hKM]
  · rw [hU, hC, hCM]
  · intro hmeta
    rw [hU] at hmeta
    rw [← hKM, filepath.hasMeta_render]
    intro e he
    simp only [List.mem_cons] at he
    rcases he with rfl | rfl | he
    · decide
    · decide
    · exact (filepath.hasMeta_render rooted out).1 hmeta e he
  · rw [← hKM]
    have := filepath.Join_render rooted _ ["*".toList] hs2
      (by intro e he; simp only [List.mem_singleton] at he; subst he; exact hN3) (by simp)
    have h2 := (filepath.render_cons rooted _ "*".toList hs2 (by simp)).1
    simp only [List.reverse_singleton, List.singleton_append] at this
    rw [this, h2]
    rfl
  · intro n hn
    rw [← hKM]
    have := filepath.Join_render rooted _ [n] hs2
      (by intro e he; simp only [List.mem_singleton] at he; subst he; exact hn) (by simp)
    have h2 := (filepath.render_cons rooted _ n hs2 (by simp)).1
    simp only [List.reverse_singleton, List.singleton_append] at this
    rw [this, h2]

/-- The credential store round trip on a keystore whose first entry is a key
file. Let the home directory `Join(home, "users", subject)` of a subject have no
glob metacharacter, let its keystore directory exist, and let the first of the
entries of the keystore in byte order be a regular file. If the certificate of
an identity is extracted and `writeCert` succeeds in writing it to
`<home directory>/msp/signcerts/cert.pem`, then `LoadMSPKeyCert` on the home
directory, run on the state `writeCert` leaves, succeeds: its `Cert` is exactly
the certificate of the identity and its `Key` the content of that first file. -/
theorem credential_store_round_trip {σ : Type} (w w1 : World σ) (identity : lib.Identity)
    (home subject cert first keyBytes : GoString) (others : List GoString)
    (hmeta : filepath.hasMeta (filepath.Join [home, "users".toList, subject]) = false)
    (hdir : os.Stat w.fs (filepath.Join
      [filepath.Join [home, "users".toList, subject], "msp".toList, "keystore".toList])
        = some .dir)
    (hsorted : slices.SortStrings (os.Readdirnames w.fs (filepath.Join
      [filepath.Join [home, "users".toList, subject], "msp".toList, "keystore".toList]))
        = first :: others)
    (hfile : os.ReadFile w.fs (filepath.Join [filepath.Join
      [filepath.Join [home, "users".toList, subject], "msp".toList, "keystore".toList], first])
        = some keyBytes)
    (hcert : fabric.certFromIdentity identity = .ok cert)
    (hwrite : fabric.writeCert w identity (filepath.Join
      [filepath.Join [home, "users".toList, subject], "msp".toList, "signcerts".toList,
        "cert.pem".toList]) = (none, w1)) :
    (fabric.LoadMSPKeyCert w1 (filepath.Join [home, "users".toList, subject])).1
      = .ok { Cert := cert, Key := keyBytes } := by
  obtain ⟨M, hK, hC, hKmeta, hpat, hjoin⟩ :=
    fabric.credential_paths home "users".toList [subject] (by decide)
  have hJ := filepath.Join_single_Join home "users".toList [subject] (by decide)
  have hfirstmem : first ∈ os.Readdirnames w.fs (M ++ "/keystore".toList) := by
    rw [hK] at hsorted
    apply slices.mem_of_mem_SortStrings
    rw [hsorted]
    exact List.mem_cons_self _ _
  have hnormal := os.Readdirnames_normal _ _ _ hfirstmem
  obtain ⟨hne1, hne2, hchild⟩ := os.certificate_apart_from_keystore M first
  have hfs := fabric.writeCert_fs w w1 identity _ cert hcert hwrite
  rw [hC] at hfs
  rw [hK] at hdir hsorted hfile
  rw [hjoin first hnormal] at hfile
  have hdir1 : os.Stat w1.fs (M ++ "/keystore".toList) = some .dir := by
    rw [hfs, os.Stat_cons_ne _ _ _ _ hne1, os.Stat_cons_ne _ _ _ _ hne1]
    exact hdir
  have hnames1 : os.Readdirnames w1.fs (M ++ "/keystore".toList)
      = os.Readdirnames w.fs (M ++ "/keystore".toList) := by
    rw [hfs, os.Readdirnames_cons_none _ _ _ _ hchild, os.Readdirnames_cons_none _ _ _ _ hchild]
  have hfile1 : os.ReadFile w1.fs (M ++ "/keystore".toList ++ '/' :: first) = some keyBytes := by
    rw [hfs, os.ReadFile_cons_ne _ _ _ _ hne2, os.ReadFile_cons_ne _ _ _ _ hne2]
    exact hfile
  have hkne : M ++ "/keystore".toList ≠ [] := by simp
  have hglob := filepath.Glob_plain_dir_entries w1.fs (M ++ "/keystore".toList) hkne
    (hKmeta hmeta) hdir1
  rw [hnames1, hsorted] at hglob
  have hkey : fabric.keyfileIn w1.fs
      (filepath.Join [filepath.Join [home, "users".toList, subject]])
      = .ok (M ++ "/keystore".toList ++ '/' :: first) := by
    rw [hJ]
    unfold fabric.keyfileIn
    rw [hK, hpat, hglob]
    simp only [List.map_cons]
    rw [hjoin first hnormal]
  have hcertfile := fabric.writeCert_ReadFile w w1 identity _ cert hcert hwrite
  exact fabric.LoadMSPKeyCert_of_files w1 _ cert _ keyBytes hkey hcertfile hfile1

/-- The round trip on the file system where `bob` is enrolled: `writeCert`
stores a renewed certificate of `bob`, and `LoadMSPKeyCert("fabric/users/bob")`
then returns that certificate with the key of the keystore. -/
theorem credential_store_round_trip_witness :
    (fabric.LoadMSPKeyCert (freshWorld bobFS) "fabric/users/bob".toList).1
      = .ok { Cert := "CERT bob".toList, Key := "KEY bob".toList } ∧
    (fabric.LoadMSPKeyCert
        (fabric.writeCert (freshWorld bobFS) bobRenewed
          "fabric/users/bob/msp/signcerts/cert.pem".toList).2
        (filepath.Join ["fabric".toList, "users".toList, "bob".toList])).1
      = .ok { Cert := "CERT bob renewed".toList, Key := "KEY bob".toList } :=
  ⟨rfl,
   credential_store_round_trip (freshWorld bobFS)
    (fabric.writeCert (freshWorld bobFS) bobRenewed
      "fabric/users/bob/msp/signcerts/cert.pem".toList).2
    bobRenewed "fabric".toList "bob".toList "CERT bob renewed".toList "key_sk".toList
    "KEY bob".toList [] rfl rfl rfl rfl rfl rfl⟩
